import Mathlib

/-!
# Verification of the Cortex schema transformer and structured-output generator

Shallow embedding of `packages/ai-sdk-provider-cortex-code/src/schema/transformer.ts`,
`.../schema/structured-output.ts` and `.../utils/model-helpers.ts`.

Modelling conventions:

* JSON values are the inductive `JVal`.  JSON numbers are modelled as `Int`:
  every number appearing in the claims is an integer, and JavaScript renders
  integers in template strings exactly as `Int` decimal notation.
* A JavaScript object is an insertion-ordered record `List (String × JVal)`.
  `{ ...schema }` copies the entry list, `delete o[k]` removes the key,
  `o[k] = v` updates the first occurrence in place or appends a fresh key at
  the end — exactly JavaScript's string-keyed property-order semantics.
  (JavaScript additionally orders integer-like keys first; none of the schema
  keywords is integer-like, so plain insertion order is the faithful model for
  every input exercised here.)
* `removeUnsupportedFeatures` can throw a `TypeError` on malformed inputs
  (e.g. `required: "abc"` reaches `"abc".filter`, or a `null` inside `anyOf`
  reaches `null.type`).  The embedding returns `Option`, with `none` for such
  throws.  One documented narrowing: a truthy non-string `description`
  combined with a nonempty constraint suffix is also mapped to `none`
  (JavaScript would coerce an array via `Array.prototype.includes`); no claim
  touches that corner.
* The source memoizes on object identity (`WeakMap`).  Object identity does
  not exist in a value model; the cache never changes any produced value
  (it returns a previously computed clean of the very same node), so it is
  omitted.  In particular `clean(clean(S))` in JavaScript recomputes — the
  outer argument is a fresh object, never a cache key — so the value-level
  embedding is faithful for the idempotence claim.
* The recursion of `removeUnsupportedFeatures` descends through values that
  were read back out of the mutated record, which hides the structural
  descent from the termination checker; the embedding therefore takes a fuel
  parameter and returns `none` on exhaustion.  Every theorem quantifies over
  the fuel, and concrete witnesses supply enough of it.
-/

set_option maxHeartbeats 1000000

namespace CortexSpec

/-- A JSON value (numbers restricted to integers, see the header note). -/
inductive JVal where
  | jnull
  | jbool (b : Bool)
  | jnum (n : Int)
  | jstr (s : String)
  | jarr (xs : List JVal)
  | jobj (fields : List (String × JVal))

instance : Inhabited JVal := ⟨.jnull⟩

mutual

/-- Boolean equality of JSON values (the nested inductive cannot derive it). -/
def beqJ : JVal → JVal → Bool
  | .jnull, .jnull => true
  | .jbool a, .jbool b => a == b
  | .jnum a, .jnum b => a == b
  | .jstr a, .jstr b => a == b
  | .jarr xs, .jarr ys => beqJL xs ys
  | .jobj fs, .jobj gs => beqJF fs gs
  | _, _ => false

/-- Boolean equality of JSON value lists. -/
def beqJL : List JVal → List JVal → Bool
  | [], [] => true
  | x :: xs, y :: ys => beqJ x y && beqJL xs ys
  | _, _ => false

/-- Boolean equality of JSON records. -/
def beqJF : List (String × JVal) → List (String × JVal) → Bool
  | [], [] => true
  | (k, v) :: fs, (k2, v2) :: gs => k == k2 && beqJ v v2 && beqJF fs gs
  | _, _ => false

end

mutual

theorem beqJ_eq : ∀ a b : JVal, beqJ a b = true → a = b
  | .jnull, .jnull, _ => rfl
  | .jbool a, .jbool b, h => by simpa [beqJ] using h
  | .jnum a, .jnum b, h => by simpa [beqJ] using h
  | .jstr a, .jstr b, h => by simpa [beqJ] using h
  | .jarr xs, .jarr ys, h => by
    rw [beqJL_eq xs ys (by simpa [beqJ] using h)]
  | .jobj fs, .jobj gs, h => by
    rw [beqJF_eq fs gs (by simpa [beqJ] using h)]

theorem beqJL_eq : ∀ xs ys : List JVal, beqJL xs ys = true → xs = ys
  | [], [], _ => rfl
  | x :: xs, y :: ys, h => by
    have h' := h
    simp only [beqJL, Bool.and_eq_true] at h'
    rw [beqJ_eq x y h'.1, beqJL_eq xs ys h'.2]

theorem beqJF_eq : ∀ fs gs : List (String × JVal), beqJF fs gs = true → fs = gs
  | [], [], _ => rfl
  | (k, v) :: fs, (k2, v2) :: gs, h => by
    have h' := h
    simp only [beqJF, Bool.and_eq_true] at h'
    have hk : k = k2 := by simpa using h'.1.1
    rw [hk, beqJ_eq v v2 h'.1.2, beqJF_eq fs gs h'.2]

end

mutual

theorem beqJ_refl : ∀ a : JVal, beqJ a a = true
  | .jnull => rfl
  | .jbool a => by simp [beqJ]
  | .jnum a => by simp [beqJ]
  | .jstr a => by simp [beqJ]
  | .jarr xs => by simpa [beqJ] using beqJL_refl xs
  | .jobj fs => by simpa [beqJ] using beqJF_refl fs

theorem beqJL_refl : ∀ xs : List JVal, beqJL xs xs = true
  | [] => rfl
  | x :: xs => by simp [beqJL, beqJ_refl x, beqJL_refl xs]

theorem beqJF_refl : ∀ fs : List (String × JVal), beqJF fs fs = true
  | [] => rfl
  | (k, v) :: fs => by simp [beqJF, beqJ_refl v, beqJF_refl fs]

end

instance : DecidableEq JVal := fun a b =>
  if h : beqJ a b = true then .isTrue (beqJ_eq a b h)
  else .isFalse (fun e => h (e ▸ beqJ_refl a))

/-- A JavaScript object: insertion-ordered key/value entries. -/
abbrev Rec := List (String × JVal)

/-- Property read: value of the first entry with the given key (JS `o[k]`,
`undefined` modelled as `none`). -/
def getOpt : Rec → String → Option JVal
  | [], _ => none
  | (k, v) :: rest, key => if k = key then some v else getOpt rest key

/-- Property write `o[k] = v`: update the first occurrence in place, else
append at the end (JS property-creation order). -/
def setKey : Rec → String → JVal → Rec
  | [], key, v => [(key, v)]
  | (k, w) :: rest, key, v =>
    if k = key then (k, v) :: rest else (k, w) :: setKey rest key v

/-- Property delete `delete o[k]`. -/
def delKey (r : Rec) (key : String) : Rec :=
  r.filter (fun kv => kv.1 != key)

/-- JavaScript truthiness of a JSON value. -/
def truthy : JVal → Bool
  | .jnull => false
  | .jbool b => b
  | .jnum n => n != 0
  | .jstr s => s ≠ ""
  | .jarr _ => true
  | .jobj _ => true

/-- Truthiness of a possibly-absent property (`undefined` is falsy). -/
def optTruthy : Option JVal → Bool
  | none => false
  | some v => truthy v

/-- Own enumerable string-keyed entries, as used by both `Object.entries` and
spread/`Object.assign` with this value as source: an object yields its
entries, an array its elements under index keys, a string its characters
under index keys, and primitives yield nothing. -/
def jsEntries : JVal → Rec
  | .jobj fs => fs
  | .jarr xs => (xs.enum.map fun p => (toString p.1, p.2))
  | .jstr s => (s.toList.enum.map fun p => (toString p.1, JVal.jstr (String.mk [p.2])))
  | _ => []

/-- Property read on an arbitrary value: objects look keys up, other non-null
values have none of the schema keys (JS yields `undefined`).  Callers that
would throw on `null` handle that case themselves. -/
def vGet : JVal → String → Option JVal
  | .jobj fs, key => getOpt fs key
  | _, _ => none

mutual

/-- Structural size of a `JVal`, used as fuel for string conversion. -/
def jSize : JVal → Nat
  | .jnull => 1
  | .jbool _ => 1
  | .jnum _ => 1
  | .jstr _ => 1
  | .jarr xs => 1 + jSizeL xs
  | .jobj fs => 1 + jSizeF fs

def jSizeL : List JVal → Nat
  | [] => 0
  | x :: xs => jSize x + jSizeL xs

def jSizeF : List (String × JVal) → Nat
  | [] => 0
  | kv :: fs => jSize kv.2 + jSizeF fs

end

/-- Worker for `jsToStr`, structurally recursive on a fuel that only the
array-join case consumes; `jsToStr` passes `jSize`, which always suffices,
so the exhaustion branch is dead code. -/
def jsToStrGo (fuel : Nat) (v : JVal) : String :=
  match v with
  | .jnull => "null"
  | .jbool true => "true"
  | .jbool false => "false"
  | .jnum n => toString n
  | .jstr s => s
  | .jobj _ => "[object Object]"
  | .jarr xs =>
    match fuel with
    | 0 => ""
    | f + 1 =>
      String.intercalate "," (xs.map fun w =>
        match w with
        | .jnull => ""
        | w' => jsToStrGo f w')

/-- JavaScript `String(v)` / template-literal conversion, for the value shapes
that can reach it here (arrays join their elements with commas, rendering
`null` elements empty; objects are `[object Object]`). -/
def jsToStr (v : JVal) : String := jsToStrGo (jSize v) v

/-- Substring test (JS `String.prototype.includes`). -/
def strContains (hay pat : String) : Bool :=
  hay.toList.tails.any (fun t => pat.toList.isPrefixOf t)

/-- `UNSUPPORTED_KEYWORDS` from transformer.ts. -/
def UNSUPPORTED_KEYWORDS : List String :=
  ["default", "$schema",
   "multipleOf", "minimum", "maximum", "exclusiveMinimum", "exclusiveMaximum",
   "minLength", "maxLength", "format",
   "uniqueItems", "contains", "minContains", "maxContains", "minItems", "maxItems",
   "patternProperties", "minProperties", "maxProperties", "propertyNames"]

/-- One clause group of `buildConstraintDescription`: a pair of optional
endpoint values rendered as a range/minimum/maximum clause. -/
def rangeClause (lo hi : Option JVal) (both : String → String → String)
    (loTxt hiTxt : String → String) : List String :=
  match lo, hi with
  | some a, some b => [both (jsToStr a) (jsToStr b)]
  | some a, none => [loTxt (jsToStr a)]
  | none, some b => [hiTxt (jsToStr b)]
  | none, none => []

/-- `buildConstraintDescription` from transformer.ts, reading the original
node's entries.  Produces the parenthesized suffix or `""`. -/
def buildConstraintDescription (fs : Rec) : String :=
  let lenC := rangeClause (getOpt fs "minLength") (getOpt fs "maxLength")
    (fun a b => a ++ "-" ++ b ++ " characters")
    (fun a => "minimum " ++ a ++ " characters")
    (fun b => "maximum " ++ b ++ " characters")
  let fmtC := match getOpt fs "format" with
    | some f => if truthy f then ["format: " ++ jsToStr f] else []
    | none => []
  let numC := rangeClause (getOpt fs "minimum") (getOpt fs "maximum")
    (fun a b => "range: " ++ a ++ "-" ++ b)
    (fun a => "minimum: " ++ a)
    (fun b => "maximum: " ++ b)
  let exMinC := match getOpt fs "exclusiveMinimum" with
    | some v => ["> " ++ jsToStr v]
    | none => []
  let exMaxC := match getOpt fs "exclusiveMaximum" with
    | some v => ["< " ++ jsToStr v]
    | none => []
  let multC := match getOpt fs "multipleOf" with
    | some v => ["multiple of " ++ jsToStr v]
    | none => []
  let itemsC := rangeClause (getOpt fs "minItems") (getOpt fs "maxItems")
    (fun a b => a ++ "-" ++ b ++ " items")
    (fun a => "minimum " ++ a ++ " items")
    (fun b => "maximum " ++ b ++ " items")
  let uniqC := if optTruthy (getOpt fs "uniqueItems") then ["unique items"] else []
  let propC := rangeClause (getOpt fs "minProperties") (getOpt fs "maxProperties")
    (fun a b => a ++ "-" ++ b ++ " properties")
    (fun a => "minimum " ++ a ++ " properties")
    (fun b => "maximum " ++ b ++ " properties")
  let all := lenC ++ fmtC ++ numC ++ exMinC ++ exMaxC ++ multC ++ itemsC ++ uniqC ++ propC
  if all.length > 0 then " (" ++ String.intercalate ", " all ++ ")" else ""

/-- The `anyOf` filter predicate from transformer.ts: an alternative is
null-typed when its `type` is `'null'` or a type array containing `'null'`.
(Property access on non-objects yields `undefined`; `null` alternatives throw
before this is consulted and are handled at the call site.) -/
def isNullType (item : JVal) : Bool :=
  match vGet item "type" with
  | some (.jstr s) => s = "null"
  | some (.jarr ts) => ts.contains (JVal.jstr "null")
  | _ => false

/-- Description step of `removeUnsupportedFeatures` (transformer.ts lines
240-249): append the constraint suffix to a truthy description when not
already a substring.  A truthy non-string description reaching `.includes`
is a throw (`none`; see the header note). -/
def descStep (w : Rec) : Option Rec :=
  if buildConstraintDescription w = "" then some w
  else
    match getOpt w "description" with
    | some d =>
      if truthy d then
        match d with
        | .jstr s =>
          if strContains s (buildConstraintDescription w) then some w
          else some (setKey w "description" (.jstr (s ++ buildConstraintDescription w)))
        | _ => none
      else some w
    | none => some w

/-- Keyword-removal step (transformer.ts lines 251-254). -/
def kwStep (w : Rec) : Rec :=
  UNSUPPORTED_KEYWORDS.foldl delKey w

/-- Monadic map over `Option` (the recursive cleaning of a list of
alternatives; a `none` anywhere is a propagated throw). -/
def listMapM (f : JVal → Option JVal) : List JVal → Option (List JVal)
  | [] => some []
  | x :: xs =>
    match f x, listMapM f xs with
    | some y, some ys => some (y :: ys)
    | _, _ => none

/-- `anyOf` flattening step (transformer.ts lines 256-274).  A truthy
non-array `anyOf` throws at `.filter`; a `null` alternative throws at
`item.type` inside the filter callback. -/
def anyOfStep (rc : JVal → Option JVal) (w : Rec) : Option Rec :=
  match getOpt w "anyOf" with
  | none => some w
  | some a =>
    if truthy a then
      match a with
      | .jarr items =>
        if items.contains JVal.jnull then none
        else
          match items.filter (fun it => !isNullType it) with
          | [] => some w
          | [alt] =>
            some (setKey
              (delKey ((jsEntries alt).foldl (fun acc kv => setKey acc kv.1 kv.2) w) "anyOf")
              "_isOptional" (.jbool true))
          | alts => (listMapM rc alts).map (fun cs => setKey w "anyOf" (.jarr cs))
      | _ => none
    else some w

/-- `type`-array flattening step (transformer.ts lines 276-288). -/
def typeArrStep (w : Rec) : Rec :=
  match getOpt w "type" with
  | some (.jarr ts) =>
    if ts.contains (JVal.jstr "null") then
      match ts.filter (fun t => t != JVal.jstr "null") with
      | [] => w
      | [t] => setKey (setKey w "type" t) "_isOptional" (.jbool true)
      | nn => setKey (setKey w "type" (.jarr nn)) "_isOptional" (.jbool true)
    else w
  | _ => w

/-- One iteration of the properties loop (transformer.ts lines 299-309):
clean the value; a `null` result throws at `processedValue._isOptional`;
a truthy `_isOptional` marker is recorded and stripped from the stored
child.  Returns the stored value and the optional flag. -/
def cleanPropVal (rc : JVal → Option JVal) (v : JVal) : Option (JVal × Bool) :=
  match rc v with
  | none => none
  | some c =>
    match c with
    | .jnull => none
    | .jobj fs =>
      if optTruthy (getOpt fs "_isOptional") then
        some (.jobj (delKey fs "_isOptional"), true)
      else some (c, false)
    | _ => some (c, false)

/-- The properties loop: accumulate `cleanedProps` by assignment (duplicate
source keys collapse, as in a JS object) and the optional-key set. -/
def cleanPropsLoop (rc : JVal → Option JVal) :
    List (String × JVal) → Rec → List String → Option (Rec × List String)
  | [], acc, opts => some (acc, opts)
  | (k, v) :: rest, acc, opts =>
    match cleanPropVal rc v with
    | none => none
    | some (store, isOpt) =>
      cleanPropsLoop rc rest (setKey acc k store)
        (if isOpt && !opts.contains k then opts ++ [k] else opts)

/-- Recomputed `required`: all property keys not in the optional set
(transformer.ts lines 313-317). -/
def recomputeRequired (props : Rec) (opts : List String) : JVal :=
  .jarr (((props.map Prod.fst).filter (fun k => !opts.contains k)).map JVal.jstr)

/-- Membership of a required-array element in the optional set
(`Set.has`, SameValueZero: only the strings that were added can match). -/
def inOptSet (e : JVal) (opts : List String) : Bool :=
  match e with
  | .jstr s => opts.contains s
  | _ => false

/-- Property names every plain object inherits from `Object.prototype`.
The `in` operator traverses the prototype chain, so `key in cleanedProps`
is true for these names whether or not they are own keys of the record. -/
def OBJECT_PROTO_KEYS : List String :=
  ["constructor", "hasOwnProperty", "isPrototypeOf", "propertyIsEnumerable",
   "toLocaleString", "toString", "valueOf", "__defineGetter__",
   "__defineSetter__", "__lookupGetter__", "__lookupSetter__", "__proto__"]

/-- The JS `in` test of the required filter (transformer.ts line 323):
an own key of the record, or a property inherited from `Object.prototype`. -/
def inObj (props : Rec) (key : String) : Bool :=
  (props.map Prod.fst).contains key || OBJECT_PROTO_KEYS.contains key

/-- The `required` normalization (transformer.ts lines 312-325).  A truthy
non-array `required` throws at `.filter` — except an object whose `length`
property is `0`, which JavaScript sends down the recompute branch.  The
membership test is the `in` operator, which also accepts
`Object.prototype` names. -/
def requiredStep (w : Rec) (props : Rec) (opts : List String) : Option Rec :=
  match getOpt w "required" with
  | none => some (setKey w "required" (recomputeRequired props opts))
  | some r =>
    if !truthy r then some (setKey w "required" (recomputeRequired props opts))
    else
      match r with
      | .jarr [] => some (setKey w "required" (recomputeRequired props opts))
      | .jarr l =>
        some (setKey w "required" (.jarr (l.filter (fun e =>
          inObj props (jsToStr e) && !inOptSet e opts))))
      | .jobj fs =>
        if getOpt fs "length" = some (.jnum 0) then
          some (setKey w "required" (recomputeRequired props opts))
        else none
      | _ => none

/-- Object normalization step (transformer.ts lines 290-327): force
`additionalProperties: false`, clean every property, recompute `required`. -/
def objStep (rc : JVal → Option JVal) (w : Rec) : Option Rec :=
  if getOpt w "type" = some (.jstr "object") then
    match getOpt (setKey w "additionalProperties" (.jbool false)) "properties" with
    | some pv =>
      if truthy pv then
        match cleanPropsLoop rc (jsEntries pv) [] [] with
        | none => none
        | some (props, opts) =>
          requiredStep (setKey (setKey w "additionalProperties" (.jbool false))
            "properties" (.jobj props)) props opts
      else some (setKey w "additionalProperties" (.jbool false))
    | none => some (setKey w "additionalProperties" (.jbool false))
  else some w

/-- Array-items step (transformer.ts lines 329-332). -/
def itemsStep (rc : JVal → Option JVal) (w : Rec) : Option Rec :=
  if getOpt w "type" = some (.jstr "array") then
    match getOpt w "items" with
    | some iv =>
      if truthy iv then (rc iv).map (fun c => setKey w "items" c) else some w
    | none => some w
  else some w

/-- `oneOf` step (transformer.ts lines 334-337): clean every alternative.
A truthy non-array `oneOf` throws at `.map`. -/
def oneOfStep (rc : JVal → Option JVal) (w : Rec) : Option Rec :=
  match getOpt w "oneOf" with
  | none => some w
  | some ov =>
    if truthy ov then
      match ov with
      | .jarr xs => (listMapM rc xs).map (fun cs => setKey w "oneOf" (.jarr cs))
      | _ => none
    else some w

/-- One call body of `removeUnsupportedFeatures`, parameterized by the
recursive cleaner.  Falsy or non-object inputs pass through unchanged
(`typeof` treats arrays as objects, so arrays are spread into a record and
processed). -/
def cleanCore (rc : JVal → Option JVal) (schema : JVal) : Option JVal :=
  match schema with
  | .jobj _ | .jarr _ =>
    (descStep (jsEntries schema)).bind fun w1 =>
    (anyOfStep rc (kwStep w1)).bind fun w3 =>
    (objStep rc (typeArrStep w3)).bind fun w5 =>
    (itemsStep rc w5).bind fun w6 =>
    (oneOfStep rc w6).map JVal.jobj
  | _ => some schema

/-- `removeUnsupportedFeatures` with a fuel bound on recursion depth
(`none` on exhaustion; see the header note). -/
def clean : Nat → JVal → Option JVal
  | 0, _ => none
  | Nat.succ fuel, schema => cleanCore (fun v => clean fuel v) schema

/-! ## structured-output.ts: JSON extraction, repair and parsing -/

/-- JavaScript whitespace, for `String.prototype.trim` and JSON parsing
(the ASCII whitespace characters; exotic Unicode spaces never occur here). -/
def isJsWs (c : Char) : Bool :=
  c = ' ' || c = '\t' || c = '\n' || c = '\r' || c = '\x0b' || c = '\x0c'

/-- JS `text.trim()`. -/
def jsTrim (s : String) : String :=
  String.mk (((s.toList.dropWhile isJsWs).reverse.dropWhile isJsWs).reverse)

/-- State of the brace-depth walk of `extractFirstJsonObject`
(structured-output.ts lines 506-539): current depth, inside-string flag,
escape-pending flag. -/
structure WalkSt where
  depth : Nat
  inStr : Bool
  esc : Bool
deriving DecidableEq

/-- One character transition of the brace walk, in the source's branch order:
pending escape consumes the character; `\` sets the escape; `"` toggles the
string flag; characters inside strings are skipped; `{`/`}` adjust depth. -/
def stepChar (st : WalkSt) (c : Char) : WalkSt :=
  if st.esc then { st with esc := false }
  else if c = '\\' then { st with esc := true }
  else if c = '"' then { st with inStr := !st.inStr }
  else if st.inStr then st
  else if c = '{' then { st with depth := st.depth + 1 }
  else if c = '}' then { st with depth := st.depth - 1 }
  else st

/-- The walk returns at this character: an unescaped `}` outside a string
that brings the depth from 1 to 0. -/
def retHere (st : WalkSt) (c : Char) : Bool :=
  !st.esc && !st.inStr && c = '}' && st.depth = 1

/-- Number of characters the brace walk consumes up to and including the
matching `}`, or `none` when the input ends first. -/
def walkCount : List Char → WalkSt → Option Nat
  | [], _ => none
  | c :: cs, st =>
    if retHere st c then some 1
    else (walkCount cs (stepChar st c)).map (· + 1)

/-- `extractFirstJsonObject` (structured-output.ts lines 501-542): find the
first `{`, walk to its matching `}`, return the spanned substring. -/
def extractFirstJsonObject (text : String) : Option String :=
  match text.toList.dropWhile (fun c => c ≠ '{') with
  | [] => none
  | cs => (walkCount cs ⟨0, false, false⟩).map (fun n => String.mk (cs.take n))

/-! ### A JSON parser (the model of `JSON.parse`)

Restricted to the values `JVal` can hold: numbers must be integers (a `.`,
`e` or `E` after the digit run is rejected — no claim exercises non-integer
numbers), and `\uXXXX` escapes map through `Char.ofNat`.  Raw control
characters inside strings are rejected, as `JSON.parse` does. -/

def isDig (c : Char) : Bool := '0' ≤ c && c ≤ '9'

def skipWs : List Char → List Char
  | c :: cs => if isJsWs c then skipWs cs else c :: cs
  | [] => []

def takeDigs : List Char → List Char × List Char
  | c :: cs =>
    if isDig c then
      let p := takeDigs cs
      (c :: p.1, p.2)
    else ([], c :: cs)
  | [] => ([], [])

def digsToNat (ds : List Char) : Nat :=
  ds.foldl (fun acc c => acc * 10 + (c.toNat - '0'.toNat)) 0

def hexDigVal (c : Char) : Option Nat :=
  if isDig c then some (c.toNat - '0'.toNat)
  else if 'a' ≤ c && c ≤ 'f' then some (c.toNat - 87)
  else if 'A' ≤ c && c ≤ 'F' then some (c.toNat - 55)
  else none

/-- String body after the opening quote: plain characters, the short escapes,
and `\uXXXX`. -/
def parseStrBody (acc : List Char) : List Char → Option (String × List Char)
  | '"' :: rest => some (String.mk acc.reverse, rest)
  | '\\' :: 'u' :: a :: b :: c :: d :: rest =>
    match hexDigVal a, hexDigVal b, hexDigVal c, hexDigVal d with
    | some va, some vb, some vc, some vd =>
      parseStrBody (Char.ofNat (((va * 16 + vb) * 16 + vc) * 16 + vd) :: acc) rest
    | _, _, _, _ => none
  | '\\' :: e :: rest =>
    match e with
    | '"' => parseStrBody ('"' :: acc) rest
    | '\\' => parseStrBody ('\\' :: acc) rest
    | '/' => parseStrBody ('/' :: acc) rest
    | 'n' => parseStrBody ('\n' :: acc) rest
    | 'r' => parseStrBody ('\r' :: acc) rest
    | 't' => parseStrBody ('\t' :: acc) rest
    | 'b' => parseStrBody (Char.ofNat 8 :: acc) rest
    | 'f' => parseStrBody (Char.ofNat 12 :: acc) rest
    | _ => none
  | c :: rest => if c.toNat < 32 then none else parseStrBody (c :: acc) rest
  | [] => none

/-- Integer parse: optional minus then a digit run; a following `.`/`e`/`E`
(a non-integer number) is outside the model and rejected. -/
def parseIntTok (cs : List Char) : Option (JVal × List Char) :=
  let p := match cs with
    | '-' :: r => (true, r)
    | _ => (false, cs)
  match takeDigs p.2 with
  | ([], _) => none
  | (ds, rest) =>
    match rest with
    | '.' :: _ => none
    | 'e' :: _ => none
    | 'E' :: _ => none
    | _ =>
      some (.jnum (if p.1 then -(digsToNat ds : Int) else (digsToNat ds : Int)), rest)

mutual

/-- Fuel-bounded recursive-descent JSON value parser. -/
def parseV : Nat → List Char → Option (JVal × List Char)
  | 0, _ => none
  | fuel + 1, cs =>
    match skipWs cs with
    | 'n' :: 'u' :: 'l' :: 'l' :: r => some (.jnull, r)
    | 't' :: 'r' :: 'u' :: 'e' :: r => some (.jbool true, r)
    | 'f' :: 'a' :: 'l' :: 's' :: 'e' :: r => some (.jbool false, r)
    | '"' :: r => (parseStrBody [] r).map (fun p => (.jstr p.1, p.2))
    | '[' :: r =>
      (match skipWs r with
       | ']' :: r2 => some (.jarr [], r2)
       | cs2 => (parseItems fuel cs2).map (fun p => (.jarr p.1, p.2)))
    | '{' :: r =>
      (match skipWs r with
       | '}' :: r2 => some (.jobj [], r2)
       | cs2 => (parseFields fuel cs2).map (fun p => (.jobj p.1, p.2)))
    | c :: rest =>
      if c = '-' || isDig c then parseIntTok (c :: rest) else none
    | [] => none

/-- One-or-more comma-separated array elements, ending at `]`. -/
def parseItems : Nat → List Char → Option (List JVal × List Char)
  | 0, _ => none
  | fuel + 1, cs =>
    match parseV fuel cs with
    | none => none
    | some (v, r) =>
      match skipWs r with
      | ',' :: r2 => (parseItems fuel (skipWs r2)).map (fun p => (v :: p.1, p.2))
      | ']' :: r2 => some ([v], r2)
      | _ => none

/-- One-or-more `"key": value` members, ending at `}`. -/
def parseFields : Nat → List Char → Option (List (String × JVal) × List Char)
  | 0, _ => none
  | fuel + 1, cs =>
    match skipWs cs with
    | '"' :: r =>
      (match parseStrBody [] r with
       | none => none
       | some (key, r1) =>
         match skipWs r1 with
         | ':' :: r2 =>
           (match parseV fuel (skipWs r2) with
            | none => none
            | some (v, r3) =>
              match skipWs r3 with
              | ',' :: r4 => (parseFields fuel (skipWs r4)).map (fun p => ((key, v) :: p.1, p.2))
              | '}' :: r4 => some ([(key, v)], r4)
              | _ => none)
         | _ => none)
    | _ => none

end

/-- `JSON.parse` model: a complete document with nothing but whitespace
after it. -/
def jsonParse (s : String) : Option JVal :=
  match parseV (s.toList.length + 1) s.toList with
  | some (v, rest) => if skipWs rest = [] then some v else none
  | none => none

/-- JS `\w` (word character) for the repair regex. -/
def isWordChar (c : Char) : Bool :=
  isDig c || ('a' ≤ c && c ≤ 'z') || ('A' ≤ c && c ≤ 'Z') || c = '_'

/-- Worker for the repair substitution: `run` is the reversed
word-character run read so far; a nonempty run directly followed by `:` is
emitted wrapped in quotes. -/
def fixUnquotedGo (run : List Char) : List Char → List Char
  | [] => run.reverse
  | c :: cs =>
    if isWordChar c then fixUnquotedGo (c :: run) cs
    else if c = ':' && !run.isEmpty then
      '"' :: (run.reverse ++ '"' :: ':' :: fixUnquotedGo [] cs)
    else run.reverse ++ c :: fixUnquotedGo [] cs

/-- The repair substitution `jsonText.replace(/(\w+):/g, '"$1":')`
(structured-output.ts line 559): every maximal word-character run directly
followed by a colon is wrapped in quotes (the regex matches exactly those). -/
def fixUnquoted (cs : List Char) : List Char :=
  fixUnquotedGo [] cs

/-- First 300 characters of the candidate text for the parse-error message
(`jsonText ? jsonText.substring(0, 300) : 'null'`). -/
def first300 (s : String) : String :=
  if s = "" then "null" else String.mk (s.toList.take 300)

/-- `parseWithFallback` (structured-output.ts lines 552-569).  The thrown
error embeds the engine's parse message, which is environment-specific; the
model uses the surrounding fixed template verbatim with a placeholder for
that fragment. -/
def parseWithFallback (jsonText : String) : Except String JVal :=
  match jsonParse jsonText with
  | some v => .ok v
  | none =>
    match jsonParse (String.mk (fixUnquoted jsonText.toList)) with
    | some v => .ok v
    | none =>
      .error ("Failed to parse JSON response: [parse error].\n" ++
        "Tried to fix JavaScript object syntax but still failed.\n" ++
        "Text (first 300 chars): " ++ first300 jsonText)

/-- Drop input up to and including the first "```". -/
def dropToFence : List Char → Option (List Char)
  | '`' :: '`' :: '`' :: rest => some rest
  | _ :: rest => dropToFence rest
  | [] => none

/-- Content up to (excluding) the next "```"; `none` when no fence follows. -/
def takeToFence : List Char → Option (List Char)
  | '`' :: '`' :: '`' :: _ => some []
  | c :: rest => (takeToFence rest).map (c :: ·)
  | [] => none

/-- The fenced-code-block match
`trimmed.match(/```(?:json)?\s*\n?([\s\S]*?)\n?```/)` (structured-output.ts
line 587): after the opening fence, an optional `json` tag and leading
whitespace are skipped; the captured group runs (lazily) to the next fence,
less one trailing newline. -/
def findCodeBlock (cs : List Char) : Option (List Char) :=
  (dropToFence cs).bind fun afterOpen =>
    let afterTag := match afterOpen with
      | 'j' :: 's' :: 'o' :: 'n' :: r => r
      | r => r
    let body := afterTag.dropWhile isJsWs
    (takeToFence body).map fun inner =>
      match inner.reverse with
      | '\n' :: r => r.reverse
      | _ => inner

/-- `extractAndParse` (structured-output.ts lines 579-603). -/
def extractAndParse (responseText : String) : Except String JVal :=
  let trimmed := jsTrim responseText
  let j1 := extractFirstJsonObject trimmed
  let j2 := match j1 with
    | some j => some j
    | none =>
      match findCodeBlock trimmed.toList with
      | some inner => extractFirstJsonObject (String.mk inner)
      | none => none
  match j2 with
  | none =>
    .error ("Could not extract JSON object from response.\n" ++
      "Response (first 500 chars): " ++ String.mk (trimmed.toList.take 500))
  | some j => parseWithFallback j

/-! ## model-helpers.ts -/

/-- `ModelHelpers.normalizeModelId`: strip a leading `cortex/`, lowercase.
A non-string or empty id returns unchanged (the model's ids are strings, so
only the empty case remains). -/
def normalizeModelId (modelId : String) : String :=
  if modelId = "" then modelId
  else (if modelId.startsWith "cortex/" then modelId.drop 7 else modelId).toLower

/-- `ModelHelpers.supportsStructuredOutputs`. -/
def supportsStructuredOutputs (modelId : String) : Bool :=
  if modelId = "" then false
  else
    let n := modelId.toLower
    strContains n "openai" || strContains n "claude" || strContains n "gpt-"

/-- `ModelHelpers.supportsTemperature`. -/
def supportsTemperature (modelId : String) (isStructuredOutput : Bool) : Bool :=
  if modelId = "" then true
  else if strContains modelId.toLower "openai" && isStructuredOutput then false
  else true

/-- `ModelHelpers.getUnsupportedStructuredOutputsWarning`. -/
def getUnsupportedStructuredOutputsWarning (modelId : String) : String :=
  "Model '" ++ modelId ++ "' does not support structured outputs. " ++
    "Attempting JSON mode fallback. For best results, use OpenAI or Claude models."

/-! ## structured-output.ts: prompt construction and `generateObject` -/

/-- `JSON.stringify(v, null, 2)` (pretty, two-space indent), fuel-bounded;
only used to build the system prompt, which no theorem inspects. -/
def stringifyPretty : Nat → Nat → JVal → String
  | _, _, .jnull => "null"
  | _, _, .jbool true => "true"
  | _, _, .jbool false => "false"
  | _, _, .jnum n => toString n
  | _, _, .jstr s => "\"" ++ s ++ "\""
  | 0, _, _ => ""
  | _ + 1, _, .jarr [] => "[]"
  | fuel + 1, d, .jarr xs =>
    let ind := String.mk (List.replicate (2 * (d + 1)) ' ')
    "[\n" ++ String.intercalate ",\n" (xs.map fun v => ind ++ stringifyPretty fuel (d + 1) v) ++
      "\n" ++ String.mk (List.replicate (2 * d) ' ') ++ "]"
  | _ + 1, _, .jobj [] => "\x7b\x7d"
  | fuel + 1, d, .jobj fs =>
    let ind := String.mk (List.replicate (2 * (d + 1)) ' ')
    "\x7b\n" ++ String.intercalate ",\n" (fs.map fun kv =>
      ind ++ "\"" ++ kv.1 ++ "\": " ++ stringifyPretty fuel (d + 1) kv.2) ++
      "\n" ++ String.mk (List.replicate (2 * d) ' ') ++ "\x7d"

/-- `StructuredOutputGenerator.buildSystemPrompt` (structured-output.ts
lines 450-467). -/
def buildSystemPrompt (fuel : Nat) (schema : JVal) (objectName : String) : String :=
  let schemaPrompt := stringifyPretty fuel 0 schema
  "You must respond with ONLY a valid JSON object that conforms to this schema. \n\n" ++
  "CRITICAL: Return ONLY the JSON object itself - no code blocks, no variable declarations, no markdown, no explanations.\n\n" ++
  "Schema for " ++ objectName ++ ":\n" ++ schemaPrompt ++ "\n\n" ++
  "Example correct response format:\n" ++
  "\x7b\"key\": \"value\", \"number\": 123\x7d\n\n" ++
  "DO NOT wrap in markdown code blocks.\n" ++
  "DO NOT use const/let/var declarations.\n" ++
  "DO NOT add semicolons.\n" ++
  "Just return the raw JSON object."

/-- Conversation message. -/
structure Msg where
  role : String
  content : String
deriving DecidableEq

/-- `StructuredOutputGenerator.prepareMessages` (structured-output.ts lines
476-490): clean the schema, prepend the synthesized system message.  `none`
when cleaning throws.  (The source also receives a `maxTokens` field it
never reads.) -/
def prepareMessages (fuel : Nat) (schema : JVal) (objectName : String)
    (messages : List Msg) : Option (List Msg) :=
  (clean fuel schema).map fun cleanedSchema =>
    { role := "system", content := buildSystemPrompt fuel cleanedSchema objectName } :: messages

/-- The `usage` object of a text-generation result (all fields optional). -/
structure JsUsage where
  promptTokens : Option Int
  completionTokens : Option Int
deriving DecidableEq

/-- Result of the caller-supplied `generateText` function. -/
structure TextResult where
  text : String
  finishReason : Option String
  usage : Option JsUsage
  warnings : Option (List String)

/-- Parameters of `generateObject`; the generation function is pure here
(the single `await` only sequences it). `onWarning` records whether a
callback was supplied. -/
structure GenerateObjectParams where
  generateText : Option (List Msg → Option Int → TextResult)
  schema : JVal
  objectName : String
  messages : List Msg
  maxTokens : Option Int
  modelId : Option String
  onWarning : Bool

/-- `GenerateObjectResult` (structured-output.ts lines 422-434), with
`usage` as the `(promptTokens, completionTokens)` pair. -/
structure GenerateObjectResult where
  object : JVal
  finishReason : String
  usage : Int × Int
  warnings : Option (List String)
deriving DecidableEq

/-- `params.maxTokens || 2048`. -/
def effMaxTokens : Option Int → Int
  | some n => if n = 0 then 2048 else n
  | none => 2048

/-- `textResult.finishReason || 'stop'`. -/
def effFinishReason : Option String → String
  | some s => if s = "" then "stop" else s
  | none => "stop"

/-- `textResult.usage?.promptTokens || 0` (and the completion twin). -/
def effTok (u : Option JsUsage) (f : JsUsage → Option Int) : Int :=
  match u with
  | some us => (f us).getD 0
  | none => 0

/-- `StructuredOutputGenerator.generateObject` (structured-output.ts lines
641-694).  Returns the outcome, the number of `generateText` invocations,
and the warnings routed through `onWarning`.  A `TypeError` escaping the
schema cleaner is the placeholder error `"TypeError"`. -/
def generateObject (fuel : Nat) (p : GenerateObjectParams) :
    Except String GenerateObjectResult × Nat × List String :=
  if !truthy p.schema then (.error "Schema is required for object generation", 0, [])
  else if p.objectName = "" then (.error "Object name is required for object generation", 0, [])
  else
    match p.generateText with
    | none => (.error "generateText function is required", 0, [])
    | some gen =>
      let warns :=
        match p.modelId with
        | some mid =>
          if mid ≠ "" then
            let nm := normalizeModelId mid
            if !supportsStructuredOutputs nm then
              if p.onWarning then [getUnsupportedStructuredOutputsWarning nm] else []
            else []
          else []
        | none => []
      match prepareMessages fuel p.schema p.objectName p.messages with
      | none => (.error "TypeError", 0, warns)
      | some messagesWithSchema =>
        let textResult := gen messagesWithSchema (some (effMaxTokens p.maxTokens))
        match extractAndParse textResult.text with
        | .error e => (.error e, 1, warns)
        | .ok parsedObject =>
          (.ok { object := parsedObject
                 finishReason := effFinishReason textResult.finishReason
                 usage := (effTok textResult.usage JsUsage.promptTokens,
                           effTok textResult.usage JsUsage.completionTokens)
                 warnings := textResult.warnings }, 1, warns)

/-! ## Output checkers

The transformer recurses into: property values of `type: 'object'` nodes,
`items` of `type: 'array'` nodes, the kept alternatives of an `anyOf`
(which, when kept cleaned, number at least two and are all non-null-typed),
and all `oneOf` alternatives.  `allNodesB p` checks the local predicate `p`
at the root record and at every node reachable through exactly these
positions — the nodes the cleaner actually produced (subtrees hanging off
other positions pass through verbatim and are exempt from the invariants,
see the corrected claims). -/

theorem sizeOf_getOpt : ∀ {fs : Rec} {k : String} {v : JVal},
    getOpt fs k = some v → sizeOf v < sizeOf fs := by
  intro fs
  induction fs with
  | nil => intro k v h; simp [getOpt] at h
  | cons kv rest ih =>
    intro k v h
    obtain ⟨k', v'⟩ := kv
    simp only [getOpt] at h
    by_cases hk : k' = k
    · rw [if_pos hk] at h
      cases h
      simp
      omega
    · rw [if_neg hk] at h
      have := ih h
      simp
      omega

/-- The guard under which kept `anyOf` alternatives were cleaned: at least
two, none null-typed. -/
def nonNullAlts (xs : List JVal) : Bool :=
  decide (2 ≤ xs.length) && xs.all (fun it => !isNullType it)

/-- Check `p` at this node's record and recursively at every
cleaner-produced position (see the section header). -/
def allNodesB (p : Rec → Bool) : JVal → Bool
  | .jobj fs =>
    p fs &&
    (match hpp : getOpt fs "properties", getOpt fs "type" with
     | some (.jobj pfs), some (.jstr "object") =>
       pfs.attach.all (fun kv => allNodesB p kv.1.2)
     | _, _ => true) &&
    (match hit : getOpt fs "items", getOpt fs "type" with
     | some iv, some (.jstr "array") => allNodesB p iv
     | _, _ => true) &&
    (match hao : getOpt fs "anyOf" with
     | some (.jarr xs) =>
       if nonNullAlts xs then xs.attach.all (fun x => allNodesB p x.1) else true
     | _ => true) &&
    (match hoo : getOpt fs "oneOf" with
     | some (.jarr xs) => xs.attach.all (fun x => allNodesB p x.1)
     | _ => true)
  | _ => true
termination_by v => sizeOf v
decreasing_by
  · have h1 := sizeOf_getOpt hpp
    have h2 := List.sizeOf_lt_of_mem kv.2
    have h3 : sizeOf kv.1.2 < sizeOf kv.1 := by
      obtain ⟨⟨a, b⟩, hm⟩ := kv
      simp
    simp at h1 ⊢
    omega
  · have h1 := sizeOf_getOpt hit
    simp at h1 ⊢
    omega
  · have h1 := sizeOf_getOpt hao
    have h2 := List.sizeOf_lt_of_mem x.2
    simp at h1 h2 ⊢
    omega
  · have h1 := sizeOf_getOpt hoo
    have h2 := List.sizeOf_lt_of_mem x.2
    simp at h1 h2 ⊢
    omega

/-- Local object invariant of claim C1 (as amended): an object-typed record
has `additionalProperties: false`, and when it has an (always object-valued
in cleaner output) `properties` record, its `required` is an array whose
every element passes the `in` test against it: it names a property key or
an `Object.prototype` member name (the filter keeps those too). -/
def invLocal (fs : Rec) : Bool :=
  if getOpt fs "type" = some (.jstr "object") then
    decide (getOpt fs "additionalProperties" = some (.jbool false)) &&
    (match getOpt fs "properties" with
     | some (.jobj pfs) =>
       (match getOpt fs "required" with
        | some (.jarr req) => req.all (fun e => inObj pfs (jsToStr e))
        | _ => false)
     | _ => true)
  else true

/-- A value that does not carry a truthy `_isOptional` marker. -/
def markerFree (v : JVal) : Bool := !optTruthy (vGet v "_isOptional")

/-- Local marker invariant of claim C5 (as amended): values stored under a
processed object node's `properties` never carry a truthy marker. -/
def markerLocal (fs : Rec) : Bool :=
  match getOpt fs "type", getOpt fs "properties" with
  | some (.jstr "object"), some (.jobj pfs) => pfs.all (fun kv => markerFree kv.2)
  | _, _ => true

/-- Local keyword invariant of claim C2 (as amended): none of the
unsupported keywords is present. -/
def kwLocal (fs : Rec) : Bool :=
  UNSUPPORTED_KEYWORDS.all (fun kw => (getOpt fs kw).isNone)

/-- C5 checker over the whole cleaner-produced tree. -/
def markerChk : JVal → Bool := allNodesB markerLocal

/-- C2 checker over the whole cleaner-produced tree. -/
def kwFreeChk : JVal → Bool := allNodesB kwLocal

/-- Combined C1+C5 checker (proved in one induction and projected). -/
def invMarkerChk : JVal → Bool := allNodesB (fun fs => invLocal fs && markerLocal fs)

/-! ## Input-side predicates (hypotheses of the amended claims) -/

/-- This record's `anyOf`, if an array, does not have exactly one
non-null-typed alternative (so the merging branch of the flattening rule
cannot fire here). -/
def anyOfOKr (fs : Rec) : Bool :=
  match getOpt fs "anyOf" with
  | some (.jarr xs) => !((xs.filter (fun it => !isNullType it)).length == 1)
  | _ => true

mutual

/-- No node of the tree has an `anyOf` with exactly one non-null-typed
alternative (hypothesis of the amended C2). -/
def noSingleNN : JVal → Bool
  | .jobj fs => anyOfOKr fs && noSingleNNF fs
  | .jarr xs => anyOfOKr (jsEntries (.jarr xs)) && noSingleNNL xs
  | _ => true

def noSingleNNL : List JVal → Bool
  | [] => true
  | x :: xs => noSingleNN x && noSingleNNL xs

def noSingleNNF : List (String × JVal) → Bool
  | [] => true
  | kv :: fs => noSingleNN kv.2 && noSingleNNF fs

end

/-- The `required` of an object node with truthy `properties` is absent,
falsy, or an array of strings that all name `properties` entries
(hypothesis piece of the amended C3). -/
def requiredOKr (fs : Rec) : Bool :=
  match getOpt fs "type", getOpt fs "properties" with
  | some (.jstr "object"), some pv =>
    if truthy pv then
      match getOpt fs "required" with
      | none => true
      | some r =>
        if !truthy r then true
        else
          match r with
          | .jarr l => l.all (fun e =>
              match e with
              | .jstr s => ((jsEntries pv).map Prod.fst).contains s
              | _ => false)
          | _ => false
    else true
  | _, _ => true

/-- Per-record hypothesis of the amended idempotence claim: no `anyOf`, no
smuggled `_isOptional`, no `'null'` inside a type array, and a `required`
consistent with the properties (see `requiredOKr`). -/
def idemLocal (fs : Rec) : Bool :=
  (getOpt fs "anyOf").isNone &&
  (getOpt fs "_isOptional").isNone &&
  (match getOpt fs "type" with
   | some (.jarr ts) => !ts.contains (JVal.jstr "null")
   | _ => true) &&
  requiredOKr fs

mutual

/-- The amended-C3 hypothesis, over the whole tree. -/
def idemOK : JVal → Bool
  | .jobj fs => idemLocal fs && idemOKF fs
  | .jarr xs => idemLocal (jsEntries (.jarr xs)) && idemOKL xs
  | _ => true

def idemOKL : List JVal → Bool
  | [] => true
  | x :: xs => idemOK x && idemOKL xs

def idemOKF : List (String × JVal) → Bool
  | [] => true
  | kv :: fs => idemOK kv.2 && idemOKF fs

end

/-! ## `JSON.stringify` (compact) and the round-trip hypothesis -/

def digitOf (n : Nat) : Char := Char.ofNat ('0'.toNat + n)

/-- Decimal digits of `n`, most significant first. -/
def natChars (n : Nat) : List Char :=
  if n < 10 then [digitOf n] else natChars (n / 10) ++ [digitOf (n % 10)]
termination_by n
decreasing_by omega

/-- Decimal characters of an integer (as `JSON.stringify` renders one). -/
def intChars (i : Int) : List Char :=
  (if i < 0 then ['-'] else []) ++ natChars i.natAbs

/-- `JSON.stringify` string escaping, for strings without control
characters (the round-trip hypothesis `okJson` restricts to exactly these;
`stringify` escapes control characters differently, but none occur). -/
def escCh (c : Char) : List Char :=
  if c = '"' then ['\\', '"'] else if c = '\\' then ['\\', '\\'] else [c]

def escStr (s : String) : List Char := s.toList.flatMap escCh

mutual

/-- Compact `JSON.stringify` of a value, as a character list. -/
def renderJ : JVal → List Char
  | .jnull => ['n', 'u', 'l', 'l']
  | .jbool true => ['t', 'r', 'u', 'e']
  | .jbool false => ['f', 'a', 'l', 's', 'e']
  | .jnum n => intChars n
  | .jstr s => '"' :: (escStr s ++ ['"'])
  | .jarr [] => ['[', ']']
  | .jarr (x :: xs) => '[' :: (renderJ x ++ (renderItemsTail xs ++ [']']))
  | .jobj [] => ['{', '}']
  | .jobj ((k, v) :: fs) => '{' :: (renderField k v ++ (renderFieldsTail fs ++ ['}']))
termination_by v => (sizeOf v, 0)

/-- `,`-separated remaining array elements. -/
def renderItemsTail : List JVal → List Char
  | [] => []
  | x :: xs => ',' :: (renderJ x ++ renderItemsTail xs)
termination_by xs => (sizeOf xs, 0)

/-- One `"key":value` member. -/
def renderField (k : String) (v : JVal) : List Char :=
  '"' :: (escStr k ++ ('"' :: ':' :: renderJ v))
termination_by (sizeOf v, 1)

/-- `,`-separated remaining object members. -/
def renderFieldsTail : List (String × JVal) → List Char
  | [] => []
  | (k, v) :: fs => ',' :: (renderField k v ++ renderFieldsTail fs)
termination_by fs => (sizeOf fs, 0)

end

/-- `JSON.stringify(v)` (compact). -/
def jsonStringify (v : JVal) : String := String.mk (renderJ v)

/-- A string without control characters (`JSON.stringify` renders such
strings with only `"` and `\` escaped, and `JSON.parse` accepts the result). -/
def okStr (s : String) : Bool := s.toList.all (fun c => 32 ≤ c.toNat)

mutual

/-- Round-trip hypothesis: all strings (keys and values) control-free,
numbers within the exactly-representable double range, object keys without
duplicates (a JavaScript object cannot hold duplicates). -/
def okJson : JVal → Bool
  | .jnull => true
  | .jbool _ => true
  | .jnum n => decide (n.natAbs ≤ 2 ^ 53)
  | .jstr s => okStr s
  | .jarr xs => okJsonL xs
  | .jobj fs => decide ((fs.map Prod.fst).Nodup) && okJsonF fs

def okJsonL : List JVal → Bool
  | [] => true
  | x :: xs => okJson x && okJsonL xs

def okJsonF : List (String × JVal) → Bool
  | [] => true
  | kv :: fs => (okStr kv.1 && okJson kv.2) && okJsonF fs

end

/-! ## Fixed-point condition (the amended idempotence claim)

A second cleaning pass is the identity on trees satisfying `cleanedLocal`
at every cleaner-visited node; the first pass establishes the condition on
every output when the input satisfies `idemOK`. -/

/-- `v` is an array value (a second pass would re-spread it into an object
record, losing identity). -/
def isArr : JVal → Bool
  | .jarr _ => true
  | _ => false

/-- Type-array normalization is a no-op on this record: the `type` array
either has no `'null'` element, or flattens to the record unchanged (every
element `'null'`). -/
def typeOKr (fs : Rec) : Bool :=
  match getOpt fs "type" with
  | some (.jarr ts) =>
    !ts.contains (JVal.jstr "null") ||
      (ts.filter (fun t => t != JVal.jstr "null")).isEmpty
  | _ => true

/-- Object normalization is a no-op on this record: `additionalProperties`
already `false`; a truthy `properties` is a duplicate-free object record;
`required` is present, an array naming only property keys, and empty only
when `properties` is empty. -/
def cleanedObjOK (fs : Rec) : Bool :=
  if getOpt fs "type" = some (.jstr "object") then
    decide (getOpt fs "additionalProperties" = some (.jbool false)) &&
    (match getOpt fs "properties" with
     | some pv =>
       if truthy pv then
         match pv with
         | .jobj pfs =>
           decide ((pfs.map Prod.fst).Nodup) &&
           (match getOpt fs "required" with
            | some (.jarr l) =>
              (!l.isEmpty || pfs.isEmpty) &&
              l.all (fun e => (pfs.map Prod.fst).contains (jsToStr e))
            | _ => false)
         | _ => false
       else true
     | none => true)
  else true

/-- The values a second pass would recurse into are not arrays. -/
def noArrKids (fs : Rec) : Bool :=
  (match getOpt fs "properties", getOpt fs "type" with
   | some (.jobj pfs), some (.jstr "object") => pfs.all (fun kv => !isArr kv.2)
   | _, _ => true) &&
  (match getOpt fs "items", getOpt fs "type" with
   | some iv, some (.jstr "array") => !isArr iv
   | _, _ => true) &&
  (match getOpt fs "oneOf" with
   | some (.jarr xs) => xs.all (fun x => !isArr x)
   | _ => true)

/-- Record-local fixed-point condition (everything except `kwLocal`, which
is tracked separately through `kwFreeChk`): no `anyOf`, no `_isOptional`
marker, no-op type-array normalization, no-op object normalization, no
array children. -/
def coreLocal (fs : Rec) : Bool :=
  (getOpt fs "anyOf").isNone &&
  (getOpt fs "_isOptional").isNone &&
  typeOKr fs && cleanedObjOK fs && noArrKids fs

/-- Core fixed-point condition over the whole tree. -/
def coreChk : JVal → Bool := allNodesB coreLocal

/-- Scan of the brace walk with no return: final state if the walk neither
returns nor ends inside the scanned chunk. -/
def scanSt : List Char → WalkSt → Option WalkSt
  | [], st => some st
  | c :: cs, st => if retHere st c then none else scanSt cs (stepChar st c)

/-! ## Record lemmas -/

theorem getOpt_setKey_self (w : Rec) (k : String) (v : JVal) :
    getOpt (setKey w k v) k = some v := by
  induction w with
  | nil => simp [setKey, getOpt]
  | cons kv rest ih =>
    obtain ⟨k', v'⟩ := kv
    by_cases hk : k' = k
    · simp [setKey, hk, getOpt]
    · simp [setKey, hk, getOpt, ih]

theorem getOpt_setKey_ne (w : Rec) (k k' : String) (v : JVal) (hk : k' ≠ k) :
    getOpt (setKey w k v) k' = getOpt w k' := by
  induction w with
  | nil => simp [setKey, getOpt, Ne.symm hk]
  | cons kv rest ih =>
    obtain ⟨k0, v0⟩ := kv
    by_cases h0 : k0 = k
    · subst h0
      simp [setKey, getOpt, Ne.symm hk]
    · simp [setKey, h0, getOpt, ih]

theorem getOpt_delKey_self (w : Rec) (k : String) :
    getOpt (delKey w k) k = none := by
  induction w with
  | nil => simp [delKey, getOpt]
  | cons kv rest ih =>
    obtain ⟨k', v'⟩ := kv
    by_cases hk : k' = k
    · simpa [delKey, hk] using ih
    · simpa [delKey, getOpt, hk] using ih

theorem delKey_cons (k0 : String) (v0 : JVal) (rest : Rec) (k : String) :
    delKey ((k0, v0) :: rest) k =
      if k0 = k then delKey rest k else (k0, v0) :: delKey rest k := by
  simp only [delKey, List.filter_cons]
  by_cases h0 : k0 = k
  · simp [h0]
  · simp [h0]

theorem getOpt_delKey_ne (w : Rec) (k k' : String) (hk : k' ≠ k) :
    getOpt (delKey w k) k' = getOpt w k' := by
  induction w with
  | nil => rfl
  | cons kv rest ih =>
    obtain ⟨k0, v0⟩ := kv
    rw [delKey_cons]
    by_cases h0 : k0 = k
    · rw [if_pos h0, ih]
      subst h0
      simp [getOpt, Ne.symm hk]
    · rw [if_neg h0]
      simp [getOpt, ih]

theorem getOpt_mem {fs : Rec} {k : String} {v : JVal} (h : getOpt fs k = some v) :
    (k, v) ∈ fs := by
  induction fs with
  | nil => simp [getOpt] at h
  | cons kv rest ih =>
    obtain ⟨k', v'⟩ := kv
    simp only [getOpt] at h
    by_cases hk : k' = k
    · rw [if_pos hk] at h
      cases h
      subst hk
      exact List.mem_cons_self _ _
    · rw [if_neg hk] at h
      exact List.mem_cons_of_mem _ (ih h)

theorem setKey_mem {w : Rec} {k : String} {v : JVal} {kv : String × JVal}
    (h : kv ∈ setKey w k v) : kv ∈ w ∨ kv = (k, v) := by
  induction w with
  | nil => simpa [setKey] using h
  | cons kv0 rest ih =>
    obtain ⟨k0, v0⟩ := kv0
    by_cases h0 : k0 = k
    · subst h0
      simp only [setKey, if_pos rfl] at h
      rcases List.mem_cons.mp h with h1 | h1
      · right; rw [h1]
      · left; exact List.mem_cons_of_mem _ h1
    · simp only [setKey, if_neg h0] at h
      rcases List.mem_cons.mp h with h1 | h1
      · left; rw [h1]; exact List.mem_cons_self _ _
      · rcases ih h1 with h2 | h2
        · left; exact List.mem_cons_of_mem _ h2
        · right; exact h2

theorem foldl_delKey_getOpt (l : List String) : ∀ (w : Rec) (k : String),
    getOpt (l.foldl delKey w) k = if k ∈ l then none else getOpt w k := by
  induction l with
  | nil => intro w k; simp
  | cons kw rest ih =>
    intro w k
    simp only [List.foldl_cons, ih]
    by_cases h1 : k ∈ rest
    · simp [h1]
    · by_cases h2 : k = kw
      · simp [h1, h2, getOpt_delKey_self]
      · simp [h1, h2, getOpt_delKey_ne _ _ _ h2]

theorem kwStep_getOpt (w : Rec) (k : String) :
    getOpt (kwStep w) k = if k ∈ UNSUPPORTED_KEYWORDS then none else getOpt w k :=
  foldl_delKey_getOpt UNSUPPORTED_KEYWORDS w k

theorem listMapM_mem {rc : JVal → Option JVal} : ∀ {xs cs : List JVal},
    listMapM rc xs = some cs → ∀ c ∈ cs, ∃ x ∈ xs, rc x = some c := by
  intro xs
  induction xs with
  | nil =>
    intro cs h c hc
    simp only [listMapM] at h
    cases h
    simp at hc
  | cons x xs ih =>
    intro cs h c hc
    simp only [listMapM] at h
    cases hx : rc x with
    | none => rw [hx] at h; cases h
    | some y =>
      rw [hx] at h
      cases hxs : listMapM rc xs with
      | none => rw [hxs] at h; cases h
      | some ys =>
        rw [hxs] at h
        cases h
        rcases List.mem_cons.mp hc with h1 | h1
        · exact ⟨x, List.mem_cons_self _ _, h1 ▸ hx⟩
        · obtain ⟨x', hx', hcx⟩ := ih hxs c h1
          exact ⟨x', List.mem_cons_of_mem _ hx', hcx⟩

theorem descStep_getOpt {w w' : Rec} (h : descStep w = some w') (k : String)
    (hk : k ≠ "description") : getOpt w' k = getOpt w k := by
  unfold descStep at h
  split at h
  · cases h; rfl
  · split at h
    · split at h
      · split at h
        · split at h
          · cases h; rfl
          · cases h; exact getOpt_setKey_ne _ _ _ _ hk
        · cases h
      · cases h; rfl
    · cases h; rfl

theorem typeArrStep_getOpt (w : Rec) (k : String) (h1 : k ≠ "type")
    (h2 : k ≠ "_isOptional") : getOpt (typeArrStep w) k = getOpt w k := by
  unfold typeArrStep
  split
  · split
    · split
      · rfl
      · rw [getOpt_setKey_ne _ _ _ _ h2, getOpt_setKey_ne _ _ _ _ h1]
      · rw [getOpt_setKey_ne _ _ _ _ h2, getOpt_setKey_ne _ _ _ _ h1]
    · rfl
  · rfl

theorem itemsStep_getOpt {rc : JVal → Option JVal} {w w' : Rec}
    (h : itemsStep rc w = some w') (k : String) (hk : k ≠ "items") :
    getOpt w' k = getOpt w k := by
  unfold itemsStep at h
  split at h
  · split at h
    · split at h
      · cases hrc : rc _ with
        | none => rw [hrc] at h; cases h
        | some c => rw [hrc] at h; cases h; exact getOpt_setKey_ne _ _ _ _ hk
      · cases h; rfl
    · cases h; rfl
  · cases h; rfl

theorem oneOfStep_getOpt {rc : JVal → Option JVal} {w w' : Rec}
    (h : oneOfStep rc w = some w') (k : String) (hk : k ≠ "oneOf") :
    getOpt w' k = getOpt w k := by
  unfold oneOfStep at h
  split at h
  · cases h; rfl
  · split at h
    · split at h
      · cases hm : listMapM rc _ with
        | none => rw [hm] at h; cases h
        | some cs => rw [hm] at h; cases h; exact getOpt_setKey_ne _ _ _ _ hk
      · cases h
    · cases h; rfl

theorem setKey_all {P : JVal → Prop} {w : Rec} {k : String} {v : JVal}
    (hw : ∀ kv ∈ w, P kv.2) (hv : P v) : ∀ kv ∈ setKey w k v, P kv.2 := by
  intro kv hkv
  rcases setKey_mem hkv with h | h
  · exact hw kv h
  · rw [h]
    exact hv

theorem truthy_false_not_jobj {v : JVal} (h : truthy v = false) :
    ∀ fs, v ≠ JVal.jobj fs := by
  intro fs he
  subst he
  simp [truthy] at h

theorem cleanPropVal_spec {rc : JVal → Option JVal} {v st : JVal} {b : Bool}
    (h : cleanPropVal rc v = some (st, b)) :
    markerFree st = true ∧
      ∃ c, rc v = some c ∧
        (st = c ∨ ∃ cfs, c = .jobj cfs ∧ st = .jobj (delKey cfs "_isOptional")) := by
  unfold cleanPropVal at h
  cases hrc : rc v with
  | none => rw [hrc] at h; cases h
  | some c =>
    rw [hrc] at h
    cases c with
    | jnull => simp at h
    | jobj cfs =>
      simp only at h
      split at h
      · cases h
        refine ⟨?_, .jobj cfs, rfl, Or.inr ⟨cfs, rfl, rfl⟩⟩
        simp [markerFree, vGet, getOpt_delKey_self, optTruthy]
      · cases h
        rename_i hfalse
        refine ⟨?_, .jobj cfs, rfl, Or.inl rfl⟩
        simp only [markerFree, vGet]
        simp only [Bool.not_eq_true] at hfalse
        simp [Bool.not_eq_true', hfalse]
    | jbool b0 => simp at h; rw [h.1.symm]; exact ⟨rfl, _, rfl, Or.inl rfl⟩
    | jnum n => simp at h; rw [h.1.symm]; exact ⟨rfl, _, rfl, Or.inl rfl⟩
    | jstr s => simp at h; rw [h.1.symm]; exact ⟨rfl, _, rfl, Or.inl rfl⟩
    | jarr xs => simp at h; rw [h.1.symm]; exact ⟨rfl, _, rfl, Or.inl rfl⟩

theorem cleanPropsLoop_all {rc : JVal → Option JVal} {Q : JVal → Prop}
    (hQ : ∀ v st b, cleanPropVal rc v = some (st, b) → Q st) :
    ∀ (entries : List (String × JVal)) (acc : Rec) (opts : List String)
      (props : Rec) (opts' : List String),
      cleanPropsLoop rc entries acc opts = some (props, opts') →
      (∀ kv ∈ acc, Q kv.2) → ∀ kv ∈ props, Q kv.2 := by
  intro entries
  induction entries with
  | nil =>
    intro acc opts props opts' h hacc
    simp only [cleanPropsLoop] at h
    cases h
    exact hacc
  | cons kv0 rest ih =>
    intro acc opts props opts' h hacc
    obtain ⟨k, v⟩ := kv0
    simp only [cleanPropsLoop] at h
    cases hcv : cleanPropVal rc v with
    | none => rw [hcv] at h; cases h
    | some p0 =>
      obtain ⟨st, b⟩ := p0
      rw [hcv] at h
      exact ih _ _ _ _ h (setKey_all hacc (hQ v st b hcv))

theorem requiredStep_spec {w props : Rec} {opts : List String} {w' : Rec}
    (h : requiredStep w props opts = some w') :
    (∀ k, k ≠ "required" → getOpt w' k = getOpt w k) ∧
    ∃ req, getOpt w' "required" = some (.jarr req) ∧
      ∀ e ∈ req, inObj props (jsToStr e) = true := by
  have hrec : ∀ e ∈ (((props.map Prod.fst).filter (fun k => !opts.contains k)).map JVal.jstr),
      inObj props (jsToStr e) = true := by
    intro e he
    obtain ⟨k, hk, rfl⟩ := List.mem_map.mp he
    have hk' := List.mem_of_mem_filter hk
    have hc : ((props.map Prod.fst).contains k) = true :=
      List.elem_eq_true_of_mem hk'
    have hj : jsToStr (JVal.jstr k) = k := rfl
    unfold inObj
    rw [hj, hc]
    rfl
  unfold requiredStep at h
  split at h
  · cases h
    exact ⟨fun k hk => getOpt_setKey_ne _ _ _ _ hk,
      _, getOpt_setKey_self _ _ _, hrec⟩
  · split at h
    · cases h
      exact ⟨fun k hk => getOpt_setKey_ne _ _ _ _ hk,
        _, getOpt_setKey_self _ _ _, hrec⟩
    · split at h
      · cases h
        exact ⟨fun k hk => getOpt_setKey_ne _ _ _ _ hk,
          _, getOpt_setKey_self _ _ _, hrec⟩
      · cases h
        refine ⟨fun k hk => getOpt_setKey_ne _ _ _ _ hk,
          _, getOpt_setKey_self _ _ _, ?_⟩
        intro e he
        have h2 := List.of_mem_filter he
        rw [Bool.and_eq_true] at h2
        exact h2.1
      · split at h
        · cases h
          exact ⟨fun k hk => getOpt_setKey_ne _ _ _ _ hk,
            _, getOpt_setKey_self _ _ _, hrec⟩
        · cases h
      · cases h

theorem objStep_spec {rc : JVal → Option JVal} {w w' : Rec}
    (h : objStep rc w = some w') :
    getOpt w' "type" = getOpt w "type" ∧
    getOpt w' "items" = getOpt w "items" ∧
    getOpt w' "anyOf" = getOpt w "anyOf" ∧
    getOpt w' "oneOf" = getOpt w "oneOf" ∧
    (getOpt w "type" = some (.jstr "object") →
      getOpt w' "additionalProperties" = some (.jbool false) ∧
      ((∃ pv props opts, getOpt w "properties" = some pv ∧ truthy pv = true ∧
          cleanPropsLoop rc (jsEntries pv) [] [] = some (props, opts) ∧
          getOpt w' "properties" = some (.jobj props) ∧
          ∃ req, getOpt w' "required" = some (.jarr req) ∧
            ∀ e ∈ req, inObj props (jsToStr e) = true) ∨
        (∀ pfs, getOpt w' "properties" ≠ some (.jobj pfs)))) ∧
    (∀ k, k ≠ "additionalProperties" → k ≠ "properties" → k ≠ "required" →
      getOpt w' k = getOpt w k) ∧
    (getOpt w "type" ≠ some (.jstr "object") → w' = w) := by
  have hAPne : ∀ k : String, k ≠ "additionalProperties" →
      getOpt (setKey w "additionalProperties" (JVal.jbool false)) k = getOpt w k :=
    fun k hk => getOpt_setKey_ne _ _ _ _ hk
  unfold objStep at h
  split at h
  · rename_i hty
    split at h
    · rename_i pv hpv
      rw [hAPne "properties" (by decide)] at hpv
      split at h
      · rename_i hpvT
        cases hloop : cleanPropsLoop rc (jsEntries pv) [] [] with
        | none => rw [hloop] at h; cases h
        | some pr =>
          obtain ⟨props, opts⟩ := pr
          rw [hloop] at h
          obtain ⟨hkeys, req, hreq, hreqel⟩ := requiredStep_spec h
          have hPne : ∀ k : String, k ≠ "required" → k ≠ "properties" →
              k ≠ "additionalProperties" → getOpt w' k = getOpt w k := by
            intro k h1 h2 h3
            rw [hkeys k h1, getOpt_setKey_ne _ _ _ _ h2, hAPne k h3]
          refine ⟨hPne _ (by decide) (by decide) (by decide),
            hPne _ (by decide) (by decide) (by decide),
            hPne _ (by decide) (by decide) (by decide),
            hPne _ (by decide) (by decide) (by decide), fun _ => ?_,
            fun k hA hP hR => hPne k hR hP hA, fun hne => absurd hty hne⟩
          constructor
          · rw [hkeys _ (by decide), getOpt_setKey_ne _ _ _ _ (by decide),
              getOpt_setKey_self]
          · left
            refine ⟨pv, props, opts, hpv, hpvT, hloop, ?_, req, hreq, hreqel⟩
            rw [hkeys _ (by decide), getOpt_setKey_self]
      · rename_i hpvT
        cases h
        refine ⟨hAPne _ (by decide), hAPne _ (by decide), hAPne _ (by decide),
          hAPne _ (by decide), fun _ => ⟨getOpt_setKey_self _ _ _, Or.inr ?_⟩,
          fun k hA _ _ => hAPne k hA, fun hne => absurd hty hne⟩
        intro pfs hpfs
        rw [hAPne _ (by decide), hpv] at hpfs
        cases hpfs
        simp [truthy] at hpvT
    · rename_i hpv
      cases h
      refine ⟨hAPne _ (by decide), hAPne _ (by decide), hAPne _ (by decide),
        hAPne _ (by decide), fun _ => ⟨getOpt_setKey_self _ _ _, Or.inr ?_⟩,
        fun k hA _ _ => hAPne k hA, fun hne => absurd hty hne⟩
      intro pfs hpfs
      rw [hAPne _ (by decide)] at hpfs hpv
      rw [hpv] at hpfs
      cases hpfs
  · rename_i hty
    cases h
    exact ⟨rfl, rfl, rfl, rfl, fun hx => absurd hx hty, fun _ _ _ _ => rfl, fun _ => rfl⟩

theorem itemsStep_spec {rc : JVal → Option JVal} {w w' : Rec}
    (h : itemsStep rc w = some w') :
    (∀ k, k ≠ "items" → getOpt w' k = getOpt w k) ∧
    (getOpt w "type" = some (.jstr "array") →
      (∃ iv c, getOpt w "items" = some iv ∧ rc iv = some c ∧
        getOpt w' "items" = some c) ∨
      ((∀ iv, getOpt w "items" = some iv → truthy iv = false) ∧
        getOpt w' "items" = getOpt w "items")) ∧
    (getOpt w "type" ≠ some (.jstr "array") → w' = w) := by
  unfold itemsStep at h
  split at h
  · rename_i hty
    split at h
    · rename_i iv hiv
      split at h
      · rename_i hivT
        cases hrc : rc iv with
        | none => rw [hrc] at h; cases h
        | some c =>
          rw [hrc] at h
          cases h
          exact ⟨fun k hk => getOpt_setKey_ne _ _ _ _ hk,
            fun _ => Or.inl ⟨iv, c, hiv, hrc, getOpt_setKey_self _ _ _⟩,
            fun hne => absurd hty hne⟩
      · rename_i hivF
        cases h
        refine ⟨fun k _ => rfl, fun _ => Or.inr ⟨?_, rfl⟩, fun hne => absurd hty hne⟩
        intro iv' hiv'
        rw [hiv] at hiv'
        cases hiv'
        simpa using hivF
    · rename_i hiv
      cases h
      refine ⟨fun k _ => rfl, fun _ => Or.inr ⟨?_, rfl⟩, fun hne => absurd hty hne⟩
      intro iv' hiv'
      rw [hiv] at hiv'
      cases hiv'
  · rename_i hty
    cases h
    exact ⟨fun k _ => rfl, fun hx => absurd hx hty, fun _ => rfl⟩

theorem oneOfStep_spec {rc : JVal → Option JVal} {w w' : Rec}
    (h : oneOfStep rc w = some w') :
    (∀ k, k ≠ "oneOf" → getOpt w' k = getOpt w k) ∧
    (∀ xs, getOpt w' "oneOf" = some (.jarr xs) →
      ∃ ys, getOpt w "oneOf" = some (.jarr ys) ∧ listMapM rc ys = some xs) := by
  unfold oneOfStep at h
  split at h
  · rename_i hoo
    cases h
    refine ⟨fun k _ => rfl, ?_⟩
    intro xs hxs
    rw [hoo] at hxs
    cases hxs
  · rename_i ov hoo
    split at h
    · cases ov with
      | jarr ys =>
        dsimp only at h
        cases hm : listMapM rc ys with
        | none => rw [hm] at h; cases h
        | some cs =>
          rw [hm] at h
          cases h
          refine ⟨fun k hk => getOpt_setKey_ne _ _ _ _ hk, ?_⟩
          intro xs hxs
          rw [getOpt_setKey_self] at hxs
          cases hxs
          exact ⟨ys, hoo, hm⟩
      | jnull => cases h
      | jbool b => cases h
      | jnum n => cases h
      | jstr s0 => cases h
      | jobj fs0 => cases h
    · rename_i hovF
      cases h
      refine ⟨fun k _ => rfl, ?_⟩
      intro xs hxs
      rw [hoo] at hxs
      cases hxs
      simp [truthy] at hovF

theorem anyOfStep_anyOf {rc : JVal → Option JVal} {w w' : Rec}
    (h : anyOfStep rc w = some w') :
    ∀ xs, getOpt w' "anyOf" = some (.jarr xs) →
      (∀ x ∈ xs, isNullType x = true) ∨
      ∃ ys, getOpt w "anyOf" = some (.jarr ys) ∧
        listMapM rc (ys.filter (fun it => !isNullType it)) = some xs := by
  unfold anyOfStep at h
  split at h
  · rename_i hao
    cases h
    intro xs hxs
    rw [hao] at hxs
    cases hxs
  · rename_i a hao
    split at h
    · rename_i haT
      cases a with
      | jarr items =>
        dsimp only at h
        split at h
        · cases h
        · cases hfil : items.filter (fun it => !isNullType it) with
          | nil =>
            rw [hfil] at h
            dsimp only at h
            cases h
            intro xs hxs
            rw [hao] at hxs
            cases hxs
            left
            intro x hx
            by_contra hnull
            have hmem : x ∈ items.filter (fun it => !isNullType it) := by
              rw [List.mem_filter]
              simp only [Bool.not_eq_true] at hnull
              simp [hx, hnull]
            rw [hfil] at hmem
            simp at hmem
          | cons alt rest =>
            cases rest with
            | nil =>
              rw [hfil] at h
              dsimp only at h
              cases h
              intro xs hxs
              rw [getOpt_setKey_ne _ _ _ _ (by decide), getOpt_delKey_self] at hxs
              cases hxs
            | cons a2 rest2 =>
              rw [hfil] at h
              dsimp only at h
              cases hm : listMapM rc (alt :: a2 :: rest2) with
              | none => rw [hm] at h; cases h
              | some cs =>
                rw [hm] at h
                cases h
                intro xs hxs
                rw [getOpt_setKey_self] at hxs
                cases hxs
                exact Or.inr ⟨items, hao, by rw [hfil]; exact hm⟩
      | jnull => cases h
      | jbool b => cases h
      | jnum n => cases h
      | jstr s0 => cases h
      | jobj fs0 => cases h
    · rename_i haF
      cases h
      intro xs hxs
      rw [hao] at hxs
      cases hxs
      simp [truthy] at haF

theorem anyOfStep_getOpt_nomerge {rc : JVal → Option JVal} {w w' : Rec}
    (h : anyOfStep rc w = some w') (hok : anyOfOKr w = true) (k : String)
    (hk : k ≠ "anyOf") : getOpt w' k = getOpt w k := by
  unfold anyOfStep at h
  split at h
  · cases h; rfl
  · rename_i a hao
    split at h
    · cases a with
      | jarr items =>
        dsimp only at h
        split at h
        · cases h
        · cases hfil : items.filter (fun it => !isNullType it) with
          | nil => rw [hfil] at h; dsimp only at h; cases h; rfl
          | cons alt rest =>
            cases rest with
            | nil =>
              exfalso
              unfold anyOfOKr at hok
              rw [hao] at hok
              dsimp only at hok
              rw [hfil] at hok
              simp at hok
            | cons a2 rest2 =>
              rw [hfil] at h
              dsimp only at h
              cases hm : listMapM rc (alt :: a2 :: rest2) with
              | none => rw [hm] at h; cases h
              | some cs =>
                rw [hm] at h
                cases h
                exact getOpt_setKey_ne _ _ _ _ hk
      | jnull => cases h
      | jbool b => cases h
      | jnum n => cases h
      | jstr s0 => cases h
      | jobj fs0 => cases h
    · cases h; rfl

theorem attach_all_iff {α : Type _} (l : List α) (f : α → Bool) :
    (l.attach.all fun x => f x.1) = true ↔ ∀ x ∈ l, f x = true := by
  simp [List.all_eq_true, Subtype.forall]

theorem allNodesB_of_not_jobj (p : Rec → Bool) (v : JVal)
    (h : ∀ fs, v ≠ JVal.jobj fs) : allNodesB p v = true := by
  cases v with
  | jobj fs => exact absurd rfl (h fs)
  | jnull => rw [allNodesB]; intro fs he; cases he
  | jbool b => rw [allNodesB]; intro fs he; cases he
  | jnum n => rw [allNodesB]; intro fs he; cases he
  | jstr s => rw [allNodesB]; intro fs he; cases he
  | jarr xs => rw [allNodesB]; intro fs he; cases he

theorem allNodesB_jobj_iff (p : Rec → Bool) (fs : Rec) :
    allNodesB p (.jobj fs) = true ↔
      p fs = true ∧
      (∀ pfs, getOpt fs "properties" = some (.jobj pfs) →
        getOpt fs "type" = some (.jstr "object") →
        ∀ kv ∈ pfs, allNodesB p kv.2 = true) ∧
      (∀ iv, getOpt fs "items" = some iv →
        getOpt fs "type" = some (.jstr "array") → allNodesB p iv = true) ∧
      (∀ xs, getOpt fs "anyOf" = some (.jarr xs) → nonNullAlts xs = true →
        ∀ x ∈ xs, allNodesB p x = true) ∧
      (∀ xs, getOpt fs "oneOf" = some (.jarr xs) →
        ∀ x ∈ xs, allNodesB p x = true) := by
  rw [allNodesB]
  simp only [Bool.and_eq_true]
  constructor
  · rintro ⟨⟨⟨⟨hp, h1⟩, h2⟩, h3⟩, h4⟩
    refine ⟨hp, ?_, ?_, ?_, ?_⟩
    · intro pfs hpfs hty kv hkv
      rw [hpfs, hty] at h1
      have h1x : (pfs.attach.all fun kv => allNodesB p kv.1.2) = true := h1
      exact (attach_all_iff pfs (fun a => allNodesB p a.2)).mp h1x kv hkv
    · intro iv hiv hty
      rw [hiv, hty] at h2
      exact h2
    · intro xs hxs hnn x hx
      rw [hxs] at h3
      have h3x : (if nonNullAlts xs then xs.attach.all (fun x => allNodesB p x.1) else true) = true := h3
      rw [if_pos hnn] at h3x
      exact (attach_all_iff xs (fun a => allNodesB p a)).mp h3x x hx
    · intro xs hxs x hx
      rw [hxs] at h4
      have h4x : (xs.attach.all fun x => allNodesB p x.1) = true := h4
      exact (attach_all_iff xs (fun a => allNodesB p a)).mp h4x x hx
  · rintro ⟨hp, h1, h2, h3, h4⟩
    refine ⟨⟨⟨⟨hp, ?_⟩, ?_⟩, ?_⟩, ?_⟩
    · split
      · rename_i pfs hpfs hty
        exact (attach_all_iff pfs (fun a => allNodesB p a.2)).mpr (fun kv hkv => h1 pfs hpfs hty kv hkv)
      · rfl
    · split
      · rename_i iv hiv hty
        exact h2 iv hiv hty
      · rfl
    · split
      · rename_i xs hxs
        split
        · rename_i hnn
          exact (attach_all_iff xs (fun a => allNodesB p a)).mpr (fun x hx => h3 xs hxs hnn x hx)
        · rfl
      · rfl
    · split
      · rename_i xs hxs
        exact (attach_all_iff xs (fun a => allNodesB p a)).mpr (fun x hx => h4 xs hxs x hx)
      · rfl

theorem allNodesB_of_falsy (p : Rec → Bool) {v : JVal} (h : truthy v = false) :
    allNodesB p v = true :=
  allNodesB_of_not_jobj p v (truthy_false_not_jobj h)

theorem allNodesB_delKey_isOptional {p : Rec → Bool} {fs : Rec}
    (hb : p (delKey fs "_isOptional") = p fs)
    (h : allNodesB p (.jobj fs) = true) :
    allNodesB p (.jobj (delKey fs "_isOptional")) = true := by
  rw [allNodesB_jobj_iff] at h ⊢
  obtain ⟨hp, h1, h2, h3, h4⟩ := h
  refine ⟨by rw [hb]; exact hp, ?_, ?_, ?_, ?_⟩
  · intro pfs hpfs hty kv hkv
    rw [getOpt_delKey_ne _ _ _ (by decide)] at hpfs hty
    exact h1 pfs hpfs hty kv hkv
  · intro iv hiv hty
    rw [getOpt_delKey_ne _ _ _ (by decide)] at hiv hty
    exact h2 iv hiv hty
  · intro xs hxs hnn x hx
    rw [getOpt_delKey_ne _ _ _ (by decide)] at hxs
    exact h3 xs hxs hnn x hx
  · intro xs hxs x hx
    rw [getOpt_delKey_ne _ _ _ (by decide)] at hxs
    exact h4 xs hxs x hx

theorem invLocal_delKey_m (w : Rec) :
    invLocal (delKey w "_isOptional") = invLocal w := by
  simp only [invLocal,
    getOpt_delKey_ne w "_isOptional" "type" (by decide),
    getOpt_delKey_ne w "_isOptional" "additionalProperties" (by decide),
    getOpt_delKey_ne w "_isOptional" "properties" (by decide),
    getOpt_delKey_ne w "_isOptional" "required" (by decide)]

theorem markerLocal_delKey_m (w : Rec) :
    markerLocal (delKey w "_isOptional") = markerLocal w := by
  simp only [markerLocal,
    getOpt_delKey_ne w "_isOptional" "type" (by decide),
    getOpt_delKey_ne w "_isOptional" "properties" (by decide)]

theorem chain_invMarker {rc : JVal → Option JVal}
    (hrc : ∀ v c, rc v = some c → invMarkerChk c = true)
    {w0 : Rec} {r : JVal}
    (h : ((descStep w0).bind fun w1 =>
          (anyOfStep rc (kwStep w1)).bind fun w3 =>
          (objStep rc (typeArrStep w3)).bind fun w5 =>
          (itemsStep rc w5).bind fun w6 =>
          (oneOfStep rc w6).map JVal.jobj) = some r) :
    invMarkerChk r = true := by
  cases h1 : descStep w0 with
  | none => rw [h1] at h; cases h
  | some w1 =>
  rw [h1] at h
  dsimp only [Option.bind] at h
  cases h3 : anyOfStep rc (kwStep w1) with
  | none => rw [h3] at h; cases h
  | some w3 =>
  rw [h3] at h
  dsimp only [Option.bind] at h
  cases h5 : objStep rc (typeArrStep w3) with
  | none => rw [h5] at h; cases h
  | some w5 =>
  rw [h5] at h
  dsimp only [Option.bind] at h
  cases h6 : itemsStep rc w5 with
  | none => rw [h6] at h; cases h
  | some w6 =>
  rw [h6] at h
  dsimp only [Option.bind] at h
  cases h7 : oneOfStep rc w6 with
  | none => rw [h7] at h; cases h
  | some w7 =>
  rw [h7] at h
  dsimp only [Option.map] at h
  cases h
  obtain ⟨O1, O2, O3, O4, O5, O6⟩ := objStep_spec h5
  obtain ⟨I1, I2, I3⟩ := itemsStep_spec h6
  obtain ⟨N1, N2⟩ := oneOfStep_spec h7
  have T7 : getOpt w7 "type" = getOpt (typeArrStep w3) "type" := by
    rw [N1 _ (by decide), I1 _ (by decide), O1]
  have A7 : getOpt w7 "additionalProperties" = getOpt w5 "additionalProperties" := by
    rw [N1 _ (by decide), I1 _ (by decide)]
  have P7 : getOpt w7 "properties" = getOpt w5 "properties" := by
    rw [N1 _ (by decide), I1 _ (by decide)]
  have R7 : getOpt w7 "required" = getOpt w5 "required" := by
    rw [N1 _ (by decide), I1 _ (by decide)]
  have Y7 : getOpt w7 "anyOf" = getOpt w3 "anyOf" := by
    rw [N1 _ (by decide), I1 _ (by decide), O3,
      typeArrStep_getOpt _ _ (by decide) (by decide)]
  have M7 : getOpt w7 "items" = getOpt w6 "items" := N1 _ (by decide)
  have hQstored : ∀ v st b, cleanPropVal rc v = some (st, b) →
      markerFree st = true ∧ invMarkerChk st = true := by
    intro v st b hcv
    obtain ⟨hmf, c, hc, hst⟩ := cleanPropVal_spec hcv
    refine ⟨hmf, ?_⟩
    rcases hst with rfl | ⟨cfs, rfl, rfl⟩
    · exact hrc _ _ hc
    · have hcm := hrc _ _ hc
      unfold invMarkerChk at hcm ⊢
      exact allNodesB_delKey_isOptional
        (by simp only [invLocal_delKey_m, markerLocal_delKey_m]) hcm
  unfold invMarkerChk
  rw [allNodesB_jobj_iff]
  refine ⟨?_, ?_, ?_, ?_, ?_⟩
  · rw [Bool.and_eq_true]
    constructor
    · unfold invLocal
      split
      · rename_i hty
        have htyW4 : getOpt (typeArrStep w3) "type" = some (.jstr "object") := by
          rw [← T7]; exact hty
        obtain ⟨hAP, hPR⟩ := O5 htyW4
        rw [Bool.and_eq_true]
        refine ⟨by rw [decide_eq_true_eq, A7, hAP], ?_⟩
        rcases hPR with ⟨pv, props, opts, hpv, hpvT, hloop, hprops, req, hreq, hreqel⟩ | hnp
        · rw [P7, hprops]
          dsimp only
          rw [R7, hreq]
          dsimp only
          rw [List.all_eq_true]
          exact hreqel
        · cases hP : getOpt w7 "properties" with
          | none => dsimp only
          | some pv' =>
            cases pv' with
            | jobj pfs => exact absurd (P7 ▸ hP) (hnp pfs)
            | jnull => dsimp only
            | jbool b => dsimp only
            | jnum n => dsimp only
            | jstr s => dsimp only
            | jarr xs => dsimp only
      · rfl
    · unfold markerLocal
      split
      · rename_i pfs hty hpr
        have htyW4 : getOpt (typeArrStep w3) "type" = some (.jstr "object") := by
          rw [← T7]; exact hty
        obtain ⟨hAP, hPR⟩ := O5 htyW4
        rcases hPR with ⟨pv, props, opts, hpv, hpvT, hloop, hprops, req, hreq, hreqel⟩ | hnp
        · have : pfs = props := by
            have := P7 ▸ hpr
            rw [hprops] at this
            cases this
            rfl
          subst this
          rw [List.all_eq_true]
          intro kv hkv
          exact (cleanPropsLoop_all (fun v st b hcv => (hQstored v st b hcv).1)
            _ _ _ _ _ hloop (by intro kv h0; cases h0)) kv hkv
        · exact absurd (P7 ▸ hpr) (hnp pfs)
      · rfl
  · intro pfs hpfs hty kv hkv
    have htyW4 : getOpt (typeArrStep w3) "type" = some (.jstr "object") := by
      rw [← T7]; exact hty
    obtain ⟨hAP, hPR⟩ := O5 htyW4
    rcases hPR with ⟨pv, props, opts, hpv, hpvT, hloop, hprops, req, hreq, hreqel⟩ | hnp
    · have : pfs = props := by
        have := P7 ▸ hpfs
        rw [hprops] at this
        cases this
        rfl
      subst this
      exact (cleanPropsLoop_all (fun v st b hcv => (hQstored v st b hcv).2)
        _ _ _ _ _ hloop (by intro kv h0; cases h0)) kv hkv
    · exact absurd (P7 ▸ hpfs) (hnp pfs)
  · intro iv hiv hty
    have htyW5 : getOpt w5 "type" = some (.jstr "array") := by
      rw [O1, ← T7]; exact hty
    rcases I2 htyW5 with ⟨iv0, c, hiv0, hc, hc7⟩ | ⟨hfal, heq⟩
    · rw [M7, hc7] at hiv
      cases hiv
      exact hrc _ _ hc
    · rw [M7, heq] at hiv
      exact allNodesB_of_falsy _ (hfal iv hiv)
  · intro xs hxs hnn x hx
    rw [Y7] at hxs
    rcases anyOfStep_anyOf h3 xs hxs with hall | ⟨ys, hys, hm⟩
    · exfalso
      unfold nonNullAlts at hnn
      rw [Bool.and_eq_true] at hnn
      obtain ⟨hlen, hnone⟩ := hnn
      cases xs with
      | nil => simp at hlen
      | cons x0 t =>
        have h0 := hall x0 (List.mem_cons_self _ _)
        rw [List.all_eq_true] at hnone
        have h1 := hnone x0 (List.mem_cons_self _ _)
        rw [h0] at h1
        simp at h1
    · obtain ⟨y, _, hyc⟩ := listMapM_mem hm x hx
      exact hrc _ _ hyc
  · intro xs hxs x hx
    obtain ⟨ys, hys, hm⟩ := N2 xs hxs
    obtain ⟨y, _, hyc⟩ := listMapM_mem hm x hx
    exact hrc _ _ hyc

theorem allNodesB_mono {p q : Rec → Bool} (hpq : ∀ fs, p fs = true → q fs = true) :
    ∀ (n : Nat) (v : JVal), sizeOf v ≤ n → allNodesB p v = true → allNodesB q v = true := by
  intro n
  induction n with
  | zero =>
    intro v hv
    cases v <;> simp at hv
  | succ n ih =>
    intro v hv hp
    cases v with
    | jobj fs =>
      rw [allNodesB_jobj_iff] at hp ⊢
      obtain ⟨h0, h1, h2, h3, h4⟩ := hp
      have hfs : sizeOf fs ≤ n := by simp at hv; omega
      refine ⟨hpq _ h0, ?_, ?_, ?_, ?_⟩
      · intro pfs hpfs hty kv hkv
        have g1 := sizeOf_getOpt hpfs
        have g2 := List.sizeOf_lt_of_mem hkv
        have g3 : sizeOf kv.2 < sizeOf kv := by
          obtain ⟨a, b⟩ := kv
          simp
        refine ih kv.2 (by simp at g1; omega) (h1 pfs hpfs hty kv hkv)
      · intro iv hiv hty
        have g1 := sizeOf_getOpt hiv
        exact ih iv (by omega) (h2 iv hiv hty)
      · intro xs hxs hnn x hx
        have g1 := sizeOf_getOpt hxs
        have g2 := List.sizeOf_lt_of_mem hx
        exact ih x (by simp at g1; omega) (h3 xs hxs hnn x hx)
      · intro xs hxs x hx
        have g1 := sizeOf_getOpt hxs
        have g2 := List.sizeOf_lt_of_mem hx
        exact ih x (by simp at g1; omega) (h4 xs hxs x hx)
    | jnull => exact allNodesB_of_not_jobj _ _ (fun fs he => by cases he)
    | jbool b => exact allNodesB_of_not_jobj _ _ (fun fs he => by cases he)
    | jnum m => exact allNodesB_of_not_jobj _ _ (fun fs he => by cases he)
    | jstr s => exact allNodesB_of_not_jobj _ _ (fun fs he => by cases he)
    | jarr xs => exact allNodesB_of_not_jobj _ _ (fun fs he => by cases he)

theorem clean_invMarker : ∀ (f : Nat) (S r : JVal),
    clean f S = some r → invMarkerChk r = true := by
  intro f
  induction f with
  | zero => intro S r h; simp [clean] at h
  | succ f ih =>
    intro S r h
    simp only [clean] at h
    cases S with
    | jnull =>
      simp only [cleanCore] at h
      cases h
      exact allNodesB_of_not_jobj _ _ (fun fs he => by cases he)
    | jbool b =>
      simp only [cleanCore] at h
      cases h
      exact allNodesB_of_not_jobj _ _ (fun fs he => by cases he)
    | jnum n =>
      simp only [cleanCore] at h
      cases h
      exact allNodesB_of_not_jobj _ _ (fun fs he => by cases he)
    | jstr s =>
      simp only [cleanCore] at h
      cases h
      exact allNodesB_of_not_jobj _ _ (fun fs he => by cases he)
    | jarr xs =>
      simp only [cleanCore] at h
      exact chain_invMarker (fun v c hc => ih v c hc) h
    | jobj fs =>
      simp only [cleanCore] at h
      exact chain_invMarker (fun v c hc => ih v c hc) h

theorem list_all_congr {α : Type _} {l : List α} {f g : α → Bool}
    (h : ∀ a ∈ l, f a = g a) : l.all f = l.all g := by
  induction l with
  | nil => rfl
  | cons x xs ih =>
    simp only [List.all_cons, h x (List.mem_cons_self _ _),
      ih (fun a ha => h a (List.mem_cons_of_mem _ ha))]

theorem kwLocal_delKey_m (w : Rec) :
    kwLocal (delKey w "_isOptional") = kwLocal w := by
  unfold kwLocal
  refine list_all_congr ?_
  intro kw hkw
  have hne : kw ≠ "_isOptional" := by
    fin_cases hkw <;> decide
  rw [getOpt_delKey_ne _ _ _ hne]

theorem snd_mem_of_mem_enum {α : Type _} {p : Nat × α} {l : List α}
    (h : p ∈ l.enum) : p.2 ∈ l := by
  rw [List.mem_enum_iff_getElem?] at h
  rw [List.getElem?_eq_some] at h
  obtain ⟨hl, he⟩ := h
  rw [← he]
  exact List.getElem_mem _

theorem noSingleNNL_all (xs : List JVal) :
    noSingleNNL xs = xs.all noSingleNN := by
  induction xs with
  | nil => rfl
  | cons x xs ih => simp [noSingleNNL, ih]

theorem noSingleNNF_all (fs : Rec) :
    noSingleNNF fs = fs.all (fun kv => noSingleNN kv.2) := by
  induction fs with
  | nil => rfl
  | cons kv fs ih => simp [noSingleNNF, ih]

theorem noSingleNN_prim {v : JVal} (h1 : ∀ fs, v ≠ JVal.jobj fs)
    (h2 : ∀ xs, v ≠ JVal.jarr xs) : noSingleNN v = true := by
  cases v with
  | jobj fs => exact absurd rfl (h1 fs)
  | jarr xs => exact absurd rfl (h2 xs)
  | jnull => rfl
  | jbool b => rfl
  | jnum n => rfl
  | jstr s => rfl

theorem noSingleNN_jobj {fs : Rec} (h : noSingleNN (.jobj fs) = true) :
    anyOfOKr fs = true ∧ ∀ kv ∈ fs, noSingleNN kv.2 = true := by
  rw [noSingleNN, noSingleNNF_all, Bool.and_eq_true, List.all_eq_true] at h
  exact ⟨h.1, fun kv hkv => h.2 kv hkv⟩

theorem noSingleNN_jarr {xs : List JVal} (h : noSingleNN (.jarr xs) = true) :
    anyOfOKr (jsEntries (.jarr xs)) = true ∧ ∀ x ∈ xs, noSingleNN x = true := by
  rw [noSingleNN, noSingleNNL_all, Bool.and_eq_true, List.all_eq_true] at h
  exact ⟨h.1, fun x hx => h.2 x hx⟩

theorem noSingleNN_entries {v : JVal} (h : noSingleNN v = true) :
    ∀ kv ∈ jsEntries v, noSingleNN kv.2 = true := by
  intro kv hkv
  cases v with
  | jobj fs => exact (noSingleNN_jobj h).2 kv hkv
  | jarr xs =>
    simp only [jsEntries, List.mem_map] at hkv
    obtain ⟨p, hp, hpe⟩ := hkv
    rw [← hpe]
    exact (noSingleNN_jarr h).2 p.2 (snd_mem_of_mem_enum hp)
  | jstr s =>
    simp only [jsEntries, List.mem_map] at hkv
    obtain ⟨p, hp, hpe⟩ := hkv
    rw [← hpe]
    exact noSingleNN_prim (fun a he => by cases he) (fun a he => by cases he)
  | jnull => simp [jsEntries] at hkv
  | jbool b => simp [jsEntries] at hkv
  | jnum n => simp [jsEntries] at hkv

theorem anyOfOKr_congr {w w' : Rec}
    (h : getOpt w "anyOf" = getOpt w' "anyOf") : anyOfOKr w = anyOfOKr w' := by
  unfold anyOfOKr
  rw [h]

theorem cleanPropsLoop_all2 {rc : JVal → Option JVal} {Q : JVal → Prop} :
    ∀ (entries : List (String × JVal)) (acc : Rec) (opts : List String)
      (props : Rec) (opts' : List String),
      cleanPropsLoop rc entries acc opts = some (props, opts') →
      (∀ kv ∈ entries, ∀ st b, cleanPropVal rc kv.2 = some (st, b) → Q st) →
      (∀ kv ∈ acc, Q kv.2) → ∀ kv ∈ props, Q kv.2 := by
  intro entries
  induction entries with
  | nil =>
    intro acc opts props opts' h hQ hacc
    simp only [cleanPropsLoop] at h
    cases h
    exact hacc
  | cons kv0 rest ih =>
    intro acc opts props opts' h hQ hacc
    obtain ⟨k, v⟩ := kv0
    simp only [cleanPropsLoop] at h
    cases hcv : cleanPropVal rc v with
    | none => rw [hcv] at h; cases h
    | some p0 =>
      obtain ⟨st, b⟩ := p0
      rw [hcv] at h
      exact ih _ _ _ _ h
        (fun kv hkv => hQ kv (List.mem_cons_of_mem _ hkv))
        (setKey_all hacc (hQ (k, v) (List.mem_cons_self _ _) st b hcv))

theorem chain_kwFree {rc : JVal → Option JVal}
    (hrc : ∀ v c, noSingleNN v = true → rc v = some c → kwFreeChk c = true)
    {w0 : Rec} {r : JVal}
    (hA : anyOfOKr w0 = true)
    (hvals : ∀ k v, getOpt w0 k = some v → noSingleNN v = true)
    (h : ((descStep w0).bind fun w1 =>
          (anyOfStep rc (kwStep w1)).bind fun w3 =>
          (objStep rc (typeArrStep w3)).bind fun w5 =>
          (itemsStep rc w5).bind fun w6 =>
          (oneOfStep rc w6).map JVal.jobj) = some r) :
    kwFreeChk r = true := by
  cases h1 : descStep w0 with
  | none => rw [h1] at h; cases h
  | some w1 =>
  rw [h1] at h
  dsimp only [Option.bind] at h
  cases h3 : anyOfStep rc (kwStep w1) with
  | none => rw [h3] at h; cases h
  | some w3 =>
  rw [h3] at h
  dsimp only [Option.bind] at h
  cases h5 : objStep rc (typeArrStep w3) with
  | none => rw [h5] at h; cases h
  | some w5 =>
  rw [h5] at h
  dsimp only [Option.bind] at h
  cases h6 : itemsStep rc w5 with
  | none => rw [h6] at h; cases h
  | some w6 =>
  rw [h6] at h
  dsimp only [Option.bind] at h
  cases h7 : oneOfStep rc w6 with
  | none => rw [h7] at h; cases h
  | some w7 =>
  rw [h7] at h
  dsimp only [Option.map] at h
  cases h
  obtain ⟨O1, O2, O3, O4, O5, OK, O6⟩ := objStep_spec h5
  obtain ⟨I1, I2, I3⟩ := itemsStep_spec h6
  obtain ⟨N1, N2⟩ := oneOfStep_spec h7
  have hW2 : ∀ k : String, k ≠ "description" → k ∉ UNSUPPORTED_KEYWORDS →
      getOpt (kwStep w1) k = getOpt w0 k := by
    intro k hkd hkm
    rw [kwStep_getOpt, if_neg hkm, descStep_getOpt h1 k hkd]
  have hA2 : anyOfOKr (kwStep w1) = true := by
    rw [anyOfOKr_congr (hW2 "anyOf" (by decide) (by decide))]
    exact hA
  have E3 := fun k hk => anyOfStep_getOpt_nomerge h3 hA2 k hk
  have hW4 : ∀ k : String, k ≠ "description" → k ∉ UNSUPPORTED_KEYWORDS →
      k ≠ "anyOf" → k ≠ "type" → k ≠ "_isOptional" →
      getOpt (typeArrStep w3) k = getOpt w0 k := by
    intro k h1' h2' h3' h4' h5'
    rw [typeArrStep_getOpt _ _ h4' h5', E3 k h3', hW2 k h1' h2']
  have T7 : getOpt w7 "type" = getOpt (typeArrStep w3) "type" := by
    rw [N1 _ (by decide), I1 _ (by decide), O1]
  have P7 : getOpt w7 "properties" = getOpt w5 "properties" := by
    rw [N1 _ (by decide), I1 _ (by decide)]
  have M7 : getOpt w7 "items" = getOpt w6 "items" := N1 _ (by decide)
  have Y7 : getOpt w7 "anyOf" = getOpt w3 "anyOf" := by
    rw [N1 _ (by decide), I1 _ (by decide), O3,
      typeArrStep_getOpt _ _ (by decide) (by decide)]
  unfold kwFreeChk
  rw [allNodesB_jobj_iff]
  refine ⟨?_, ?_, ?_, ?_, ?_⟩
  · unfold kwLocal
    rw [List.all_eq_true]
    intro kw hkw
    have hd : kw ≠ "oneOf" ∧ kw ≠ "items" ∧ kw ≠ "additionalProperties" ∧
        kw ≠ "properties" ∧ kw ≠ "required" ∧ kw ≠ "type" ∧
        kw ≠ "_isOptional" ∧ kw ≠ "anyOf" := by
      fin_cases hkw <;> exact ⟨by decide, by decide, by decide, by decide,
        by decide, by decide, by decide, by decide⟩
    obtain ⟨dO, dI, dA, dP, dR, dT, dM, dY⟩ := hd
    rw [N1 _ dO, I1 _ dI, OK _ dA dP dR, typeArrStep_getOpt _ _ dT dM,
      E3 _ dY, kwStep_getOpt, if_pos hkw]
    rfl
  · intro pfs hpfs hty kv hkv
    have htyW4 : getOpt (typeArrStep w3) "type" = some (.jstr "object") := by
      rw [← T7]; exact hty
    obtain ⟨hAP, hPR⟩ := O5 htyW4
    rcases hPR with ⟨pv, props, opts, hpv, hpvT, hloop, hprops, req, hreq, hreqel⟩ | hnp
    · have hpfs' : pfs = props := by
        have := P7 ▸ hpfs
        rw [hprops] at this
        cases this
        rfl
      subst hpfs'
      have hpv0 : getOpt w0 "properties" = some pv := by
        rw [← hW4 "properties" (by decide) (by decide) (by decide) (by decide) (by decide)]
        exact hpv
      have hpvNS : noSingleNN pv = true := hvals _ _ hpv0
      have hq : ∀ kv2 ∈ jsEntries pv, ∀ st b, cleanPropVal rc kv2.2 = some (st, b) →
          allNodesB kwLocal st = true := by
        intro kv2 hkv2 st b hcv
        have hns := noSingleNN_entries hpvNS kv2 hkv2
        obtain ⟨hmf, c, hc, hst⟩ := cleanPropVal_spec hcv
        rcases hst with rfl | ⟨cfs, rfl, rfl⟩
        · exact hrc _ _ hns hc
        · have hcm := hrc _ _ hns hc
          unfold kwFreeChk at hcm
          exact allNodesB_delKey_isOptional (by simp only [kwLocal_delKey_m]) hcm
      exact cleanPropsLoop_all2 _ _ _ _ _ hloop hq (by intro kv h0; cases h0) kv hkv
    · exact absurd (P7 ▸ hpfs) (hnp pfs)
  · intro iv hiv hty
    have htyW5 : getOpt w5 "type" = some (.jstr "array") := by
      rw [O1, ← T7]; exact hty
    rcases I2 htyW5 with ⟨iv0, c, hiv0, hc, hc7⟩ | ⟨hfal, heq⟩
    · rw [M7, hc7] at hiv
      cases hiv
      have hiv00 : getOpt w0 "items" = some iv0 := by
        rw [← hW4 "items" (by decide) (by decide) (by decide) (by decide) (by decide), ← O2]
        exact hiv0
      exact hrc _ _ (hvals _ _ hiv00) hc
    · rw [M7, heq] at hiv
      exact allNodesB_of_falsy _ (hfal iv hiv)
  · intro xs hxs hnn x hx
    rw [Y7] at hxs
    rcases anyOfStep_anyOf h3 xs hxs with hall | ⟨ys, hys, hm⟩
    · exfalso
      unfold nonNullAlts at hnn
      rw [Bool.and_eq_true] at hnn
      obtain ⟨hlen, hnone⟩ := hnn
      cases xs with
      | nil => simp at hlen
      | cons x0 t =>
        have h0 := hall x0 (List.mem_cons_self _ _)
        rw [List.all_eq_true] at hnone
        have hx1 := hnone x0 (List.mem_cons_self _ _)
        rw [h0] at hx1
        simp at hx1
    · have hys0 : getOpt w0 "anyOf" = some (.jarr ys) := by
        rw [← hW2 "anyOf" (by decide) (by decide)]
        exact hys
      have hysNS := (noSingleNN_jarr (hvals _ _ hys0)).2
      obtain ⟨y, hy, hyc⟩ := listMapM_mem hm x hx
      exact hrc _ _ (hysNS y (List.mem_of_mem_filter hy)) hyc
  · intro xs hxs x hx
    obtain ⟨ys, hys, hm⟩ := N2 xs hxs
    have hys0 : getOpt w0 "oneOf" = some (.jarr ys) := by
      rw [← hW4 "oneOf" (by decide) (by decide) (by decide) (by decide) (by decide),
        ← O4, ← I1 _ (by decide)]
      exact hys
    have hysNS := (noSingleNN_jarr (hvals _ _ hys0)).2
    obtain ⟨y, hy, hyc⟩ := listMapM_mem hm x hx
    exact hrc _ _ (hysNS y hy) hyc

theorem clean_kwFree : ∀ (f : Nat) (S r : JVal),
    noSingleNN S = true → clean f S = some r → kwFreeChk r = true := by
  intro f
  induction f with
  | zero => intro S r _ h; simp [clean] at h
  | succ f ih =>
    intro S r hS h
    simp only [clean] at h
    cases S with
    | jnull =>
      simp only [cleanCore] at h
      cases h
      exact allNodesB_of_not_jobj _ _ (fun fs he => by cases he)
    | jbool b =>
      simp only [cleanCore] at h
      cases h
      exact allNodesB_of_not_jobj _ _ (fun fs he => by cases he)
    | jnum n =>
      simp only [cleanCore] at h
      cases h
      exact allNodesB_of_not_jobj _ _ (fun fs he => by cases he)
    | jstr s =>
      simp only [cleanCore] at h
      cases h
      exact allNodesB_of_not_jobj _ _ (fun fs he => by cases he)
    | jarr xs =>
      simp only [cleanCore] at h
      exact chain_kwFree (fun v c hv hc => ih v c hv hc)
        (noSingleNN_jarr hS).1
        (fun k v hget => noSingleNN_entries hS (k, v) (getOpt_mem hget)) h
    | jobj fs =>
      simp only [cleanCore] at h
      exact chain_kwFree (fun v c hv hc => ih v c hv hc)
        (noSingleNN_jobj hS).1
        (fun k v hget => noSingleNN_entries hS (k, v) (getOpt_mem hget)) h

/-! ## Fixed-point lemmas (the amended idempotence claim) -/

theorem setKey_self : ∀ {w : Rec} {k : String} {v : JVal},
    getOpt w k = some v → setKey w k v = w := by
  intro w
  induction w with
  | nil => intro k v h; simp [getOpt] at h
  | cons kv rest ih =>
    intro k v h
    obtain ⟨k0, v0⟩ := kv
    simp only [getOpt] at h
    by_cases hk : k0 = k
    · rw [if_pos hk] at h
      cases h
      simp [setKey, hk]
    · rw [if_neg hk] at h
      simp [setKey, hk, ih h]

theorem delKey_absent : ∀ {w : Rec} {k : String},
    getOpt w k = none → delKey w k = w := by
  intro w
  induction w with
  | nil => intro k _; rfl
  | cons kv rest ih =>
    intro k h
    obtain ⟨k0, v0⟩ := kv
    simp only [getOpt] at h
    by_cases hk : k0 = k
    · rw [if_pos hk] at h
      cases h
    · rw [if_neg hk] at h
      rw [delKey_cons, if_neg hk, ih h]

theorem setKey_absent : ∀ {w : Rec} {k : String} (v : JVal),
    getOpt w k = none → setKey w k v = w ++ [(k, v)] := by
  intro w
  induction w with
  | nil => intro k v _; rfl
  | cons kv rest ih =>
    intro k v h
    obtain ⟨k0, v0⟩ := kv
    simp only [getOpt] at h
    by_cases hk : k0 = k
    · rw [if_pos hk] at h
      cases h
    · rw [if_neg hk] at h
      simp [setKey, hk, ih v h]

theorem getOpt_append_none {b : Rec} : ∀ {a : Rec} {k : String},
    getOpt a k = none → getOpt (a ++ b) k = getOpt b k := by
  intro a
  induction a with
  | nil => intro k _; rfl
  | cons kv rest ih =>
    intro k h
    obtain ⟨k0, v0⟩ := kv
    simp only [getOpt] at h
    by_cases hk : k0 = k
    · rw [if_pos hk] at h
      cases h
    · rw [if_neg hk] at h
      simp only [List.cons_append, getOpt, if_neg hk]
      exact ih h

theorem getOpt_eq_none_iff : ∀ {w : Rec} {k : String},
    getOpt w k = none ↔ k ∉ w.map Prod.fst := by
  intro w
  induction w with
  | nil => intro k; simp [getOpt]
  | cons kv rest ih =>
    intro k
    obtain ⟨k0, v0⟩ := kv
    simp only [getOpt, List.map_cons, List.mem_cons]
    by_cases hk : k0 = k
    · simp [hk]
    · simp only [if_neg hk, ih]
      constructor
      · intro h hc
        rcases hc with hc | hc
        · exact hk hc.symm
        · exact h hc
      · intro h
        exact fun hc => h (Or.inr hc)

theorem setKey_keys_mem {s : String} : ∀ {w : Rec} {k : String} {v : JVal},
    s ∈ (setKey w k v).map Prod.fst ↔ s ∈ w.map Prod.fst ∨ s = k := by
  intro w
  induction w with
  | nil => intro k v; simp [setKey]
  | cons kv rest ih =>
    intro k v
    obtain ⟨k0, v0⟩ := kv
    by_cases hk : k0 = k
    · subst hk
      have hset : setKey ((k0, v0) :: rest) k0 v = (k0, v) :: rest := by
        simp [setKey]
      rw [hset]
      simp only [List.map_cons, List.mem_cons]
      tauto
    · have hset : setKey ((k0, v0) :: rest) k v = (k0, v0) :: setKey rest k v := by
        simp [setKey, hk]
      rw [hset]
      simp only [List.map_cons, List.mem_cons, ih]
      tauto

theorem setKey_nodup : ∀ {w : Rec} {k : String} {v : JVal},
    (w.map Prod.fst).Nodup → ((setKey w k v).map Prod.fst).Nodup := by
  intro w
  induction w with
  | nil => intro k v _; simp [setKey]
  | cons kv rest ih =>
    intro k v hnd
    obtain ⟨k0, v0⟩ := kv
    simp only [List.map_cons, List.nodup_cons] at hnd
    by_cases hk : k0 = k
    · simp only [setKey, if_pos hk, List.map_cons, List.nodup_cons]
      exact hnd
    · simp only [setKey, if_neg hk, List.map_cons, List.nodup_cons]
      refine ⟨?_, ih hnd.2⟩
      intro hc
      rcases setKey_keys_mem.mp hc with h | h
      · exact hnd.1 h
      · exact hk h

theorem rebuild_nodup : ∀ (entries acc : Rec),
    ((entries.map Prod.fst).Nodup) →
    (∀ k ∈ entries.map Prod.fst, getOpt acc k = none) →
    entries.foldl (fun a kv => setKey a kv.1 kv.2) acc = acc ++ entries := by
  intro entries
  induction entries with
  | nil => intro acc _ _; simp
  | cons kv rest ih =>
    intro acc hnd habs
    obtain ⟨k, v⟩ := kv
    simp only [List.map_cons, List.nodup_cons] at hnd
    simp only [List.foldl_cons]
    rw [setKey_absent v (habs k (by simp))]
    rw [ih (acc ++ [(k, v)]) hnd.2 ?_]
    · simp
    · intro k2 hk2
      rw [getOpt_append_none (habs k2 (by simp [hk2]))]
      have hne : k ≠ k2 := by
        intro he
        exact hnd.1 (he ▸ hk2)
      simp [getOpt, hne]

theorem jsToStr_jstr (s : String) : jsToStr (.jstr s) = s := rfl

theorem kwLocal_getOpt {fs : Rec} (h : kwLocal fs = true) :
    ∀ kw ∈ UNSUPPORTED_KEYWORDS, getOpt fs kw = none := by
  rw [kwLocal, List.all_eq_true] at h
  intro kw hkw
  have h2 := h kw hkw
  cases he : getOpt fs kw with
  | none => rfl
  | some v => rw [he] at h2; simp at h2

theorem bCD_of_kwLocal {fs : Rec} (h : kwLocal fs = true) :
    buildConstraintDescription fs = "" := by
  have h1 := kwLocal_getOpt h "minLength" (by decide)
  have h2 := kwLocal_getOpt h "maxLength" (by decide)
  have h3 := kwLocal_getOpt h "format" (by decide)
  have h4 := kwLocal_getOpt h "minimum" (by decide)
  have h5 := kwLocal_getOpt h "maximum" (by decide)
  have h6 := kwLocal_getOpt h "exclusiveMinimum" (by decide)
  have h7 := kwLocal_getOpt h "exclusiveMaximum" (by decide)
  have h8 := kwLocal_getOpt h "multipleOf" (by decide)
  have h9 := kwLocal_getOpt h "minItems" (by decide)
  have h10 := kwLocal_getOpt h "maxItems" (by decide)
  have h11 := kwLocal_getOpt h "uniqueItems" (by decide)
  have h12 := kwLocal_getOpt h "minProperties" (by decide)
  have h13 := kwLocal_getOpt h "maxProperties" (by decide)
  simp [buildConstraintDescription, rangeClause, optTruthy,
    h1, h2, h3, h4, h5, h6, h7, h8, h9, h10, h11, h12, h13]

theorem descStep_id {w : Rec} (h : buildConstraintDescription w = "") :
    descStep w = some w := by
  simp [descStep, h]

theorem foldl_delKey_absent : ∀ (ks : List String) (w : Rec),
    (∀ k ∈ ks, getOpt w k = none) → ks.foldl delKey w = w := by
  intro ks
  induction ks with
  | nil => intro w _; rfl
  | cons k rest ih =>
    intro w habs
    simp only [List.foldl_cons]
    rw [delKey_absent (habs k (by simp))]
    exact ih w (fun k2 hk2 => habs k2 (by simp [hk2]))

theorem kwStep_id {fs : Rec} (h : kwLocal fs = true) : kwStep fs = fs :=
  foldl_delKey_absent _ _ (kwLocal_getOpt h)

theorem anyOfStep_none {rc : JVal → Option JVal} {w : Rec}
    (h : getOpt w "anyOf" = none) : anyOfStep rc w = some w := by
  unfold anyOfStep
  rw [h]

theorem typeArrStep_id {w : Rec} (h : typeOKr w = true) : typeArrStep w = w := by
  unfold typeOKr at h
  unfold typeArrStep
  split
  · rename_i ts hts
    rw [hts] at h
    dsimp only at h
    cases hnull : ts.contains (JVal.jstr "null") with
    | false => rw [if_neg (by simp [hnull])]
    | true =>
      rw [hnull] at h
      simp only [Bool.not_true, Bool.false_or] at h
      rw [List.isEmpty_iff] at h
      rw [if_pos (by simp [hnull]), h]
  · rfl

theorem listMapM_id {rc : JVal → Option JVal} : ∀ {xs cs : List JVal},
    (∀ x ∈ xs, ∀ c, rc x = some c → c = x) →
    listMapM rc xs = some cs → cs = xs := by
  intro xs
  induction xs with
  | nil =>
    intro cs _ h
    simp only [listMapM] at h
    cases h
    rfl
  | cons x rest ih =>
    intro cs hid h
    simp only [listMapM] at h
    cases hx : rc x with
    | none => rw [hx] at h; cases h
    | some y =>
      rw [hx] at h
      cases hr : listMapM rc rest with
      | none => rw [hr] at h; cases h
      | some ys =>
        rw [hr] at h
        cases h
        rw [hid x (by simp) y hx,
          ih (fun z hz c hc => hid z (by simp [hz]) c hc) hr]

theorem cleanCore_not_jarr {rc : JVal → Option JVal} {S r : JVal}
    (h : cleanCore rc S = some r) : ∀ xs, r ≠ JVal.jarr xs := by
  intro xs he
  subst he
  cases S with
  | jnull => simp only [cleanCore] at h; cases h
  | jbool b => simp only [cleanCore] at h; cases h
  | jnum n => simp only [cleanCore] at h; cases h
  | jstr s => simp only [cleanCore] at h; cases h
  | jarr l =>
    simp only [cleanCore] at h
    cases h1 : descStep (jsEntries (JVal.jarr l)) with
    | none => rw [h1] at h; cases h
    | some w1 =>
      rw [h1] at h
      dsimp only [Option.bind] at h
      cases h3 : anyOfStep rc (kwStep w1) with
      | none => rw [h3] at h; cases h
      | some w3 =>
        rw [h3] at h
        dsimp only [Option.bind] at h
        cases h5 : objStep rc (typeArrStep w3) with
        | none => rw [h5] at h; cases h
        | some w5 =>
          rw [h5] at h
          dsimp only [Option.bind] at h
          cases h6 : itemsStep rc w5 with
          | none => rw [h6] at h; cases h
          | some w6 =>
            rw [h6] at h
            dsimp only [Option.bind] at h
            cases h7 : oneOfStep rc w6 with
            | none => rw [h7] at h; cases h
            | some w7 =>
              rw [h7] at h
              dsimp only [Option.map] at h
              cases h
  | jobj fs =>
    simp only [cleanCore] at h
    cases h1 : descStep (jsEntries (JVal.jobj fs)) with
    | none => rw [h1] at h; cases h
    | some w1 =>
      rw [h1] at h
      dsimp only [Option.bind] at h
      cases h3 : anyOfStep rc (kwStep w1) with
      | none => rw [h3] at h; cases h
      | some w3 =>
        rw [h3] at h
        dsimp only [Option.bind] at h
        cases h5 : objStep rc (typeArrStep w3) with
        | none => rw [h5] at h; cases h
        | some w5 =>
          rw [h5] at h
          dsimp only [Option.bind] at h
          cases h6 : itemsStep rc w5 with
          | none => rw [h6] at h; cases h
          | some w6 =>
            rw [h6] at h
            dsimp only [Option.bind] at h
            cases h7 : oneOfStep rc w6 with
            | none => rw [h7] at h; cases h
            | some w7 =>
              rw [h7] at h
              dsimp only [Option.map] at h
              cases h

theorem clean_not_jarr : ∀ {f : Nat} {S r : JVal},
    clean f S = some r → ∀ xs, r ≠ JVal.jarr xs := by
  intro f
  cases f with
  | zero => intro S r h; simp [clean] at h
  | succ f =>
    intro S r h
    simp only [clean] at h
    exact cleanCore_not_jarr h

theorem idemOKL_all (xs : List JVal) : idemOKL xs = xs.all idemOK := by
  induction xs with
  | nil => rfl
  | cons x xs ih => simp [idemOKL, ih]

theorem idemOKF_all (fs : Rec) :
    idemOKF fs = fs.all (fun kv => idemOK kv.2) := by
  induction fs with
  | nil => rfl
  | cons kv fs ih => simp [idemOKF, ih]

theorem idemOK_prim {v : JVal} (h1 : ∀ fs, v ≠ JVal.jobj fs)
    (h2 : ∀ xs, v ≠ JVal.jarr xs) : idemOK v = true := by
  cases v with
  | jobj fs => exact absurd rfl (h1 fs)
  | jarr xs => exact absurd rfl (h2 xs)
  | jnull => rfl
  | jbool b => rfl
  | jnum n => rfl
  | jstr s => rfl

theorem idemOK_jobj {fs : Rec} (h : idemOK (.jobj fs) = true) :
    idemLocal fs = true ∧ ∀ kv ∈ fs, idemOK kv.2 = true := by
  rw [idemOK, idemOKF_all, Bool.and_eq_true, List.all_eq_true] at h
  exact ⟨h.1, fun kv hkv => h.2 kv hkv⟩

theorem idemOK_jarr {xs : List JVal} (h : idemOK (.jarr xs) = true) :
    idemLocal (jsEntries (.jarr xs)) = true ∧ ∀ x ∈ xs, idemOK x = true := by
  rw [idemOK, idemOKL_all, Bool.and_eq_true, List.all_eq_true] at h
  exact ⟨h.1, fun x hx => h.2 x hx⟩

theorem idemOK_entries {v : JVal} (h : idemOK v = true) :
    ∀ kv ∈ jsEntries v, idemOK kv.2 = true := by
  intro kv hkv
  cases v with
  | jobj fs => exact (idemOK_jobj h).2 kv hkv
  | jarr xs =>
    simp only [jsEntries, List.mem_map] at hkv
    obtain ⟨p, hp, hpe⟩ := hkv
    rw [← hpe]
    exact (idemOK_jarr h).2 p.2 (snd_mem_of_mem_enum hp)
  | jstr s =>
    simp only [jsEntries, List.mem_map] at hkv
    obtain ⟨p, hp, hpe⟩ := hkv
    rw [← hpe]
    exact idemOK_prim (fun a he => by cases he) (fun a he => by cases he)
  | jnull => simp [jsEntries] at hkv
  | jbool b => simp [jsEntries] at hkv
  | jnum n => simp [jsEntries] at hkv

theorem idemLocal_parts {fs : Rec} (h : idemLocal fs = true) :
    getOpt fs "anyOf" = none ∧ getOpt fs "_isOptional" = none ∧
    (match getOpt fs "type" with
     | some (.jarr ts) => !ts.contains (JVal.jstr "null")
     | _ => true) = true ∧ requiredOKr fs = true := by
  unfold idemLocal at h
  rw [Bool.and_eq_true, Bool.and_eq_true, Bool.and_eq_true] at h
  exact ⟨Option.isNone_iff_eq_none.mp h.1.1.1, Option.isNone_iff_eq_none.mp h.1.1.2,
    h.1.2, h.2⟩

theorem coreLocal_parts {fs : Rec} (h : coreLocal fs = true) :
    getOpt fs "anyOf" = none ∧ getOpt fs "_isOptional" = none ∧
    typeOKr fs = true ∧ cleanedObjOK fs = true ∧ noArrKids fs = true := by
  unfold coreLocal at h
  rw [Bool.and_eq_true, Bool.and_eq_true, Bool.and_eq_true, Bool.and_eq_true] at h
  exact ⟨Option.isNone_iff_eq_none.mp h.1.1.1.1, Option.isNone_iff_eq_none.mp h.1.1.1.2,
    h.1.1.2, h.1.2, h.2⟩

theorem coreLocal_intro {fs : Rec} (h1 : getOpt fs "anyOf" = none)
    (h2 : getOpt fs "_isOptional" = none) (h3 : typeOKr fs = true)
    (h4 : cleanedObjOK fs = true) (h5 : noArrKids fs = true) :
    coreLocal fs = true := by
  unfold coreLocal
  rw [Bool.and_eq_true, Bool.and_eq_true, Bool.and_eq_true, Bool.and_eq_true]
  exact ⟨⟨⟨⟨Option.isNone_iff_eq_none.mpr h1, Option.isNone_iff_eq_none.mpr h2⟩,
    h3⟩, h4⟩, h5⟩

theorem jSizeF_le : ∀ {fs : Rec} {kv : String × JVal},
    kv ∈ fs → jSize kv.2 ≤ jSizeF fs := by
  intro fs
  induction fs with
  | nil => intro kv h; cases h
  | cons kv0 rest ih =>
    intro kv h
    rw [jSizeF]
    rcases List.mem_cons.mp h with h | h
    · subst h; omega
    · have := ih h; omega

theorem jSizeL_le : ∀ {xs : List JVal} {x : JVal},
    x ∈ xs → jSize x ≤ jSizeL xs := by
  intro xs
  induction xs with
  | nil => intro x h; cases h
  | cons x0 rest ih =>
    intro x h
    rw [jSizeL]
    rcases List.mem_cons.mp h with h | h
    · subst h; omega
    · have := ih h; omega

theorem idemOK_noSingleNN_n : ∀ (n : Nat) (v : JVal),
    jSize v ≤ n → idemOK v = true → noSingleNN v = true := by
  intro n
  induction n with
  | zero =>
    intro v hv
    cases v <;> simp [jSize] at hv
  | succ n ih =>
    intro v hv h
    cases v with
    | jobj fs =>
      obtain ⟨hL, hkids⟩ := idemOK_jobj h
      rw [noSingleNN, noSingleNNF_all, Bool.and_eq_true, List.all_eq_true]
      constructor
      · unfold anyOfOKr
        rw [(idemLocal_parts hL).1]
      · intro kv hkv
        refine ih kv.2 ?_ (hkids kv hkv)
        have h1 := jSizeF_le hkv
        have h2 : jSize (JVal.jobj fs) = 1 + jSizeF fs := by rw [jSize]
        omega
    | jarr xs =>
      obtain ⟨hL, hkids⟩ := idemOK_jarr h
      rw [noSingleNN, noSingleNNL_all, Bool.and_eq_true, List.all_eq_true]
      constructor
      · unfold anyOfOKr
        rw [(idemLocal_parts hL).1]
      · intro x hx
        refine ih x ?_ (hkids x hx)
        have h1 := jSizeL_le hx
        have h2 : jSize (JVal.jarr xs) = 1 + jSizeL xs := by rw [jSize]
        omega
    | jnull => rfl
    | jbool b => rfl
    | jnum n0 => rfl
    | jstr s0 => rfl

theorem idemOK_noSingleNN {v : JVal} (h : idemOK v = true) :
    noSingleNN v = true :=
  idemOK_noSingleNN_n (jSize v) v (Nat.le_refl _) h

theorem coreChk_marker {v : JVal} (h : allNodesB coreLocal v = true) :
    optTruthy (vGet v "_isOptional") = false := by
  cases v with
  | jobj fs =>
    have hl := ((allNodesB_jobj_iff _ _).mp h).1
    simp only [vGet, (coreLocal_parts hl).2.1, optTruthy]
  | jnull => rfl
  | jbool b => rfl
  | jnum n => rfl
  | jstr s => rfl
  | jarr xs => rfl

theorem cleanPropVal_fix {rc : JVal → Option JVal} {v st : JVal} {b : Bool}
    (h : cleanPropVal rc v = some (st, b))
    (hid : ∀ c, rc v = some c → c = v)
    (hm : optTruthy (vGet v "_isOptional") = false) :
    st = v ∧ b = false := by
  unfold cleanPropVal at h
  cases hrc : rc v with
  | none => rw [hrc] at h; cases h
  | some c =>
    rw [hrc] at h
    have hcv : c = v := hid c hrc
    subst hcv
    cases c with
    | jnull => simp at h
    | jobj cfs =>
      simp only [vGet] at hm
      simp only [hm, Bool.false_eq_true, if_false] at h
      cases h
      exact ⟨rfl, rfl⟩
    | jbool b0 => simp at h; exact ⟨h.1.symm, h.2⟩
    | jnum n => simp at h; exact ⟨h.1.symm, h.2⟩
    | jstr s => simp at h; exact ⟨h.1.symm, h.2⟩
    | jarr xs => simp at h; exact ⟨h.1.symm, h.2⟩

theorem cleanPropsLoop_fix {rc : JVal → Option JVal} :
    ∀ (entries acc : Rec) (opts : List String) (props : Rec)
      (opts' : List String),
    cleanPropsLoop rc entries acc opts = some (props, opts') →
    (∀ kv ∈ entries, ∀ c, rc kv.2 = some c → c = kv.2) →
    (∀ kv ∈ entries, optTruthy (vGet kv.2 "_isOptional") = false) →
    props = entries.foldl (fun a kv => setKey a kv.1 kv.2) acc ∧
      opts' = opts := by
  intro entries
  induction entries with
  | nil =>
    intro acc opts props opts' h _ _
    simp only [cleanPropsLoop] at h
    cases h
    exact ⟨rfl, rfl⟩
  | cons kv0 rest ih =>
    intro acc opts props opts' h hid hm
    obtain ⟨k, v⟩ := kv0
    simp only [cleanPropsLoop] at h
    cases hcv : cleanPropVal rc v with
    | none => rw [hcv] at h; cases h
    | some p0 =>
      obtain ⟨st, b⟩ := p0
      rw [hcv] at h
      obtain ⟨hst, hb⟩ := cleanPropVal_fix hcv
        (hid (k, v) (by simp)) (hm (k, v) (by simp))
      subst hst
      subst hb
      simp only [Bool.false_and, if_false] at h
      have hrec := ih (setKey acc k st) opts props opts' h
        (fun kv hkv c hc => hid kv (by simp [hkv]) c hc)
        (fun kv hkv => hm kv (by simp [hkv]))
      simpa [List.foldl_cons] using hrec

theorem cleanPropsLoop_noopt {rc : JVal → Option JVal} :
    ∀ (entries acc : Rec) (opts : List String) (props : Rec)
      (opts' : List String),
    cleanPropsLoop rc entries acc opts = some (props, opts') →
    (∀ kv ∈ entries, ∀ st b, cleanPropVal rc kv.2 = some (st, b) → b = false) →
    opts' = opts := by
  intro entries
  induction entries with
  | nil =>
    intro acc opts props opts' h _
    simp only [cleanPropsLoop] at h
    cases h
    rfl
  | cons kv0 rest ih =>
    intro acc opts props opts' h hb
    obtain ⟨k, v⟩ := kv0
    simp only [cleanPropsLoop] at h
    cases hcv : cleanPropVal rc v with
    | none => rw [hcv] at h; cases h
    | some p0 =>
      obtain ⟨st, b⟩ := p0
      rw [hcv] at h
      have hb0 := hb (k, v) (by simp) st b hcv
      subst hb0
      simp only [Bool.false_and, if_false] at h
      exact ih _ _ _ _ h (fun kv hkv st2 b2 hcv2 => hb kv (by simp [hkv]) st2 b2 hcv2)

theorem cleanPropsLoop_keys {rc : JVal → Option JVal} :
    ∀ (entries acc : Rec) (opts : List String) (props : Rec)
      (opts' : List String),
    cleanPropsLoop rc entries acc opts = some (props, opts') →
    ∀ s : String, s ∈ props.map Prod.fst ↔
      s ∈ acc.map Prod.fst ∨ s ∈ entries.map Prod.fst := by
  intro entries
  induction entries with
  | nil =>
    intro acc opts props opts' h s
    simp only [cleanPropsLoop] at h
    cases h
    simp
  | cons kv0 rest ih =>
    intro acc opts props opts' h s
    obtain ⟨k, v⟩ := kv0
    simp only [cleanPropsLoop] at h
    cases hcv : cleanPropVal rc v with
    | none => rw [hcv] at h; cases h
    | some p0 =>
      obtain ⟨st, b⟩ := p0
      rw [hcv] at h
      rw [ih _ _ _ _ h s]
      simp only [List.map_cons, List.mem_cons]
      rw [setKey_keys_mem]
      tauto

theorem cleanPropsLoop_nodup {rc : JVal → Option JVal} :
    ∀ (entries acc : Rec) (opts : List String) (props : Rec)
      (opts' : List String),
    cleanPropsLoop rc entries acc opts = some (props, opts') →
    (acc.map Prod.fst).Nodup → (props.map Prod.fst).Nodup := by
  intro entries
  induction entries with
  | nil =>
    intro acc opts props opts' h hn
    simp only [cleanPropsLoop] at h
    cases h
    exact hn
  | cons kv0 rest ih =>
    intro acc opts props opts' h hn
    obtain ⟨k, v⟩ := kv0
    simp only [cleanPropsLoop] at h
    cases hcv : cleanPropVal rc v with
    | none => rw [hcv] at h; cases h
    | some p0 =>
      obtain ⟨st, b⟩ := p0
      rw [hcv] at h
      exact ih _ _ _ _ h (setKey_nodup hn)

theorem recomputeRequired_empty_opts (props : Rec) :
    recomputeRequired props [] = .jarr ((props.map Prod.fst).map JVal.jstr) := by
  unfold recomputeRequired
  congr 1
  congr 1
  apply List.filter_eq_self.mpr
  intro a _
  rfl

theorem inOptSet_empty (e : JVal) : inOptSet e [] = false := by
  cases e <;> rfl

theorem requiredStep_out {w props : Rec} {w' : Rec}
    (h : requiredStep w props [] = some w')
    (hval : ∀ l e, getOpt w "required" = some (.jarr l) → e ∈ l →
      (props.map Prod.fst).contains (jsToStr e) = true) :
    (∀ k, k ≠ "required" → getOpt w' k = getOpt w k) ∧
    ∃ req, getOpt w' "required" = some (.jarr req) ∧
      (req.isEmpty = true → props.isEmpty = true) ∧
      ∀ e ∈ req, (props.map Prod.fst).contains (jsToStr e) = true := by
  have hrecomp :
      (∀ k, k ≠ "required" →
        getOpt (setKey w "required" (recomputeRequired props [])) k = getOpt w k) ∧
      ∃ req, getOpt (setKey w "required" (recomputeRequired props []))
          "required" = some (.jarr req) ∧
        (req.isEmpty = true → props.isEmpty = true) ∧
        ∀ e ∈ req, (props.map Prod.fst).contains (jsToStr e) = true := by
    refine ⟨fun k hk => getOpt_setKey_ne _ _ _ _ hk,
      (props.map Prod.fst).map JVal.jstr, ?_, ?_, ?_⟩
    · rw [recomputeRequired_empty_opts, getOpt_setKey_self]
    · intro he
      cases props with
      | nil => rfl
      | cons kv rest => simp at he
    · intro e he
      obtain ⟨k, hk, rfl⟩ := List.mem_map.mp he
      rw [jsToStr_jstr]
      exact List.elem_eq_true_of_mem hk
  unfold requiredStep at h
  cases hro : getOpt w "required" with
  | none =>
    rw [hro] at h
    cases h
    exact hrecomp
  | some r =>
    rw [hro] at h
    dsimp only at h
    by_cases hT : truthy r = true
    · rw [if_neg (by simp [hT])] at h
      cases r with
      | jarr l =>
        cases l with
        | nil =>
          dsimp only at h
          cases h
          exact hrecomp
        | cons e0 l0 =>
          dsimp only at h
          cases h
          have hfil : (e0 :: l0).filter (fun e =>
              inObj props (jsToStr e) && !inOptSet e []) =
              e0 :: l0 := by
            apply List.filter_eq_self.mpr
            intro e he
            unfold inObj
            rw [hval (e0 :: l0) e hro he, inOptSet_empty]
            rfl
          rw [hfil]
          refine ⟨fun k hk => getOpt_setKey_ne _ _ _ _ hk,
            e0 :: l0, getOpt_setKey_self _ _ _, ?_,
            fun e he => hval _ e hro he⟩
          intro he
          simp at he
      | jobj rfs =>
        dsimp only at h
        split at h
        · cases h
          exact hrecomp
        · cases h
      | jnull => dsimp only at h; cases h
      | jbool b2 => dsimp only at h; cases h
      | jnum n2 => dsimp only at h; cases h
      | jstr s2 => dsimp only at h; cases h
    · rw [if_pos (by simp [hT])] at h
      cases h
      exact hrecomp
theorem isArr_false_ne {v : JVal} (h : isArr v = false) :
    ∀ xs, v ≠ JVal.jarr xs := by
  intro xs he
  subst he
  simp [isArr] at h

theorem noArrKids_parts {fs : Rec} (h : noArrKids fs = true) :
    (∀ pfs, getOpt fs "properties" = some (.jobj pfs) →
      getOpt fs "type" = some (.jstr "object") →
      ∀ kv ∈ pfs, isArr kv.2 = false) ∧
    (∀ iv, getOpt fs "items" = some iv →
      getOpt fs "type" = some (.jstr "array") → isArr iv = false) ∧
    (∀ xs, getOpt fs "oneOf" = some (.jarr xs) →
      ∀ x ∈ xs, isArr x = false) := by
  unfold noArrKids at h
  rw [Bool.and_eq_true, Bool.and_eq_true] at h
  obtain ⟨⟨h1, h2⟩, h3⟩ := h
  refine ⟨?_, ?_, ?_⟩
  · intro pfs hp ht kv hkv
    rw [hp, ht] at h1
    have h1x : pfs.all (fun kv => !isArr kv.2) = true := h1
    rw [List.all_eq_true] at h1x
    have := h1x kv hkv
    simpa using this
  · intro iv hi ht
    rw [hi, ht] at h2
    have h2x : (!isArr iv) = true := h2
    simpa using h2x
  · intro xs hx x hxm
    rw [hx] at h3
    have h3x : xs.all (fun x => !isArr x) = true := h3
    rw [List.all_eq_true] at h3x
    have := h3x x hxm
    simpa using this

theorem objStep_fix {rc : JVal → Option JVal} {fs w' : Rec}
    (hOK : cleanedObjOK fs = true)
    (hkids : ∀ pfs, getOpt fs "properties" = some (.jobj pfs) →
      getOpt fs "type" = some (.jstr "object") →
      ∀ kv ∈ pfs, (∀ c, rc kv.2 = some c → c = kv.2) ∧
        optTruthy (vGet kv.2 "_isOptional") = false)
    (h : objStep rc fs = some w') : w' = fs := by
  unfold objStep at h
  split at h
  · rename_i hty
    unfold cleanedObjOK at hOK
    rw [if_pos hty, Bool.and_eq_true] at hOK
    have hAP : getOpt fs "additionalProperties" = some (.jbool false) :=
      of_decide_eq_true hOK.1
    have hOKp := hOK.2
    rw [setKey_self hAP] at h
    cases hpv : getOpt fs "properties" with
    | none =>
      rw [hpv] at h
      dsimp only at h
      cases h
      rfl
    | some pv =>
      rw [hpv] at h hOKp
      dsimp only at h hOKp
      by_cases hpvT : truthy pv = true
      · rw [if_pos hpvT] at h hOKp
        cases pv with
        | jobj pfs =>
          dsimp only at h hOKp
          rw [Bool.and_eq_true] at hOKp
          have hnd : (pfs.map Prod.fst).Nodup := of_decide_eq_true hOKp.1
          have hreqOK := hOKp.2
          dsimp only [jsEntries] at h
          cases hloop : cleanPropsLoop rc pfs [] [] with
          | none => rw [hloop] at h; cases h
          | some pr =>
            obtain ⟨props, opts⟩ := pr
            rw [hloop] at h
            dsimp only at h
            obtain ⟨hprops, hopts⟩ := cleanPropsLoop_fix pfs [] [] props opts hloop
              (fun kv hkv c hc => (hkids pfs hpv hty kv hkv).1 c hc)
              (fun kv hkv => (hkids pfs hpv hty kv hkv).2)
            have hre : props = pfs := by
              rw [hprops, rebuild_nodup pfs [] hnd (fun k _ => rfl)]
              simp
            subst hopts
            rw [hre, setKey_self hpv] at h
            cases hreq : getOpt fs "required" with
            | none =>
              rw [hreq] at hreqOK
              dsimp only at hreqOK
              cases hreqOK
            | some rv =>
              rw [hreq] at hreqOK
              cases rv with
              | jarr l =>
                dsimp only at hreqOK
                rw [Bool.and_eq_true] at hreqOK
                unfold requiredStep at h
                rw [hreq] at h
                dsimp only at h
                rw [if_neg (by simp [truthy])] at h
                cases l with
                | nil =>
                  dsimp only at h
                  have hpfse : pfs = [] := by
                    have he := hreqOK.1
                    simp only [List.isEmpty_nil, Bool.not_true,
                      Bool.false_or] at he
                    exact List.isEmpty_iff.mp he
                  subst hpfse
                  rw [show recomputeRequired [] [] = JVal.jarr [] from rfl] at h
                  rw [setKey_self hreq] at h
                  cases h
                  rfl
                | cons e0 l0 =>
                  dsimp only at h
                  have hall := hreqOK.2
                  rw [List.all_eq_true] at hall
                  have hfil : (e0 :: l0).filter (fun e =>
                      inObj pfs (jsToStr e) && !inOptSet e []) = e0 :: l0 := by
                    apply List.filter_eq_self.mpr
                    intro e he
                    unfold inObj
                    rw [hall e he, inOptSet_empty]
                    rfl
                  rw [hfil, setKey_self hreq] at h
                  cases h
                  rfl
              | jnull => dsimp only at hreqOK; cases hreqOK
              | jbool b2 => dsimp only at hreqOK; cases hreqOK
              | jnum n2 => dsimp only at hreqOK; cases hreqOK
              | jstr s2 => dsimp only at hreqOK; cases hreqOK
              | jobj rfs => dsimp only at hreqOK; cases hreqOK
        | jnull => dsimp only at hOKp; cases hOKp
        | jbool b2 => dsimp only at hOKp; cases hOKp
        | jnum n2 => dsimp only at hOKp; cases hOKp
        | jstr s2 => dsimp only at hOKp; cases hOKp
        | jarr l2 => dsimp only at hOKp; cases hOKp
      · rw [if_neg hpvT] at h
        cases h
        rfl
  · cases h
    rfl

theorem itemsStep_fix {rc : JVal → Option JVal} {fs w' : Rec}
    (hkid : ∀ iv, getOpt fs "items" = some iv →
      getOpt fs "type" = some (.jstr "array") →
      ∀ c, rc iv = some c → c = iv)
    (h : itemsStep rc fs = some w') : w' = fs := by
  unfold itemsStep at h
  split at h
  · rename_i hty
    cases hiv : getOpt fs "items" with
    | none =>
      rw [hiv] at h
      cases h
      rfl
    | some iv =>
      rw [hiv] at h
      dsimp only at h
      by_cases hivT : truthy iv = true
      · rw [if_pos hivT] at h
        cases hrc2 : rc iv with
        | none => rw [hrc2] at h; cases h
        | some c =>
          rw [hrc2] at h
          dsimp only [Option.map] at h
          rw [hkid iv hiv hty c hrc2, setKey_self hiv] at h
          cases h
          rfl
      · rw [if_neg hivT] at h
        cases h
        rfl
  · cases h
    rfl

theorem oneOfStep_fix {rc : JVal → Option JVal} {fs w' : Rec}
    (hkid : ∀ xs, getOpt fs "oneOf" = some (.jarr xs) →
      ∀ x ∈ xs, ∀ c, rc x = some c → c = x)
    (h : oneOfStep rc fs = some w') : w' = fs := by
  unfold oneOfStep at h
  cases hoo : getOpt fs "oneOf" with
  | none =>
    rw [hoo] at h
    cases h
    rfl
  | some ov =>
    rw [hoo] at h
    dsimp only at h
    by_cases hovT : truthy ov = true
    · rw [if_pos hovT] at h
      cases ov with
      | jarr xs =>
        dsimp only at h
        cases hm : listMapM rc xs with
        | none => rw [hm] at h; cases h
        | some cs =>
          rw [hm] at h
          dsimp only [Option.map] at h
          rw [listMapM_id (fun x hx c hc => hkid xs hoo x hx c hc) hm,
            setKey_self hoo] at h
          cases h
          rfl
      | jnull => dsimp only at h; cases h
      | jbool b2 => dsimp only at h; cases h
      | jnum n2 => dsimp only at h; cases h
      | jstr s2 => dsimp only at h; cases h
      | jobj fs2 => dsimp only at h; cases h
    · rw [if_neg hovT] at h
      cases h
      rfl

theorem chain_fix {rc : JVal → Option JVal} {fs : Rec} {r : JVal}
    (hrc : ∀ v c, (∀ xs, v ≠ JVal.jarr xs) → kwFreeChk v = true →
      allNodesB coreLocal v = true → rc v = some c → c = v)
    (hkw : kwFreeChk (.jobj fs) = true)
    (hco : allNodesB coreLocal (.jobj fs) = true)
    (h : ((descStep (jsEntries (JVal.jobj fs))).bind fun w1 =>
          (anyOfStep rc (kwStep w1)).bind fun w3 =>
          (objStep rc (typeArrStep w3)).bind fun w5 =>
          (itemsStep rc w5).bind fun w6 =>
          (oneOfStep rc w6).map JVal.jobj) = some r) :
    r = .jobj fs := by
  have hkwP := (allNodesB_jobj_iff kwLocal fs).mp hkw
  have hcoP := (allNodesB_jobj_iff coreLocal fs).mp hco
  obtain ⟨Kl, K1, K2, K3, K4⟩ := hkwP
  obtain ⟨Cl, C1, C2, C3, C4⟩ := hcoP
  obtain ⟨hao, hmk, htyOK, hobjOK, hnkOK⟩ := coreLocal_parts Cl
  obtain ⟨NK1, NK2, NK3⟩ := noArrKids_parts hnkOK
  dsimp only [jsEntries] at h
  rw [descStep_id (bCD_of_kwLocal Kl)] at h
  dsimp only [Option.bind] at h
  rw [kwStep_id Kl, anyOfStep_none hao] at h
  dsimp only [Option.bind] at h
  rw [typeArrStep_id htyOK] at h
  cases h5 : objStep rc fs with
  | none => rw [h5] at h; cases h
  | some w5 =>
  rw [h5] at h
  dsimp only [Option.bind] at h
  have hw5 : w5 = fs := objStep_fix hobjOK (fun pfs hpv hty kv hkv =>
    ⟨fun c hc => (hrc kv.2 c (isArr_false_ne (NK1 pfs hpv hty kv hkv))
        (K1 pfs hpv hty kv hkv) (C1 pfs hpv hty kv hkv) hc).symm ▸ rfl,
      coreChk_marker (C1 pfs hpv hty kv hkv)⟩) h5
  subst hw5
  cases h6 : itemsStep rc w5 with
  | none => rw [h6] at h; cases h
  | some w6 =>
  rw [h6] at h
  dsimp only [Option.bind] at h
  have hw6 : w6 = w5 := itemsStep_fix (fun iv hiv hty c hc =>
    hrc iv c (isArr_false_ne (NK2 iv hiv hty)) (K2 iv hiv hty)
      (C2 iv hiv hty) hc) h6
  subst hw6
  cases h7 : oneOfStep rc w6 with
  | none => rw [h7] at h; cases h
  | some w7 =>
  rw [h7] at h
  dsimp only [Option.map] at h
  have hw7 : w7 = w6 := oneOfStep_fix (fun xs hxs x hx c hc =>
    hrc x c (isArr_false_ne (NK3 xs hxs x hx)) (K4 xs hxs x hx)
      (C4 xs hxs x hx) hc) h7
  subst hw7
  cases h
  rfl

theorem clean_fix : ∀ (g : Nat) (r r' : JVal),
    (∀ xs, r ≠ JVal.jarr xs) → kwFreeChk r = true →
    allNodesB coreLocal r = true → clean g r = some r' → r' = r := by
  intro g
  induction g with
  | zero => intro r r' _ _ _ h; simp [clean] at h
  | succ g ih =>
    intro r r' hnj hkw hco h
    simp only [clean] at h
    cases r with
    | jnull => simp only [cleanCore] at h; cases h; rfl
    | jbool b => simp only [cleanCore] at h; cases h; rfl
    | jnum n => simp only [cleanCore] at h; cases h; rfl
    | jstr s => simp only [cleanCore] at h; cases h; rfl
    | jarr xs => exact absurd rfl (hnj xs)
    | jobj fs =>
      simp only [cleanCore] at h
      exact chain_fix (fun v c hv hk hc2 hrc2 => ih v c hv hk hc2 hrc2) hkw hco h

theorem requiredOKr_elems {w : Rec} {pv : JVal} {l : List JVal}
    (hOK : requiredOKr w = true)
    (hty : getOpt w "type" = some (.jstr "object"))
    (hpv : getOpt w "properties" = some pv)
    (hpvT : truthy pv = true)
    (hl : getOpt w "required" = some (.jarr l)) :
    ∀ e ∈ l, ∃ s, e = JVal.jstr s ∧ s ∈ (jsEntries pv).map Prod.fst := by
  unfold requiredOKr at hOK
  rw [hty, hpv] at hOK
  have h1 : (if truthy pv = true then
      (match getOpt w "required" with
       | none => true
       | some r =>
         if (!truthy r) = true then true
         else
           match r with
           | JVal.jarr l2 => l2.all (fun e =>
               match e with
               | JVal.jstr s => ((jsEntries pv).map Prod.fst).contains s
               | _ => false)
           | _ => false)
    else true) = true := hOK
  rw [if_pos hpvT, hl] at h1
  have h2 : (if (!truthy (JVal.jarr l)) = true then true
      else l.all (fun e =>
        match e with
        | JVal.jstr s => ((jsEntries pv).map Prod.fst).contains s
        | _ => false)) = true := h1
  rw [if_neg (by simp [truthy])] at h2
  rw [List.all_eq_true] at h2
  intro e he
  have h3 := h2 e he
  cases e with
  | jstr s =>
    have h4 : ((jsEntries pv).map Prod.fst).contains s = true := h3
    exact ⟨s, rfl, List.mem_of_elem_eq_true h4⟩
  | jnull => cases h3
  | jbool b2 => cases h3
  | jnum n2 => cases h3
  | jarr l2 => cases h3
  | jobj fs2 => cases h3

theorem objStep_cleaned {rc : JVal → Option JVal} {w w' : Rec}
    (h : objStep rc w = some w')
    (hty : getOpt w "type" = some (.jstr "object"))
    (hnoopt : ∀ pv, getOpt w "properties" = some pv → ∀ kv ∈ jsEntries pv,
      ∀ st b, cleanPropVal rc kv.2 = some (st, b) → b = false)
    (hreqOK : requiredOKr w = true) :
    getOpt w' "additionalProperties" = some (.jbool false) ∧
    ((∃ pv props, getOpt w "properties" = some pv ∧ truthy pv = true ∧
        cleanPropsLoop rc (jsEntries pv) [] [] = some (props, []) ∧
        getOpt w' "properties" = some (.jobj props) ∧
        (props.map Prod.fst).Nodup ∧
        ∃ req, getOpt w' "required" = some (.jarr req) ∧
          (req.isEmpty = true → props.isEmpty = true) ∧
          ∀ e ∈ req, ((props.map Prod.fst).contains (jsToStr e)) = true) ∨
      (getOpt w' "properties" = getOpt w "properties" ∧
        getOpt w' "required" = getOpt w "required" ∧
        ∀ pv, getOpt w "properties" = some pv → truthy pv = false)) := by
  have hAPne : ∀ k : String, k ≠ "additionalProperties" →
      getOpt (setKey w "additionalProperties" (JVal.jbool false)) k =
        getOpt w k :=
    fun k hk => getOpt_setKey_ne _ _ _ _ hk
  unfold objStep at h
  rw [if_pos hty] at h
  rw [hAPne "properties" (by decide)] at h
  cases hpv : getOpt w "properties" with
  | none =>
    rw [hpv] at h
    dsimp only at h
    cases h
    refine ⟨getOpt_setKey_self _ _ _, Or.inr ⟨(hAPne _ (by decide)).trans hpv,
      hAPne _ (by decide), ?_⟩⟩
    intro pv hpv2
    cases hpv2
  | some pv =>
    rw [hpv] at h
    dsimp only at h
    by_cases hpvT : truthy pv = true
    · rw [if_pos hpvT] at h
      cases hloop : cleanPropsLoop rc (jsEntries pv) [] [] with
      | none => rw [hloop] at h; cases h
      | some pr =>
        obtain ⟨props, opts⟩ := pr
        rw [hloop] at h
        dsimp only at h
        have hopts : opts = [] :=
          cleanPropsLoop_noopt _ _ _ _ _ hloop (hnoopt pv hpv)
        subst hopts
        have hwin : ∀ k, k ≠ "properties" → k ≠ "additionalProperties" →
            getOpt (setKey (setKey w "additionalProperties" (JVal.jbool false))
              "properties" (.jobj props)) k = getOpt w k := by
          intro k h1 h2
          rw [getOpt_setKey_ne _ _ _ _ h1, hAPne k h2]
        have hval : ∀ l e,
            getOpt (setKey (setKey w "additionalProperties" (JVal.jbool false))
              "properties" (.jobj props)) "required" = some (.jarr l) →
            e ∈ l → ((props.map Prod.fst).contains (jsToStr e)) = true := by
          intro l e hl he
          rw [hwin "required" (by decide) (by decide)] at hl
          obtain ⟨s, rfl, hmem⟩ := requiredOKr_elems hreqOK hty hpv hpvT hl e he
          rw [jsToStr_jstr]
          have hmem2 : s ∈ props.map Prod.fst := by
            rw [cleanPropsLoop_keys _ _ _ _ _ hloop s]
            simp [hmem]
          exact List.elem_eq_true_of_mem hmem2
        obtain ⟨hkeys, req, hreq, hreqe, hreqm⟩ := requiredStep_out h hval
        refine ⟨?_, Or.inl ⟨pv, props, rfl, hpvT, hloop, ?_, ?_, req, hreq,
          hreqe, hreqm⟩⟩
        · rw [hkeys _ (by decide), getOpt_setKey_ne _ _ _ _ (by decide),
            getOpt_setKey_self]
        · rw [hkeys _ (by decide), getOpt_setKey_self]
        · exact cleanPropsLoop_nodup _ _ _ _ _ hloop (by simp)
    · rw [if_neg hpvT] at h
      cases h
      refine ⟨getOpt_setKey_self _ _ _, Or.inr ⟨(hAPne _ (by decide)).trans hpv,
        hAPne _ (by decide), ?_⟩⟩
      intro pv2 hpv2
      cases hpv2
      simpa using hpvT

theorem coreChk_marker_none {cfs : Rec}
    (h : allNodesB coreLocal (.jobj cfs) = true) :
    getOpt cfs "_isOptional" = none :=
  (coreLocal_parts ((allNodesB_jobj_iff _ _).mp h).1).2.1

theorem cleanPropVal_no_marker {rc : JVal → Option JVal} {v st : JVal}
    {b : Bool} (h : cleanPropVal rc v = some (st, b))
    (hm : ∀ c, rc v = some c → optTruthy (vGet c "_isOptional") = false) :
    b = false := by
  unfold cleanPropVal at h
  cases hrc : rc v with
  | none => rw [hrc] at h; cases h
  | some c =>
    rw [hrc] at h
    have hmc := hm c hrc
    cases c with
    | jnull => simp at h
    | jobj cfs =>
      simp only [vGet] at hmc
      simp only [hmc, Bool.false_eq_true, if_false] at h
      cases h
      rfl
    | jbool b0 => simp at h; exact h.2
    | jnum n => simp at h; exact h.2
    | jstr s => simp at h; exact h.2
    | jarr xs => simp at h; exact h.2

theorem cleanPropVal_coreQ {rc : JVal → Option JVal} {v st : JVal} {b : Bool}
    (h : cleanPropVal rc v = some (st, b))
    (hall : ∀ c, rc v = some c → allNodesB coreLocal c = true) :
    allNodesB coreLocal st = true := by
  obtain ⟨hmf, c, hc, hst⟩ := cleanPropVal_spec h
  have hcore := hall c hc
  rcases hst with rfl | ⟨cfs, rfl, rfl⟩
  · exact hcore
  · rw [delKey_absent (coreChk_marker_none hcore)]
    exact hcore

theorem ne_jarr_isArr {v : JVal} (h : ∀ xs, v ≠ JVal.jarr xs) :
    isArr v = false := by
  cases v with
  | jarr xs => exact absurd rfl (h xs)
  | jnull => rfl
  | jbool b => rfl
  | jnum n => rfl
  | jstr s => rfl
  | jobj fs => rfl

theorem isArr_of_falsy {v : JVal} (h : truthy v = false) : isArr v = false :=
  ne_jarr_isArr (fun xs he => by subst he; simp [truthy] at h)

theorem cleanPropVal_arrQ {rc : JVal → Option JVal} {v st : JVal} {b : Bool}
    (h : cleanPropVal rc v = some (st, b))
    (hall : ∀ c, rc v = some c → ∀ xs, c ≠ JVal.jarr xs) :
    isArr st = false := by
  obtain ⟨hmf, c, hc, hst⟩ := cleanPropVal_spec h
  rcases hst with rfl | ⟨cfs, rfl, rfl⟩
  · exact ne_jarr_isArr (hall _ hc)
  · rfl

theorem chain_cleaned {rc : JVal → Option JVal}
    (hrc : ∀ v c, idemOK v = true → rc v = some c →
      allNodesB coreLocal c = true ∧ ∀ xs, c ≠ JVal.jarr xs)
    {w0 : Rec} {r : JVal}
    (hL : idemLocal w0 = true)
    (hvals : ∀ k v, getOpt w0 k = some v → idemOK v = true)
    (h : ((descStep w0).bind fun w1 =>
          (anyOfStep rc (kwStep w1)).bind fun w3 =>
          (objStep rc (typeArrStep w3)).bind fun w5 =>
          (itemsStep rc w5).bind fun w6 =>
          (oneOfStep rc w6).map JVal.jobj) = some r) :
    allNodesB coreLocal r = true := by
  obtain ⟨hao0, hmk0, hty0, hreqOK0⟩ := idemLocal_parts hL
  cases h1 : descStep w0 with
  | none => rw [h1] at h; cases h
  | some w1 =>
  rw [h1] at h
  dsimp only [Option.bind] at h
  have hW2 : ∀ k : String, k ≠ "description" → k ∉ UNSUPPORTED_KEYWORDS →
      getOpt (kwStep w1) k = getOpt w0 k := by
    intro k hkd hkm
    rw [kwStep_getOpt, if_neg hkm, descStep_getOpt h1 k hkd]
  have haoW : getOpt (kwStep w1) "anyOf" = none := by
    rw [hW2 "anyOf" (by decide) (by decide)]
    exact hao0
  rw [anyOfStep_none haoW] at h
  dsimp only [Option.bind] at h
  have htyW : typeOKr (kwStep w1) = true := by
    unfold typeOKr
    rw [hW2 "type" (by decide) (by decide)]
    cases hgt : getOpt w0 "type" with
    | none => rfl
    | some tv =>
      cases tv with
      | jarr ts =>
        rw [hgt] at hty0
        have hty0x : (!ts.contains (JVal.jstr "null")) = true := hty0
        dsimp only
        rw [hty0x]
        rfl
      | jnull => rfl
      | jbool b2 => rfl
      | jnum n2 => rfl
      | jstr s2 => rfl
      | jobj fs2 => rfl
  rw [typeArrStep_id htyW] at h
  cases h5 : objStep rc (kwStep w1) with
  | none => rw [h5] at h; cases h
  | some w5 =>
  rw [h5] at h
  dsimp only [Option.bind] at h
  cases h6 : itemsStep rc w5 with
  | none => rw [h6] at h; cases h
  | some w6 =>
  rw [h6] at h
  dsimp only [Option.bind] at h
  cases h7 : oneOfStep rc w6 with
  | none => rw [h7] at h; cases h
  | some w7 =>
  rw [h7] at h
  dsimp only [Option.map] at h
  cases h
  obtain ⟨O1, O2, O3, O4, O5, OK, O6⟩ := objStep_spec h5
  obtain ⟨I1, I2, I3⟩ := itemsStep_spec h6
  obtain ⟨N1, N2⟩ := oneOfStep_spec h7
  have T7 : getOpt w7 "type" = getOpt w0 "type" := by
    rw [N1 _ (by decide), I1 _ (by decide), O1, hW2 "type" (by decide) (by decide)]
  have T5 : getOpt w5 "type" = getOpt w0 "type" := by
    rw [O1, hW2 "type" (by decide) (by decide)]
  have P7 : getOpt w7 "properties" = getOpt w5 "properties" := by
    rw [N1 _ (by decide), I1 _ (by decide)]
  have R7 : getOpt w7 "required" = getOpt w5 "required" := by
    rw [N1 _ (by decide), I1 _ (by decide)]
  have M7 : getOpt w7 "items" = getOpt w6 "items" := N1 _ (by decide)
  have Y7 : getOpt w7 "anyOf" = none := by
    rw [N1 _ (by decide), I1 _ (by decide), O3, haoW]
  have MK7 : getOpt w7 "_isOptional" = none := by
    rw [N1 _ (by decide), I1 _ (by decide),
      OK _ (by decide) (by decide) (by decide),
      hW2 "_isOptional" (by decide) (by decide)]
    exact hmk0
  have OO6 : getOpt w6 "oneOf" = getOpt w0 "oneOf" := by
    rw [I1 _ (by decide), OK _ (by decide) (by decide) (by decide),
      hW2 "oneOf" (by decide) (by decide)]
  have IT5 : getOpt w5 "items" = getOpt w0 "items" := by
    rw [OK _ (by decide) (by decide) (by decide),
      hW2 "items" (by decide) (by decide)]
  have HOC : getOpt w0 "type" = some (.jstr "object") →
      getOpt w5 "additionalProperties" = some (.jbool false) ∧
      ((∃ pv props, getOpt (kwStep w1) "properties" = some pv ∧
          truthy pv = true ∧
          cleanPropsLoop rc (jsEntries pv) [] [] = some (props, []) ∧
          getOpt w5 "properties" = some (.jobj props) ∧
          (props.map Prod.fst).Nodup ∧
          ∃ req, getOpt w5 "required" = some (.jarr req) ∧
            (req.isEmpty = true → props.isEmpty = true) ∧
            ∀ e ∈ req, ((props.map Prod.fst).contains (jsToStr e)) = true) ∨
        (getOpt w5 "properties" = getOpt (kwStep w1) "properties" ∧
          getOpt w5 "required" = getOpt (kwStep w1) "required" ∧
          ∀ pv, getOpt (kwStep w1) "properties" = some pv →
            truthy pv = false)) := by
    intro hoty
    refine objStep_cleaned h5 ?_ ?_ ?_
    · rw [hW2 "type" (by decide) (by decide)]
      exact hoty
    · intro pv hpv kv hkv st b hcv
      have hpv0 : getOpt w0 "properties" = some pv := by
        rw [← hW2 "properties" (by decide) (by decide)]
        exact hpv
      have hidem : idemOK kv.2 = true :=
        idemOK_entries (hvals _ _ hpv0) kv hkv
      refine cleanPropVal_no_marker hcv ?_
      intro c hc2
      exact coreChk_marker (hrc _ _ hidem hc2).1
    · unfold requiredOKr
      rw [hW2 "type" (by decide) (by decide),
        hW2 "properties" (by decide) (by decide),
        hW2 "required" (by decide) (by decide)]
      unfold requiredOKr at hreqOK0
      exact hreqOK0
  have hPV0 : getOpt (kwStep w1) "properties" = getOpt w0 "properties" :=
    hW2 "properties" (by decide) (by decide)
  rw [allNodesB_jobj_iff]
  refine ⟨?_, ?_, ?_, ?_, ?_⟩
  · refine coreLocal_intro Y7 MK7 ?_ ?_ ?_
    · unfold typeOKr
      rw [T7]
      cases hgt : getOpt w0 "type" with
      | none => rfl
      | some tv =>
        cases tv with
        | jarr ts =>
          rw [hgt] at hty0
          have hty0x : (!ts.contains (JVal.jstr "null")) = true := hty0
          dsimp only
          rw [hty0x]
          rfl
        | jnull => rfl
        | jbool b2 => rfl
        | jnum n2 => rfl
        | jstr s2 => rfl
        | jobj fs2 => rfl
    · unfold cleanedObjOK
      by_cases hoty : getOpt w7 "type" = some (.jstr "object")
      · rw [if_pos hoty]
        have htyW0 : getOpt w0 "type" = some (.jstr "object") := by
          rw [← T7]
          exact hoty
        obtain ⟨hAP5, hdisj⟩ := HOC htyW0
        rw [Bool.and_eq_true]
        constructor
        · rw [decide_eq_true_eq, N1 _ (by decide), I1 _ (by decide)]
          exact hAP5
        · rcases hdisj with ⟨pv, props, hpv, hpvT, hloop, hprops, hnd, req,
            hreq, hreqe, hreqm⟩ | ⟨hpe, hre, hfal⟩
          · rw [P7, hprops]
            dsimp only
            rw [if_pos (show truthy (JVal.jobj props) = true from rfl)]
            rw [Bool.and_eq_true]
            constructor
            · rw [decide_eq_true_eq]
              exact hnd
            · rw [R7, hreq]
              dsimp only
              rw [Bool.and_eq_true]
              constructor
              · cases hri : req.isEmpty with
                | false => simp
                | true => simp [hreqe hri]
              · rw [List.all_eq_true]
                exact hreqm
          · rw [P7, hpe, hPV0]
            cases hp0 : getOpt w0 "properties" with
            | none => rfl
            | some pv =>
              dsimp only
              rw [if_neg (by simp [hfal pv (hPV0.trans hp0)])]
      · rw [if_neg hoty]
    · unfold noArrKids
      rw [Bool.and_eq_true, Bool.and_eq_true]
      refine ⟨⟨?_, ?_⟩, ?_⟩
      · split
        · rename_i pfs hp7 ht7
          have htyW0 : getOpt w0 "type" = some (.jstr "object") := by
            rw [← T7]
            exact ht7
          obtain ⟨hAP5, hdisj⟩ := HOC htyW0
          rcases hdisj with ⟨pv, props, hpv, hpvT, hloop, hprops, hnd, req,
            hreq, hreqe, hreqm⟩ | ⟨hpe, hre, hfal⟩
          · have hpfs : pfs = props := by
              have hx := P7 ▸ hp7
              rw [hprops] at hx
              cases hx
              rfl
            subst hpfs
            rw [List.all_eq_true]
            intro kv hkv
            have hpv0 : getOpt w0 "properties" = some pv := hPV0 ▸ hpv
            have hq : ∀ kv2 ∈ jsEntries pv, ∀ st b,
                cleanPropVal rc kv2.2 = some (st, b) → isArr st = false := by
              intro kv2 hkv2 st b hcv
              exact cleanPropVal_arrQ hcv (fun c hc =>
                (hrc _ _ (idemOK_entries (hvals _ _ hpv0) kv2 hkv2) hc).2)
            have := cleanPropsLoop_all2 _ _ _ _ _ hloop hq
              (by intro kv2 h0; cases h0) kv hkv
            simp [this]
          · exfalso
            have hx := P7 ▸ hp7
            rw [hpe, hPV0] at hx
            have := hfal _ (hPV0.trans hx)
            simp [truthy] at this
        · rfl
      · split
        · rename_i iv hi7 ht7
          have htyW5 : getOpt w5 "type" = some (.jstr "array") := by
            rw [T5, ← T7]
            exact ht7
          rcases I2 htyW5 with ⟨iv0, c, hiv0, hc, hc7⟩ | ⟨hfal, heq⟩
          · have hx := M7 ▸ hi7
            rw [hc7] at hx
            cases hx
            have hiv00 : getOpt w0 "items" = some iv0 := IT5 ▸ hiv0
            have := (hrc _ _ (hvals _ _ hiv00) hc).2
            simp [ne_jarr_isArr this]
          · have hx := M7 ▸ hi7
            rw [heq] at hx
            simp [isArr_of_falsy (hfal iv hx)]
        · rfl
      · split
        · rename_i xs ho7
          obtain ⟨ys, hys, hm⟩ := N2 xs ho7
          have hys0 : getOpt w0 "oneOf" = some (.jarr ys) := OO6 ▸ hys
          have hidem := (idemOK_jarr (hvals _ _ hys0)).2
          rw [List.all_eq_true]
          intro x hx
          obtain ⟨y, hy, hyc⟩ := listMapM_mem hm x hx
          have := (hrc _ _ (hidem y hy) hyc).2
          simp [ne_jarr_isArr this]
        · rfl
  · intro pfs hpfs hty2 kv hkv
    have htyW0 : getOpt w0 "type" = some (.jstr "object") := by
      rw [← T7]
      exact hty2
    obtain ⟨hAP5, hdisj⟩ := HOC htyW0
    rcases hdisj with ⟨pv, props, hpv, hpvT, hloop, hprops, hnd, req,
      hreq, hreqe, hreqm⟩ | ⟨hpe, hre, hfal⟩
    · have hpfs2 : pfs = props := by
        have hx := P7 ▸ hpfs
        rw [hprops] at hx
        cases hx
        rfl
      subst hpfs2
      have hpv0 : getOpt w0 "properties" = some pv := hPV0 ▸ hpv
      have hq : ∀ kv2 ∈ jsEntries pv, ∀ st b,
          cleanPropVal rc kv2.2 = some (st, b) →
          allNodesB coreLocal st = true := by
        intro kv2 hkv2 st b hcv
        exact cleanPropVal_coreQ hcv (fun c hc =>
          (hrc _ _ (idemOK_entries (hvals _ _ hpv0) kv2 hkv2) hc).1)
      exact cleanPropsLoop_all2 _ _ _ _ _ hloop hq
        (by intro kv2 h0; cases h0) kv hkv
    · exfalso
      have hx := P7 ▸ hpfs
      rw [hpe, hPV0] at hx
      have := hfal _ (hPV0.trans hx)
      simp [truthy] at this
  · intro iv hiv hty2
    have htyW5 : getOpt w5 "type" = some (.jstr "array") := by
      rw [T5, ← T7]
      exact hty2
    rcases I2 htyW5 with ⟨iv0, c, hiv0, hc, hc7⟩ | ⟨hfal, heq⟩
    · have hx := M7 ▸ hiv
      rw [hc7] at hx
      cases hx
      have hiv00 : getOpt w0 "items" = some iv0 := IT5 ▸ hiv0
      exact (hrc _ _ (hvals _ _ hiv00) hc).1
    · have hx := M7 ▸ hiv
      rw [heq] at hx
      exact allNodesB_of_falsy _ (hfal iv hx)
  · intro xs hxs hnn x hx
    rw [Y7] at hxs
    cases hxs
  · intro xs hxs x hx
    obtain ⟨ys, hys, hm⟩ := N2 xs hxs
    have hys0 : getOpt w0 "oneOf" = some (.jarr ys) := OO6 ▸ hys
    have hidem := (idemOK_jarr (hvals _ _ hys0)).2
    obtain ⟨y, hy, hyc⟩ := listMapM_mem hm x hx
    exact (hrc _ _ (hidem y hy) hyc).1

theorem clean_core : ∀ (f : Nat) (S r : JVal),
    idemOK S = true → clean f S = some r →
    allNodesB coreLocal r = true := by
  intro f
  induction f with
  | zero => intro S r _ h; simp [clean] at h
  | succ f ih =>
    intro S r hS h
    simp only [clean] at h
    cases S with
    | jnull =>
      simp only [cleanCore] at h
      cases h
      exact allNodesB_of_not_jobj _ _ (fun fs he => by cases he)
    | jbool b =>
      simp only [cleanCore] at h
      cases h
      exact allNodesB_of_not_jobj _ _ (fun fs he => by cases he)
    | jnum n =>
      simp only [cleanCore] at h
      cases h
      exact allNodesB_of_not_jobj _ _ (fun fs he => by cases he)
    | jstr s =>
      simp only [cleanCore] at h
      cases h
      exact allNodesB_of_not_jobj _ _ (fun fs he => by cases he)
    | jarr xs =>
      simp only [cleanCore] at h
      exact chain_cleaned (fun v c hv hc => ⟨ih v c hv hc, clean_not_jarr hc⟩)
        (idemOK_jarr hS).1
        (fun k v hget => idemOK_entries hS (k, v) (getOpt_mem hget)) h
    | jobj fs =>
      simp only [cleanCore] at h
      exact chain_cleaned (fun v c hv hc => ⟨ih v c hv hc, clean_not_jarr hc⟩)
        (idemOK_jobj hS).1
        (fun k v hget => idemOK_entries hS (k, v) (getOpt_mem hget)) h

theorem clean_idem : ∀ (f g : Nat) (S r r' : JVal), idemOK S = true →
    clean f S = some r → clean g r = some r' → r' = r :=
  fun f g S r r' hI hf hg =>
    clean_fix g r r' (clean_not_jarr hf)
      (clean_kwFree f S r (idemOK_noSingleNN hI) hf)
      (clean_core f S r hI hf) hg

/-! ## Round-trip lemmas (the amended extraction claim) -/

theorem scanSt_append (cs1 cs2 : List Char) (st : WalkSt) :
    scanSt (cs1 ++ cs2) st =
      (scanSt cs1 st).bind (fun st1 => scanSt cs2 st1) := by
  induction cs1 generalizing st with
  | nil => rfl
  | cons c cs ih =>
    simp only [List.cons_append, scanSt]
    by_cases hr : retHere st c = true
    · rw [if_pos hr, if_pos hr]
      rfl
    · rw [if_neg hr, if_neg hr]
      exact ih (stepChar st c)

theorem walkCount_append_of_scan {cs1 : List Char} {st st1 : WalkSt}
    (h : scanSt cs1 st = some st1) (cs2 : List Char) :
    walkCount (cs1 ++ cs2) st = (walkCount cs2 st1).map (· + cs1.length) := by
  induction cs1 generalizing st with
  | nil =>
    simp only [scanSt] at h
    cases h
    simp only [List.nil_append, List.length_nil]
    cases walkCount cs2 st1 with
    | none => rfl
    | some n => simp
  | cons c cs ih =>
    simp only [scanSt] at h
    by_cases hr : retHere st c = true
    · rw [if_pos hr] at h
      cases h
    · rw [if_neg hr] at h
      simp only [List.cons_append, walkCount, if_neg hr]
      have hih := ih h
      simp only [List.append_eq] at hih ⊢
      rw [hih]
      cases walkCount cs2 st1 with
      | none => rfl
      | some n =>
        simp only [Option.map, List.length_cons, Nat.add_assoc]

theorem retHere_inStr {d : Nat} {c : Char} :
    retHere ⟨d, true, false⟩ c = false := by
  simp [retHere]

theorem retHere_esc {d : Nat} {b : Bool} {c : Char} :
    retHere ⟨d, b, true⟩ c = false := by
  simp [retHere]

theorem retHere_plain {d : Nat} {c : Char} (h : c ≠ '}') :
    retHere ⟨d, false, false⟩ c = false := by
  simp [retHere, h]

theorem retHere_deep {d : Nat} {c : Char} (h : d ≠ 1) :
    retHere ⟨d, false, false⟩ c = false := by
  simp [retHere, h]

theorem scan_plain {cs : List Char}
    (h : ∀ c ∈ cs, c ≠ '\\' ∧ c ≠ '"' ∧ c ≠ '\x7b' ∧ c ≠ '\x7d') (d : Nat) :
    scanSt cs ⟨d, false, false⟩ = some ⟨d, false, false⟩ := by
  induction cs with
  | nil => rfl
  | cons c cs ih =>
    obtain ⟨h1, h2, h3, h4⟩ := h c (by simp)
    simp only [scanSt, retHere_plain h4]
    rw [if_neg (by simp)]
    have hst : stepChar ⟨d, false, false⟩ c = ⟨d, false, false⟩ := by
      simp [stepChar, h1, h2, h3, h4]
    rw [hst]
    exact ih (fun c2 hc2 => h c2 (by simp [hc2]))

theorem scan_escCh (c : Char) (d : Nat) :
    scanSt (escCh c) ⟨d, true, false⟩ = some ⟨d, true, false⟩ := by
  unfold escCh
  by_cases h1 : c = '"'
  · rw [if_pos h1]
    simp [scanSt, retHere, stepChar]
  · rw [if_neg h1]
    by_cases h2 : c = '\\'
    · rw [if_pos h2]
      simp [scanSt, retHere, stepChar]
    · rw [if_neg h2]
      simp only [scanSt, retHere_inStr]
      rw [if_neg (by simp)]
      have hst : stepChar ⟨d, true, false⟩ c = ⟨d, true, false⟩ := by
        simp [stepChar, h1, h2]
      rw [hst]

theorem scan_escList (l : List Char) (d : Nat) :
    scanSt (l.flatMap escCh) ⟨d, true, false⟩ = some ⟨d, true, false⟩ := by
  induction l with
  | nil => rfl
  | cons c cs ih =>
    rw [List.flatMap_cons, scanSt_append, scan_escCh]
    exact ih

theorem scan_quoted (sl : List Char) (rest : List Char) (d : Nat) :
    scanSt ('"' :: (sl.flatMap escCh ++ ('"' :: rest))) ⟨d, false, false⟩ =
      scanSt rest ⟨d, false, false⟩ := by
  simp only [scanSt, retHere_plain (show ('"' : Char) ≠ '\x7d' by decide)]
  rw [if_neg (by simp)]
  have hst : stepChar ⟨d, false, false⟩ '"' = ⟨d, true, false⟩ := by
    simp [stepChar]
  rw [hst, scanSt_append, scan_escList]
  simp only [Option.bind, scanSt, retHere_inStr]
  rw [if_neg (by simp)]
  have hst2 : stepChar ⟨d, true, false⟩ '"' = ⟨d, false, false⟩ := by
    simp [stepChar]
  rw [hst2]

theorem isDig_ne {c : Char} (h : isDig c = true) {x : Char}
    (hx : isDig x = false) : c ≠ x := by
  intro he
  subst he
  rw [h] at hx
  cases hx

theorem isDig_not_ws {c : Char} (h : isDig c = true) : isJsWs c = false := by
  cases hw : isJsWs c with
  | false => rfl
  | true =>
    exfalso
    simp only [isJsWs, Bool.or_eq_true, decide_eq_true_eq] at hw
    rcases hw with ((((h1 | h1) | h1) | h1) | h1) | h1 <;> subst h1 <;>
      exact absurd h (by decide)

theorem natChars_mem : ∀ (n : Nat) {c : Char}, c ∈ natChars n →
    ∃ m, m < 10 ∧ c = digitOf m := by
  intro n
  induction n using Nat.strong_induction_on with
  | _ n ih =>
    intro c hc
    rw [natChars] at hc
    by_cases hn : n < 10
    · rw [if_pos hn] at hc
      simp only [List.mem_singleton] at hc
      exact ⟨n, hn, hc⟩
    · rw [if_neg hn] at hc
      rcases List.mem_append.mp hc with hc | hc
      · exact ih (n / 10) (Nat.div_lt_self (by omega) (by omega)) hc
      · simp only [List.mem_singleton] at hc
        exact ⟨n % 10, Nat.mod_lt n (by omega), hc⟩

theorem digitOf_isDig : ∀ m, m < 10 → isDig (digitOf m) = true := by
  intro m hm
  interval_cases m <;> decide

theorem digitOf_toNat : ∀ m, m < 10 → (digitOf m).toNat - '0'.toNat = m := by
  intro m hm
  interval_cases m <;> decide

theorem natChars_isDig {n : Nat} : ∀ c ∈ natChars n, isDig c = true := by
  intro c hc
  obtain ⟨m, hm, rfl⟩ := natChars_mem n hc
  exact digitOf_isDig m hm

theorem intChars_plain {n : Int} : ∀ c ∈ intChars n,
    c ≠ '\\' ∧ c ≠ '"' ∧ c ≠ '\x7b' ∧ c ≠ '\x7d' := by
  intro c hc
  unfold intChars at hc
  rcases List.mem_append.mp hc with hc | hc
  · split at hc
    · simp only [List.mem_singleton] at hc
      subst hc
      exact ⟨by decide, by decide, by decide, by decide⟩
    · cases hc
  · have hd := natChars_isDig c hc
    exact ⟨isDig_ne hd (by decide), isDig_ne hd (by decide),
      isDig_ne hd (by decide), isDig_ne hd (by decide)⟩

theorem jSize_pos : ∀ v : JVal, 1 ≤ jSize v := by
  intro v
  cases v <;> rw [jSize] <;> omega

theorem scan_render_all : ∀ n : Nat,
    (∀ v, jSize v ≤ n → ∀ d, 1 ≤ d →
      scanSt (renderJ v) ⟨d, false, false⟩ = some ⟨d, false, false⟩) ∧
    (∀ xs, jSizeL xs ≤ n → ∀ d, 1 ≤ d →
      scanSt (renderItemsTail xs) ⟨d, false, false⟩ = some ⟨d, false, false⟩) ∧
    (∀ fs, jSizeF fs ≤ n → ∀ d, 1 ≤ d →
      scanSt (renderFieldsTail fs) ⟨d, false, false⟩ = some ⟨d, false, false⟩) := by
  intro n
  induction n with
  | zero =>
    refine ⟨?_, ?_, ?_⟩
    · intro v hv
      have := jSize_pos v
      omega
    · intro xs hxs d hd
      cases xs with
      | nil =>
        rw [renderItemsTail]
        rfl
      | cons x t =>
        rw [jSizeL] at hxs
        have := jSize_pos x
        omega
    · intro fs hfs d hd
      cases fs with
      | nil =>
        rw [renderFieldsTail]
        rfl
      | cons kv t =>
        rw [jSizeF] at hfs
        have := jSize_pos kv.2
        omega
  | succ n ihn =>
    obtain ⟨ihv, ihl, ihf⟩ := ihn
    have hv : ∀ v, jSize v ≤ n + 1 → ∀ d, 1 ≤ d →
        scanSt (renderJ v) ⟨d, false, false⟩ = some ⟨d, false, false⟩ := by
      intro v hsz d hd
      cases v with
      | jnull =>
        rw [renderJ]
        exact scan_plain (by decide) d
      | jbool b =>
        cases b <;> rw [renderJ] <;> exact scan_plain (by decide) d
      | jnum m =>
        rw [renderJ]
        exact scan_plain intChars_plain d
      | jstr s =>
        rw [renderJ]
        unfold escStr
        exact scan_quoted s.toList [] d
      | jarr xs =>
        cases xs with
        | nil =>
          rw [renderJ]
          exact scan_plain (by decide) d
        | cons x t =>
          rw [jSize, jSizeL] at hsz
          rw [renderJ]
          simp only [scanSt]
          rw [retHere_plain (show ('[' : Char) ≠ '\x7d' by decide)]
          rw [if_neg (by simp)]
          have hst : stepChar ⟨d, false, false⟩ '[' = ⟨d, false, false⟩ := by
            simp [stepChar]
          rw [hst, scanSt_append, ihv x (by omega) d hd]
          simp only [Option.bind]
          rw [scanSt_append, ihl t (by omega) d hd]
          simp only [Option.bind]
          exact scan_plain (by decide) d
      | jobj fs =>
        cases fs with
        | nil =>
          rw [renderJ]
          simp only [scanSt]
          rw [retHere_plain (show ('\x7b' : Char) ≠ '\x7d' by decide)]
          rw [if_neg (by simp)]
          have hst : stepChar ⟨d, false, false⟩ '\x7b' = ⟨d + 1, false, false⟩ := by
            simp [stepChar]
          rw [hst]
          rw [retHere_deep (by omega)]
          rw [if_neg (by simp)]
          have hst2 : stepChar ⟨d + 1, false, false⟩ '\x7d' = ⟨d, false, false⟩ := by
            simp [stepChar]
          rw [hst2]
        | cons kv t =>
          obtain ⟨k, v0⟩ := kv
          rw [jSize, jSizeF] at hsz
          dsimp only at hsz
          rw [renderJ]
          simp only [scanSt]
          rw [retHere_plain (show ('\x7b' : Char) ≠ '\x7d' by decide)]
          rw [if_neg (by simp)]
          have hst : stepChar ⟨d, false, false⟩ '\x7b' = ⟨d + 1, false, false⟩ := by
            simp [stepChar]
          rw [hst, scanSt_append]
          have hfield : scanSt (renderField k v0) ⟨d + 1, false, false⟩ =
              some ⟨d + 1, false, false⟩ := by
            rw [renderField]
            unfold escStr
            rw [scan_quoted k.toList (':' :: renderJ v0) (d + 1)]
            simp only [scanSt]
            rw [retHere_plain (show (':' : Char) ≠ '\x7d' by decide)]
            rw [if_neg (by simp)]
            have hst2 : stepChar ⟨d + 1, false, false⟩ ':' =
                ⟨d + 1, false, false⟩ := by
              simp [stepChar]
            rw [hst2]
            exact ihv v0 (by omega) (d + 1) (by omega)
          rw [hfield]
          simp only [Option.bind]
          rw [scanSt_append, ihf t (by omega) (d + 1) (by omega)]
          simp only [Option.bind]
          simp only [scanSt]
          rw [retHere_deep (by omega)]
          rw [if_neg (by simp)]
          have hst2 : stepChar ⟨d + 1, false, false⟩ '\x7d' =
              ⟨d, false, false⟩ := by
            simp [stepChar]
          rw [hst2]
    refine ⟨hv, ?_, ?_⟩
    · intro xs hxs d hd
      induction xs with
      | nil =>
        rw [renderItemsTail]
        rfl
      | cons x t ihl2 =>
        rw [jSizeL] at hxs
        rw [renderItemsTail]
        simp only [scanSt]
        rw [retHere_plain (show (',' : Char) ≠ '\x7d' by decide)]
        rw [if_neg (by simp)]
        have hst : stepChar ⟨d, false, false⟩ ',' = ⟨d, false, false⟩ := by
          simp [stepChar]
        rw [hst, scanSt_append, hv x (by have := jSize_pos x; omega) d hd]
        simp only [Option.bind]
        exact ihl2 (by have := jSize_pos x; omega)
    · intro fs hfs d hd
      induction fs with
      | nil =>
        rw [renderFieldsTail]
        rfl
      | cons kv t ihf2 =>
        obtain ⟨k, v0⟩ := kv
        rw [jSizeF] at hfs
        dsimp only at hfs
        rw [renderFieldsTail]
        simp only [scanSt]
        rw [retHere_plain (show (',' : Char) ≠ '\x7d' by decide)]
        rw [if_neg (by simp)]
        have hst : stepChar ⟨d, false, false⟩ ',' = ⟨d, false, false⟩ := by
          simp [stepChar]
        rw [hst, scanSt_append]
        have hfield : scanSt (renderField k v0) ⟨d, false, false⟩ =
            some ⟨d, false, false⟩ := by
          rw [renderField]
          unfold escStr
          rw [scan_quoted k.toList (':' :: renderJ v0) d]
          simp only [scanSt]
          rw [retHere_plain (show (':' : Char) ≠ '\x7d' by decide)]
          rw [if_neg (by simp)]
          have hst2 : stepChar ⟨d, false, false⟩ ':' = ⟨d, false, false⟩ := by
            simp [stepChar]
          rw [hst2]
          exact hv v0 (by have := jSize_pos v0; omega) d hd
        rw [hfield]
        simp only [Option.bind]
        exact ihf2 (by have := jSize_pos v0; omega)

theorem scan_renderJ (v : JVal) (d : Nat) (hd : 1 ≤ d) :
    scanSt (renderJ v) ⟨d, false, false⟩ = some ⟨d, false, false⟩ :=
  (scan_render_all (jSize v)).1 v (Nat.le_refl _) d hd

theorem scan_fieldsTail (fs : Rec) (d : Nat) (hd : 1 ≤ d) :
    scanSt (renderFieldsTail fs) ⟨d, false, false⟩ = some ⟨d, false, false⟩ :=
  (scan_render_all (jSizeF fs)).2.2 fs (Nat.le_refl _) d hd

theorem scan_renderField (k : String) (v : JVal) (d : Nat) (hd : 1 ≤ d) :
    scanSt (renderField k v) ⟨d, false, false⟩ = some ⟨d, false, false⟩ := by
  rw [renderField]
  unfold escStr
  rw [scan_quoted k.toList (':' :: renderJ v) d]
  simp only [scanSt]
  rw [retHere_plain (show (':' : Char) ≠ '\x7d' by decide)]
  rw [if_neg (by simp)]
  have hst : stepChar ⟨d, false, false⟩ ':' = ⟨d, false, false⟩ := by
    simp [stepChar]
  rw [hst]
  exact scan_renderJ v d hd

theorem walk_render_obj (fs : Rec) (rest : List Char) :
    walkCount (renderJ (.jobj fs) ++ rest) ⟨0, false, false⟩ =
      some (renderJ (.jobj fs)).length := by
  have hret : retHere ⟨1, false, false⟩ '\x7d' = true := by
    simp [retHere]
  have hst : stepChar ⟨0, false, false⟩ '\x7b' = ⟨1, false, false⟩ := by
    simp [stepChar]
  cases fs with
  | nil =>
    rw [renderJ]
    simp only [List.cons_append, walkCount]
    rw [retHere_plain (show ('\x7b' : Char) ≠ '\x7d' by decide)]
    rw [if_neg (by simp), hst, hret, if_pos rfl]
    rfl
  | cons kv fs' =>
    obtain ⟨k, v⟩ := kv
    rw [renderJ]
    have hassoc : (renderField k v ++ (renderFieldsTail fs' ++ ['\x7d'])) ++
        rest = (renderField k v ++ renderFieldsTail fs') ++ ('\x7d' :: rest) := by
      simp [List.append_assoc]
    simp only [List.cons_append]
    rw [hassoc]
    simp only [walkCount]
    rw [retHere_plain (show ('\x7b' : Char) ≠ '\x7d' by decide)]
    rw [if_neg (by simp), hst]
    have hscan : scanSt (renderField k v ++ renderFieldsTail fs')
        ⟨1, false, false⟩ = some ⟨1, false, false⟩ := by
      rw [scanSt_append, scan_renderField k v 1 (by omega)]
      exact scan_fieldsTail fs' 1 (by omega)
    rw [walkCount_append_of_scan hscan ('\x7d' :: rest)]
    simp only [walkCount, hret, if_pos rfl]
    simp [List.length_append]
    omega

theorem dropWhile_append_all {p : Char → Bool} : ∀ {l1 l2 : List Char},
    (∀ c ∈ l1, p c = true) → (l1 ++ l2).dropWhile p = l2.dropWhile p := by
  intro l1
  induction l1 with
  | nil => intro l2 _; rfl
  | cons c cs ih =>
    intro l2 h
    simp only [List.cons_append, List.dropWhile_cons, h c (by simp)]
    exact ih (fun c2 hc2 => h c2 (by simp [hc2]))

theorem renderJ_obj_head (fs : Rec) :
    ∃ tl, renderJ (.jobj fs) = '\x7b' :: tl := by
  cases fs with
  | nil =>
    rw [renderJ]
    exact ⟨_, rfl⟩
  | cons kv fs' =>
    obtain ⟨k, v⟩ := kv
    rw [renderJ]
    exact ⟨_, rfl⟩

theorem extract_render (pre : List Char) (hpre : ∀ c ∈ pre, c ≠ '\x7b')
    (fs : Rec) (rest : List Char) :
    extractFirstJsonObject (String.mk (pre ++ (renderJ (.jobj fs) ++ rest))) =
      some (jsonStringify (.jobj fs)) := by
  unfold extractFirstJsonObject
  have htl : (String.mk (pre ++ (renderJ (.jobj fs) ++ rest))).toList =
      pre ++ (renderJ (.jobj fs) ++ rest) := rfl
  rw [htl]
  rw [dropWhile_append_all (fun c hc => by simp [hpre c hc])]
  obtain ⟨tl, htlobj⟩ := renderJ_obj_head fs
  rw [htlobj]
  simp only [List.cons_append, List.dropWhile_cons]
  rw [if_neg (by simp)]
  dsimp only
  rw [← List.cons_append, ← htlobj]
  rw [walk_render_obj fs rest]
  simp only [Option.map]
  rw [List.take_left]
  rfl

theorem skipWs_not_ws {c : Char} (h : isJsWs c = false) (l : List Char) :
    skipWs (c :: l) = c :: l := by
  simp [skipWs, h]

theorem takeDigs_stop : ∀ {l : List Char},
    (∀ c, l.head? = some c → isDig c = false) → takeDigs l = ([], l) := by
  intro l h
  cases l with
  | nil => rfl
  | cons c cs => simp [takeDigs, h c rfl]

theorem takeDigs_append : ∀ {ds : List Char} {rest : List Char},
    (∀ c ∈ ds, isDig c = true) →
    (∀ c, rest.head? = some c → isDig c = false) →
    takeDigs (ds ++ rest) = (ds, rest) := by
  intro ds
  induction ds with
  | nil => intro rest _ hr; exact takeDigs_stop hr
  | cons c cs ih =>
    intro rest hd hr
    have hstep : takeDigs ((c :: cs) ++ rest) =
        (c :: (takeDigs (cs ++ rest)).1, (takeDigs (cs ++ rest)).2) := by
      simp [takeDigs, hd c (by simp)]
    rw [hstep, ih (fun c2 hc2 => hd c2 (by simp [hc2])) hr]

theorem digsToNat_append_digit (l : List Char) (d : Char) :
    digsToNat (l ++ [d]) = digsToNat l * 10 + (d.toNat - '0'.toNat) := by
  simp [digsToNat, List.foldl_append]

theorem digsToNat_natChars : ∀ n : Nat, digsToNat (natChars n) = n := by
  intro n
  induction n using Nat.strong_induction_on with
  | _ n ih =>
    rw [natChars]
    by_cases hn : n < 10
    · rw [if_pos hn]
      have : digsToNat [digitOf n] = (digitOf n).toNat - '0'.toNat := by
        simp [digsToNat]
      rw [this, digitOf_toNat n hn]
    · rw [if_neg hn]
      rw [digsToNat_append_digit,
        ih (n / 10) (Nat.div_lt_self (by omega) (by omega)),
        digitOf_toNat (n % 10) (Nat.mod_lt n (by omega))]
      omega

theorem natChars_ne_nil (n : Nat) : natChars n ≠ [] := by
  rw [natChars]
  by_cases hn : n < 10
  · rw [if_pos hn]
    simp
  · rw [if_neg hn]
    simp

theorem renderJ_ne_nil (v : JVal) : renderJ v ≠ [] := by
  cases v with
  | jnull => rw [renderJ]; simp
  | jbool b => cases b <;> rw [renderJ] <;> simp
  | jnum n =>
    rw [renderJ]
    unfold intChars
    intro he
    rcases List.append_eq_nil.mp he with ⟨_, h2⟩
    exact natChars_ne_nil _ h2
  | jstr s => rw [renderJ]; simp
  | jarr xs => cases xs <;> rw [renderJ] <;> simp
  | jobj fs =>
    cases fs with
    | nil => rw [renderJ]; simp
    | cons kv t =>
      obtain ⟨k, v0⟩ := kv
      rw [renderJ]
      simp

theorem renderJ_len_pos (v : JVal) : 1 ≤ (renderJ v).length := by
  cases hl : renderJ v with
  | nil => exact absurd hl (renderJ_ne_nil v)
  | cons c cs => simp

theorem renderJ_head_facts (v : JVal) :
    ∃ c tl, renderJ v = c :: tl ∧ isJsWs c = false ∧ c ≠ ']' := by
  cases v with
  | jnull => exact ⟨'n', _, by rw [renderJ], by decide, by decide⟩
  | jbool b =>
    cases b
    · exact ⟨'f', _, by rw [renderJ], by decide, by decide⟩
    · exact ⟨'t', _, by rw [renderJ], by decide, by decide⟩
  | jnum n =>
    by_cases hn : n < 0
    · refine ⟨'-', natChars n.natAbs, ?_, by decide, by decide⟩
      rw [renderJ]
      unfold intChars
      rw [if_pos hn]
      rfl
    · cases hnc : natChars n.natAbs with
      | nil => exact absurd hnc (natChars_ne_nil _)
      | cons d ds =>
        have hd : isDig d = true := natChars_isDig d (by rw [hnc]; simp)
        refine ⟨d, ds, ?_, isDig_not_ws hd, isDig_ne hd (by decide)⟩
        rw [renderJ]
        unfold intChars
        rw [if_neg hn, hnc]
        rfl
  | jstr s => exact ⟨'"', _, by rw [renderJ], by decide, by decide⟩
  | jarr xs =>
    cases xs with
    | nil => exact ⟨'[', _, by rw [renderJ], by decide, by decide⟩
    | cons x t => exact ⟨'[', _, by rw [renderJ], by decide, by decide⟩
  | jobj fs =>
    cases fs with
    | nil => exact ⟨'\x7b', _, by rw [renderJ], by decide, by decide⟩
    | cons kv t =>
      obtain ⟨k, v0⟩ := kv
      exact ⟨'\x7b', _, by rw [renderJ], by decide, by decide⟩

theorem skipWs_renderJ (v : JVal) (r : List Char) :
    skipWs (renderJ v ++ r) = renderJ v ++ r := by
  obtain ⟨c, tl, he, hws, _⟩ := renderJ_head_facts v
  rw [he, List.cons_append, skipWs_not_ws hws]

theorem parseStrBody_plain {c : Char} (h1 : c ≠ '"') (h2 : c ≠ '\\')
    (acc l : List Char) :
    parseStrBody acc (c :: l) =
      if c.toNat < 32 then none else parseStrBody (c :: acc) l := by
  simp [parseStrBody, h1, h2]

theorem parseStr_escStr : ∀ (l : List Char) (acc rest : List Char),
    (∀ c ∈ l, 32 ≤ c.toNat) →
    parseStrBody acc (l.flatMap escCh ++ ('"' :: rest)) =
      some (String.mk (acc.reverse ++ l), rest) := by
  intro l
  induction l with
  | nil =>
    intro acc rest _
    simp [parseStrBody]
  | cons c cs ih =>
    intro acc rest h
    rw [List.flatMap_cons, List.append_assoc]
    by_cases h1 : c = '"'
    · have hc : escCh c = ['\\', '"'] := by simp [escCh, h1]
      rw [hc]
      simp only [List.cons_append, List.nil_append]
      show parseStrBody ('"' :: acc) (cs.flatMap escCh ++ ('"' :: rest)) = _
      rw [ih ('"' :: acc) rest (fun c2 hc2 => h c2 (by simp [hc2]))]
      subst h1
      simp
    · by_cases h2 : c = '\\'
      · have hc : escCh c = ['\\', '\\'] := by simp [escCh, h2]
        rw [hc]
        simp only [List.cons_append, List.nil_append]
        show parseStrBody ('\\' :: acc) (cs.flatMap escCh ++ ('"' :: rest)) = _
        rw [ih ('\\' :: acc) rest (fun c2 hc2 => h c2 (by simp [hc2]))]
        subst h2
        simp
      · have hc : escCh c = [c] := by simp [escCh, h1, h2]
        rw [hc]
        simp only [List.cons_append, List.nil_append]
        rw [parseStrBody_plain h1 h2]
        rw [if_neg (by have := h c (by simp); omega)]
        rw [ih (c :: acc) rest (fun c2 hc2 => h c2 (by simp [hc2]))]
        simp

theorem string_mk_toList (s : String) : String.mk s.toList = s := rfl

theorem parseIntTok_intChars (n : Int) (rest : List Char)
    (hrest : ∀ c, rest.head? = some c →
      isDig c = false ∧ c ≠ '.' ∧ c ≠ 'e' ∧ c ≠ 'E') :
    parseIntTok (intChars n ++ rest) = some (.jnum n, rest) := by
  have hdigs : takeDigs (natChars n.natAbs ++ rest) =
      (natChars n.natAbs, rest) :=
    takeDigs_append natChars_isDig (fun c hc => (hrest c hc).1)
  obtain ⟨d, ds, hnc⟩ := List.exists_cons_of_ne_nil (natChars_ne_nil n.natAbs)
  have hd : isDig d = true := natChars_isDig d (by rw [hnc]; simp)
  by_cases hneg : n < 0
  · have hi : intChars n ++ rest = '-' :: (natChars n.natAbs ++ rest) := by
      unfold intChars
      rw [if_pos hneg]
      rfl
    rw [hi]
    unfold parseIntTok
    dsimp only
    have hsign : (match '-' :: (natChars n.natAbs ++ rest) with
        | '-' :: r => (true, r)
        | _ => (false, '-' :: (natChars n.natAbs ++ rest))) =
        (true, natChars n.natAbs ++ rest) := rfl
    rw [hsign]
    dsimp only
    rw [hdigs, hnc]
    dsimp only
    split
    · exact absurd rfl (hrest '.' rfl).2.1
    · exact absurd rfl (hrest 'e' rfl).2.2.1
    · exact absurd rfl (hrest 'E' rfl).2.2.2
    · rw [← hnc, digsToNat_natChars]
      have hn2 : -((n.natAbs : Int)) = n := by omega
      rw [if_pos rfl, hn2]
  · have hi : intChars n ++ rest = d :: (ds ++ rest) := by
      unfold intChars
      rw [if_neg hneg, hnc]
      rfl
    rw [hi]
    unfold parseIntTok
    dsimp only
    have hsign : (match d :: (ds ++ rest) with
        | '-' :: r => (true, r)
        | _ => (false, d :: (ds ++ rest))) = (false, d :: (ds ++ rest)) := by
      split
      · rename_i r heq
        injection heq with h1 _
        exact absurd h1 (isDig_ne hd (by decide))
      · rfl
    rw [hsign]
    dsimp only
    rw [← List.cons_append, ← hnc, hdigs, hnc]
    dsimp only
    split
    · exact absurd rfl (hrest '.' rfl).2.1
    · exact absurd rfl (hrest 'e' rfl).2.2.1
    · exact absurd rfl (hrest 'E' rfl).2.2.2
    · rw [← hnc, digsToNat_natChars]
      have hn2 : ((n.natAbs : Int)) = n := by omega
      rw [if_neg (by simp), hn2]

theorem parseV_digit_head (fuel : Nat) {c : Char} (hc : isDig c = true)
    (cs : List Char) :
    parseV (fuel + 1) (c :: cs) = parseIntTok (c :: cs) := by
  have hw : skipWs (c :: cs) = c :: cs := skipWs_not_ws (isDig_not_ws hc) cs
  simp only [parseV, hw]
  split
  · rename_i heq
    injection heq with heq1 _
    subst heq1
    exact absurd hc (by decide)
  · rename_i heq
    injection heq with heq1 _
    subst heq1
    exact absurd hc (by decide)
  · rename_i heq
    injection heq with heq1 _
    subst heq1
    exact absurd hc (by decide)
  · rename_i heq
    injection heq with heq1 _
    subst heq1
    exact absurd hc (by decide)
  · rename_i heq
    injection heq with heq1 _
    subst heq1
    exact absurd hc (by decide)
  · rename_i heq
    injection heq with heq1 _
    subst heq1
    exact absurd hc (by decide)
  · rename_i c2 rest2 heq
    injection heq with heq1 heq2
    subst heq1
    subst heq2
    rw [if_pos (by simp [hc])]
  · rename_i heq
    cases heq

theorem parseV_minus_head (fuel : Nat) (cs : List Char) :
    parseV (fuel + 1) ('-' :: cs) = parseIntTok ('-' :: cs) := rfl

theorem parseV_quote_head (fuel : Nat) (cs : List Char) :
    parseV (fuel + 1) ('"' :: cs) =
      (parseStrBody [] cs).map (fun p => (JVal.jstr p.1, p.2)) := rfl

theorem parseV_lbrack_head (fuel : Nat) (cs : List Char) :
    parseV (fuel + 1) ('[' :: cs) =
      (match skipWs cs with
       | ']' :: r2 => some (JVal.jarr [], r2)
       | cs2 => (parseItems fuel cs2).map (fun p => (JVal.jarr p.1, p.2))) := rfl

theorem parseV_lbrace_head (fuel : Nat) (cs : List Char) :
    parseV (fuel + 1) ('\x7b' :: cs) =
      (match skipWs cs with
       | '\x7d' :: r2 => some (JVal.jobj [], r2)
       | cs2 => (parseFields fuel cs2).map (fun p => (JVal.jobj p.1, p.2))) := rfl

theorem skipWs_renderField (k : String) (v : JVal) (r : List Char) :
    skipWs (renderField k v ++ r) = renderField k v ++ r := by
  rw [renderField, List.cons_append, skipWs_not_ws (by decide)]

theorem okStr_mem {s : String} (h : okStr s = true) :
    ∀ c ∈ s.toList, 32 ≤ c.toNat := by
  rw [okStr, List.all_eq_true] at h
  intro c hc
  simpa using h c hc

theorem parse_render_all : ∀ fuel : Nat,
    (∀ v rest, okJson v = true → (renderJ v).length < fuel →
      (∀ c, rest.head? = some c →
        isDig c = false ∧ c ≠ '.' ∧ c ≠ 'e' ∧ c ≠ 'E') →
      parseV fuel (renderJ v ++ rest) = some (v, rest)) ∧
    (∀ x xs rest, okJson x = true → okJsonL xs = true →
      (renderJ x).length + (renderItemsTail xs).length + 1 < fuel →
      parseItems fuel (renderJ x ++ (renderItemsTail xs ++ (']' :: rest))) =
        some (x :: xs, rest)) ∧
    (∀ k v fs rest, okStr k = true → okJson v = true → okJsonF fs = true →
      (renderField k v).length + (renderFieldsTail fs).length + 1 < fuel →
      parseFields fuel
          (renderField k v ++ (renderFieldsTail fs ++ ('\x7d' :: rest))) =
        some ((k, v) :: fs, rest)) := by
  intro fuel
  induction fuel with
  | zero =>
    refine ⟨?_, ?_, ?_⟩
    · intro v rest _ hlen _
      omega
    · intro x xs rest _ _ hlen
      omega
    · intro k v fs rest _ _ _ hlen
      omega
  | succ fuel ihn =>
    obtain ⟨ihv, ihi, ihf⟩ := ihn
    refine ⟨?_, ?_, ?_⟩
    · intro v rest hok hlen hrest
      cases v with
      | jnull =>
        rw [renderJ]
        simp only [List.cons_append, List.nil_append, parseV]
        rw [skipWs_not_ws (by decide)]
        rfl
      | jbool b =>
        cases b
        · rw [renderJ]
          simp only [List.cons_append, List.nil_append, parseV]
          rw [skipWs_not_ws (by decide)]
          rfl
        · rw [renderJ]
          simp only [List.cons_append, List.nil_append, parseV]
          rw [skipWs_not_ws (by decide)]
          rfl
      | jnum m =>
        by_cases hneg : m < 0
        · have hi : renderJ (.jnum m) ++ rest =
              '-' :: (natChars m.natAbs ++ rest) := by
            rw [renderJ]
            unfold intChars
            rw [if_pos hneg]
            rfl
          rw [hi, parseV_minus_head]
          have hi2 : '-' :: (natChars m.natAbs ++ rest) = intChars m ++ rest := by
            unfold intChars
            rw [if_pos hneg]
            rfl
          rw [hi2]
          exact parseIntTok_intChars m rest hrest
        · obtain ⟨d, ds, hnc⟩ :=
            List.exists_cons_of_ne_nil (natChars_ne_nil m.natAbs)
          have hd : isDig d = true := natChars_isDig d (by rw [hnc]; simp)
          have hi : renderJ (.jnum m) ++ rest = d :: (ds ++ rest) := by
            rw [renderJ]
            unfold intChars
            rw [if_neg hneg, hnc]
            rfl
          rw [hi, parseV_digit_head fuel hd]
          have hi2 : d :: (ds ++ rest) = intChars m ++ rest := by
            unfold intChars
            rw [if_neg hneg, hnc]
            rfl
          rw [hi2]
          exact parseIntTok_intChars m rest hrest
      | jstr s =>
        rw [okJson] at hok
        rw [renderJ]
        have hsh : ('"' :: (escStr s ++ ['"'])) ++ rest =
            '"' :: (escStr s ++ ('"' :: rest)) := by
          simp
        rw [hsh, parseV_quote_head]
        unfold escStr
        rw [parseStr_escStr s.toList [] rest (okStr_mem hok)]
        simp [string_mk_toList]
      | jarr xs =>
        cases xs with
        | nil =>
          rw [renderJ]
          rfl
        | cons x xs2 =>
          rw [renderJ] at hlen ⊢
          rw [okJson, okJsonL, Bool.and_eq_true] at hok
          have hsh : ('[' :: (renderJ x ++ (renderItemsTail xs2 ++ [']']))) ++
              rest =
              '[' :: (renderJ x ++ (renderItemsTail xs2 ++ (']' :: rest))) := by
            simp
          rw [hsh, parseV_lbrack_head]
          rw [skipWs_renderJ x (renderItemsTail xs2 ++ (']' :: rest))]
          simp only [List.length_cons, List.length_append] at hlen
          split
          · rename_i r2 heq
            obtain ⟨c, tl, he, _, hne⟩ := renderJ_head_facts x
            rw [he, List.cons_append] at heq
            injection heq with h1 _
            exact absurd h1 hne
          · rw [ihi x xs2 rest hok.1 hok.2 (by omega)]
            rfl
      | jobj fs =>
        cases fs with
        | nil =>
          rw [renderJ]
          rfl
        | cons kv fs2 =>
          obtain ⟨k, v0⟩ := kv
          rw [renderJ] at hlen ⊢
          rw [okJson, Bool.and_eq_true] at hok
          have hokf := hok.2
          rw [okJsonF, Bool.and_eq_true, Bool.and_eq_true] at hokf
          have hsh : ('\x7b' :: (renderField k v0 ++
              (renderFieldsTail fs2 ++ ['\x7d']))) ++ rest =
              '\x7b' :: (renderField k v0 ++
                (renderFieldsTail fs2 ++ ('\x7d' :: rest))) := by
            simp
          rw [hsh, parseV_lbrace_head]
          rw [skipWs_renderField k v0 (renderFieldsTail fs2 ++ ('\x7d' :: rest))]
          simp only [List.length_cons, List.length_append] at hlen
          split
          · rename_i r2 heq
            rw [renderField, List.cons_append] at heq
            injection heq with h1 _
            exact absurd h1 (by decide)
          · rw [ihf k v0 fs2 rest hokf.1.1 hokf.1.2 hokf.2 (by omega)]
            rfl
    · intro x xs rest hokx hokxs hbound
      have hrest1 : ∀ c,
          (renderItemsTail xs ++ (']' :: rest)).head? = some c →
          isDig c = false ∧ c ≠ '.' ∧ c ≠ 'e' ∧ c ≠ 'E' := by
        cases xs with
        | nil =>
          intro c hc
          rw [renderItemsTail, List.nil_append] at hc
          simp only [List.head?] at hc
          cases hc
          exact ⟨by decide, by decide, by decide, by decide⟩
        | cons y ys =>
          intro c hc
          rw [renderItemsTail, List.cons_append] at hc
          simp only [List.head?] at hc
          cases hc
          exact ⟨by decide, by decide, by decide, by decide⟩
      simp only [parseItems]
      rw [ihv x (renderItemsTail xs ++ (']' :: rest)) hokx (by omega) hrest1]
      dsimp only
      cases xs with
      | nil =>
        rw [renderItemsTail, List.nil_append]
        rw [skipWs_not_ws (by decide)]
        rfl
      | cons y ys =>
        rw [okJsonL, Bool.and_eq_true] at hokxs
        rw [renderItemsTail, List.cons_append]
        rw [skipWs_not_ws (by decide)]
        have hlx := renderJ_len_pos x
        rw [renderItemsTail] at hbound
        simp only [List.length_cons, List.length_append] at hbound
        split
        · rename_i r2 heq
          injection heq with h1 h2
          subst h2
          rw [List.append_assoc]
          rw [skipWs_renderJ y (renderItemsTail ys ++ (']' :: rest))]
          rw [ihi y ys rest hokxs.1 hokxs.2 (by omega)]
          rfl
        · rename_i r2 heq
          injection heq with h1 h2
          exact absurd h1 (by decide)
        · rename_i h1 h2
          exact absurd rfl (fun h => h1 _ h)
    · intro k v fs rest hokk hokv hokfs hbound
      have hrestX : ∀ c,
          (renderFieldsTail fs ++ ('\x7d' :: rest)).head? = some c →
          isDig c = false ∧ c ≠ '.' ∧ c ≠ 'e' ∧ c ≠ 'E' := by
        cases fs with
        | nil =>
          intro c hc
          rw [renderFieldsTail, List.nil_append] at hc
          simp only [List.head?] at hc
          cases hc
          exact ⟨by decide, by decide, by decide, by decide⟩
        | cons kv2 fs2 =>
          obtain ⟨k2, v2⟩ := kv2
          intro c hc
          rw [renderFieldsTail, List.cons_append] at hc
          simp only [List.head?] at hc
          cases hc
          exact ⟨by decide, by decide, by decide, by decide⟩
      simp only [parseFields]
      rw [renderField, List.cons_append]
      rw [skipWs_not_ws (by decide)]
      split
      case h_2 => rename_i h1; exact absurd rfl (fun h => h1 _ h)
      rename_i r heq
      injection heq with h1e h2e
      subst h2e
      have hsh : (escStr k ++ ('"' :: ':' :: renderJ v)) ++
          (renderFieldsTail fs ++ ('\x7d' :: rest)) =
          k.toList.flatMap escCh ++
            ('"' :: (':' :: (renderJ v ++
              (renderFieldsTail fs ++ ('\x7d' :: rest))))) := by
        unfold escStr
        simp [List.append_assoc]
      rw [hsh]
      rw [parseStr_escStr k.toList []
        (':' :: (renderJ v ++ (renderFieldsTail fs ++ ('\x7d' :: rest))))
        (okStr_mem hokk)]
      dsimp only
      rw [skipWs_not_ws (by decide)]
      split
      case h_2 => rename_i h1; exact absurd rfl (fun h => h1 _ h)
      rename_i r2 heq2
      injection heq2 with h1f h2f
      subst h2f
      rw [skipWs_renderJ v (renderFieldsTail fs ++ ('\x7d' :: rest))]
      have hlen2 : (renderJ v).length < fuel := by
        rw [renderField] at hbound
        simp only [List.length_cons, List.length_append] at hbound
        omega
      rw [ihv v (renderFieldsTail fs ++ ('\x7d' :: rest)) hokv hlen2 hrestX]
      dsimp only
      have hkmk : String.mk (List.reverse [] ++ k.toList) = k := by
        simp [string_mk_toList]
      rw [hkmk]
      cases fs with
      | nil =>
        rw [renderFieldsTail, List.nil_append]
        rw [skipWs_not_ws (by decide)]
        rfl
      | cons kv2 fs2 =>
        obtain ⟨k2, v2⟩ := kv2
        rw [okJsonF, Bool.and_eq_true, Bool.and_eq_true] at hokfs
        rw [renderFieldsTail, List.cons_append]
        rw [skipWs_not_ws (by decide)]
        have hlf := renderJ_len_pos v
        rw [renderField, renderFieldsTail] at hbound
        simp only [List.length_cons, List.length_append] at hbound
        split
        · rename_i r4 heq4
          injection heq4 with h1g h2g
          subst h2g
          rw [List.append_assoc]
          rw [skipWs_renderField k2 v2 (renderFieldsTail fs2 ++ ('\x7d' :: rest))]
          rw [ihf k2 v2 fs2 rest hokfs.1.1 hokfs.1.2 hokfs.2 (by omega)]
          rfl
        · rename_i r4 heq4
          injection heq4 with h1g h2g
          exact absurd h1g (by decide)
        · rename_i h1 h2
          exact absurd rfl (fun h => h1 _ h)

theorem jsTrim_wrap (mid : String) :
    jsTrim ("prefix text " ++ mid ++ " suffix text") =
      "prefix text " ++ mid ++ " suffix text" := by
  obtain ⟨l⟩ := mid
  have h0 : ("prefix text " ++ String.mk l ++ " suffix text") =
      String.mk (("prefix text ".toList ++ l) ++ " suffix text".toList) := rfl
  rw [h0]
  unfold jsTrim
  have ht : (String.mk (("prefix text ".toList ++ l) ++ " suffix text".toList)).toList =
      ("prefix text ".toList ++ l) ++ " suffix text".toList := rfl
  rw [ht, List.append_assoc]
  have hd1 : ∀ (x : List Char),
      ("prefix text ".toList ++ x).dropWhile isJsWs = "prefix text ".toList ++ x :=
    fun _ => rfl
  rw [hd1 (l ++ " suffix text".toList)]
  simp only [List.reverse_append]
  rw [List.append_assoc]
  have hd2 : ∀ (x : List Char),
      (" suffix text".toList.reverse ++ x).dropWhile isJsWs =
        " suffix text".toList.reverse ++ x :=
    fun _ => rfl
  rw [hd2 (l.reverse ++ "prefix text ".toList.reverse)]
  apply congrArg
  simp [List.append_assoc]

theorem parseWithFallback_render (fs : Rec) (hok : okJson (.jobj fs) = true) :
    parseWithFallback (jsonStringify (.jobj fs)) = .ok (.jobj fs) := by
  have hp1 := (parse_render_all ((renderJ (.jobj fs)).length + 1)).1 (.jobj fs) [] hok
    (by omega) (by intro c hc; simp at hc)
  rw [List.append_nil] at hp1
  have hjp : jsonParse (jsonStringify (.jobj fs)) = some (.jobj fs) := by
    unfold jsonParse jsonStringify
    have ht : (String.mk (renderJ (.jobj fs))).toList = renderJ (.jobj fs) := rfl
    rw [ht, hp1]
    rfl
  unfold parseWithFallback
  rw [hjp]

/-! ## Claim theorems -/

/-- C2 counterexample: cleaning
`{ anyOf: [{ type: "string", minLength: 5 }, { type: "null" }] }` merges the
single non-null alternative into the parent AFTER the keyword-deletion step
already ran, so the unsupported keyword `minLength` survives into the
output's root record (`kwLocal` fails there), refuting "no node anywhere in
the output tree contains any keyword of the fixed unsupported set ...
including ... nodes produced by merging a single non-null anyOf alternative
into its parent". -/
theorem C2_counterexample :
    clean 5 (JVal.jobj [("anyOf", JVal.jarr
        [JVal.jobj [("type", JVal.jstr "string"), ("minLength", JVal.jnum 5)],
         JVal.jobj [("type", JVal.jstr "null")]])]) =
      some (JVal.jobj [("type", JVal.jstr "string"), ("minLength", JVal.jnum 5),
                       ("_isOptional", JVal.jbool true)]) ∧
    kwLocal [("type", JVal.jstr "string"), ("minLength", JVal.jnum 5),
             ("_isOptional", JVal.jbool true)] = false :=
  ⟨rfl, rfl⟩

/-- C2 (amended): if no node of the input has an `anyOf` with exactly one
non-null-typed alternative (so the late merging branch never fires), then
no cleaner-produced node of the output contains any keyword of the
unsupported set. -/
theorem C2_amended (f : Nat) (S r : JVal) (h1 : noSingleNN S = true)
    (h2 : clean f S = some r) : kwFreeChk r = true :=
  clean_kwFree f S r h1 h2

/-- Witness for C2 (amended) at the schema
`{ type: "string", minLength: 5 }`. -/
theorem C2_amended_witness :
    noSingleNN (JVal.jobj [("type", JVal.jstr "string"),
                           ("minLength", JVal.jnum 5)]) = true ∧
    kwFreeChk (JVal.jobj [("type", JVal.jstr "string")]) = true :=
  ⟨rfl, C2_amended 5 (JVal.jobj [("type", JVal.jstr "string"),
                                 ("minLength", JVal.jnum 5)]) _ rfl rfl⟩

/-- C3 counterexample: cleaning is NOT idempotent.  For the schema
`\x7b type: "object", properties: \x7b a: \x7b anyOf: [\x7b type: "string" \x7d,
\x7b type: "null" \x7d] \x7d \x7d \x7d` the first pass marks `a` optional and recomputes
`required` as `[]`; the second pass sees `required.length === 0`, recomputes
it from the (now non-optional) properties, and produces `required: ["a"]` —
a different object. -/
theorem C3_counterexample :
    clean 10 (JVal.jobj [("type", JVal.jstr "object"),
      ("properties", JVal.jobj [("a", JVal.jobj [("anyOf", JVal.jarr
        [JVal.jobj [("type", JVal.jstr "string")],
         JVal.jobj [("type", JVal.jstr "null")]])])])]) =
      some (JVal.jobj [("type", JVal.jstr "object"),
        ("properties", JVal.jobj [("a", JVal.jobj [("type", JVal.jstr "string")])]),
        ("additionalProperties", JVal.jbool false),
        ("required", JVal.jarr [])]) ∧
    clean 10 (JVal.jobj [("type", JVal.jstr "object"),
        ("properties", JVal.jobj [("a", JVal.jobj [("type", JVal.jstr "string")])]),
        ("additionalProperties", JVal.jbool false),
        ("required", JVal.jarr [])]) =
      some (JVal.jobj [("type", JVal.jstr "object"),
        ("properties", JVal.jobj [("a", JVal.jobj [("type", JVal.jstr "string")])]),
        ("additionalProperties", JVal.jbool false),
        ("required", JVal.jarr [JVal.jstr "a"])]) ∧
    JVal.jobj [("type", JVal.jstr "object"),
        ("properties", JVal.jobj [("a", JVal.jobj [("type", JVal.jstr "string")])]),
        ("additionalProperties", JVal.jbool false),
        ("required", JVal.jarr [JVal.jstr "a"])] ≠
      JVal.jobj [("type", JVal.jstr "object"),
        ("properties", JVal.jobj [("a", JVal.jobj [("type", JVal.jstr "string")])]),
        ("additionalProperties", JVal.jbool false),
        ("required", JVal.jarr [])] :=
  ⟨rfl, rfl, by decide⟩

/-- C3 (amended): cleaning is idempotent on schemas satisfying `idemOK` —
no `anyOf` anywhere, no smuggled `_isOptional` key, no `'null'` inside a
`type` array, and every truthy `required` an array of property names (see
`idemOK`): whenever the first pass succeeds and a second pass over its
output succeeds, the second pass returns the first output byte for byte.
Without the restriction idempotence fails (see the counterexample). -/
theorem C3_amended (f g : Nat) (S r r2 : JVal) (h1 : idemOK S = true)
    (h2 : clean f S = some r) (h3 : clean g r = some r2) : r2 = r :=
  clean_idem f g S r r2 h1 h2 h3

/-- Witness for C3 (amended): a concrete already-consistent schema; the
second pass reproduces the first pass's output exactly. -/
theorem C3_amended_witness :
    idemOK (JVal.jobj [("type", JVal.jstr "object"),
      ("properties", JVal.jobj [("a", JVal.jobj [("type", JVal.jstr "string")])]),
      ("required", JVal.jarr [JVal.jstr "a"])]) = true ∧
    JVal.jobj [("type", JVal.jstr "object"),
      ("properties", JVal.jobj [("a", JVal.jobj [("type", JVal.jstr "string")])]),
      ("required", JVal.jarr [JVal.jstr "a"]),
      ("additionalProperties", JVal.jbool false)] =
    JVal.jobj [("type", JVal.jstr "object"),
      ("properties", JVal.jobj [("a", JVal.jobj [("type", JVal.jstr "string")])]),
      ("required", JVal.jarr [JVal.jstr "a"]),
      ("additionalProperties", JVal.jbool false)] :=
  ⟨rfl, C3_amended 6 6
    (JVal.jobj [("type", JVal.jstr "object"),
      ("properties", JVal.jobj [("a", JVal.jobj [("type", JVal.jstr "string")])]),
      ("required", JVal.jarr [JVal.jstr "a"])]) _ _ rfl rfl rfl⟩

/-- C4 counterexample: `clean ({ anyOf: [{ type: "string" }, { type: "null" }] })`
at the root does NOT yield exactly `{ type: "string" }`: the transient
`_isOptional: true` marker set by the flattening rule remains as an extra
key (nothing strips it at the root). -/
theorem C4_counterexample :
    clean 5 (JVal.jobj [("anyOf", JVal.jarr
        [JVal.jobj [("type", JVal.jstr "string")],
         JVal.jobj [("type", JVal.jstr "null")]])]) =
      some (JVal.jobj [("type", JVal.jstr "string"),
                       ("_isOptional", JVal.jbool true)]) ∧
    JVal.jobj [("type", JVal.jstr "string"), ("_isOptional", JVal.jbool true)] ≠
      JVal.jobj [("type", JVal.jstr "string")] :=
  ⟨rfl, by decide⟩

/-- C4 (amended): flattening `{ anyOf: [{ type: "string" }, { type: "null" }] }`
at the root yields `{ type: "string", _isOptional: true }` (the anyOf key is
gone but the marker leaks); when the same union is the value of a property
`a` of a cleaned object-typed parent, the marker is stripped from the stored
child — the property's value becomes exactly `{ type: "string" }` — and `a`
is excluded from the parent's recomputed `required`, which is `[]` here. -/
theorem C4_amended :
    clean 5 (JVal.jobj [("anyOf", JVal.jarr
        [JVal.jobj [("type", JVal.jstr "string")],
         JVal.jobj [("type", JVal.jstr "null")]])]) =
      some (JVal.jobj [("type", JVal.jstr "string"),
                       ("_isOptional", JVal.jbool true)]) ∧
    clean 10 (JVal.jobj [("type", JVal.jstr "object"),
        ("properties", JVal.jobj [("a", JVal.jobj [("anyOf", JVal.jarr
          [JVal.jobj [("type", JVal.jstr "string")],
           JVal.jobj [("type", JVal.jstr "null")]])])])]) =
      some (JVal.jobj [("type", JVal.jstr "object"),
        ("properties", JVal.jobj [("a", JVal.jobj [("type", JVal.jstr "string")])]),
        ("additionalProperties", JVal.jbool false),
        ("required", JVal.jarr [])]) :=
  ⟨rfl, rfl⟩

/-- C5 counterexample: the transient `_isOptional` marker set by nullable
flattening survives into the OUTPUT at the root node (only values stored
under a processed object node's `properties` get the marker stripped),
refuting "no node anywhere in the output tree carries the transient
optional marker — including the root node itself". -/
theorem C5_counterexample :
    clean 5 (JVal.jobj [("anyOf", JVal.jarr
        [JVal.jobj [("type", JVal.jstr "number")],
         JVal.jobj [("type", JVal.jstr "null")]])]) =
      some (JVal.jobj [("type", JVal.jstr "number"),
                       ("_isOptional", JVal.jbool true)]) ∧
    getOpt [("type", JVal.jstr "number"), ("_isOptional", JVal.jbool true)]
      "_isOptional" = some (JVal.jbool true) :=
  ⟨rfl, rfl⟩

/-- C5 (amended): in cleaner output, values stored under a processed
object-typed node's `properties` never carry a truthy `_isOptional` marker
(the loop strips it before storing); this holds at every cleaner-produced
node.  At other positions — the root, `items`, `anyOf`/`oneOf`
alternatives — the marker can leak. -/
theorem C5_amended (f : Nat) (S r : JVal) (h : clean f S = some r) :
    markerChk r = true :=
  allNodesB_mono (fun fs hf => ((Bool.and_eq_true _ _).mp hf).2)
    (sizeOf r) r (Nat.le_refl _) (clean_invMarker f S r h)

/-- Witness for C5 (amended): a parent whose property `a` was a nullable
union; the stored child is marker-free. -/
theorem C5_amended_witness :
    markerChk (JVal.jobj [("type", JVal.jstr "object"),
      ("properties", JVal.jobj [("a", JVal.jobj [("type", JVal.jstr "string")])]),
      ("additionalProperties", JVal.jbool false),
      ("required", JVal.jarr [])]) = true :=
  C5_amended 10 (JVal.jobj [("type", JVal.jstr "object"),
      ("properties", JVal.jobj [("a", JVal.jobj [("anyOf", JVal.jarr
        [JVal.jobj [("type", JVal.jstr "string")],
         JVal.jobj [("type", JVal.jstr "null")]])])])]) _ rfl

/-- C6 (code bug exhibit): the node `{ type: "string", minLength: 5 }` has a
non-empty constraint description `" (minimum 5 characters)"`, but because
the code guards the append with `if (constraintDesc && cleaned.description)`
(transformer.ts line 246), a node with NO existing description comes out
with no `description` at all — while the same node with a description gets
the suffix.  This contradicts the function's own JSDoc example
(`{ type: 'string', minLength: 5 }` ↦ a node carrying a description) and the
spec's "If there is no existing description, the suffix is still
appended". -/
theorem C6_exhibit :
    buildConstraintDescription [("type", JVal.jstr "string"),
      ("minLength", JVal.jnum 5)] = " (minimum 5 characters)" ∧
    clean 5 (JVal.jobj [("type", JVal.jstr "string"), ("minLength", JVal.jnum 5)]) =
      some (JVal.jobj [("type", JVal.jstr "string")]) ∧
    clean 5 (JVal.jobj [("type", JVal.jstr "string"),
        ("description", JVal.jstr "a name"), ("minLength", JVal.jnum 5)]) =
      some (JVal.jobj [("type", JVal.jstr "string"),
        ("description", JVal.jstr "a name (minimum 5 characters)")]) :=
  ⟨rfl, rfl, rfl⟩

/-- C7 counterexample: the claim quantifies over every valid JSON value
`V`, but `extractAndParse` only recovers top-level OBJECTS.  For the valid
JSON value `42`, the text `"prefix text 42 suffix text"` contains no
`\x7b`, `extractFirstJsonObject` returns null, no fenced code block exists,
and `extractAndParse` throws the extraction error instead of returning
`42`. -/
theorem C7_counterexample :
    extractAndParse "prefix text 42 suffix text" =
      .error ("Could not extract JSON object from response.\n" ++
        "Response (first 500 chars): prefix text 42 suffix text") := rfl

/-- C7 amended: extraction round-trip for top-level JSON OBJECTS.  For
every object value whose strings are control-free, whose numbers are
integers in the exactly-representable double range and whose keys are
duplicate-free (`okJson`), `extractAndParse` on
`"prefix text " + JSON.stringify(V) + " suffix text"` recovers exactly `V`:
the brace-depth walk spans the rendered object (skipping braces and escaped
quotes inside string literals) and `JSON.parse` inverts the rendering. -/
theorem C7_amended (fs : List (String × JVal))
    (hok : okJson (JVal.jobj fs) = true) :
    extractAndParse
        ("prefix text " ++ jsonStringify (JVal.jobj fs) ++ " suffix text") =
      .ok (JVal.jobj fs) := by
  have hex : extractFirstJsonObject
      ("prefix text " ++ jsonStringify (JVal.jobj fs) ++ " suffix text") =
      some (jsonStringify (JVal.jobj fs)) := by
    have h1 : ("prefix text " ++ jsonStringify (JVal.jobj fs) ++
        " suffix text") =
        String.mk ("prefix text ".toList ++
          (renderJ (JVal.jobj fs) ++ " suffix text".toList)) := by
      show String.mk (("prefix text ".toList ++ renderJ (JVal.jobj fs)) ++
        " suffix text".toList) = _
      rw [List.append_assoc]
    rw [h1]
    exact extract_render "prefix text ".toList (by decide) fs
      " suffix text".toList
  simp only [extractAndParse]
  rw [jsTrim_wrap, hex]
  exact parseWithFallback_render fs hok

/-- Witness for C7_amended at the concrete object `\x7b "a": 1 \x7d`. -/
theorem C7_amended_witness :
    okJson (JVal.jobj [("a", JVal.jnum 1)]) = true ∧
    extractAndParse ("prefix text " ++
        jsonStringify (JVal.jobj [("a", JVal.jnum 1)]) ++ " suffix text") =
      .ok (JVal.jobj [("a", JVal.jnum 1)]) :=
  ⟨by decide, C7_amended [("a", JVal.jnum 1)] (by decide)⟩

/-- C8: each precondition of `generateObject` fails fast with a message
naming the missing field, with zero `generateText` invocations (the middle
component of the result triple) and no warning emitted: a falsy `schema`;
then an empty `objectName`; then a missing `generateText` function. -/
theorem C8_preconditions (f : Nat) (p : GenerateObjectParams) :
    (truthy p.schema = false →
      generateObject f p =
        (.error "Schema is required for object generation", 0, [])) ∧
    (truthy p.schema = true → p.objectName = "" →
      generateObject f p =
        (.error "Object name is required for object generation", 0, [])) ∧
    (truthy p.schema = true → p.objectName ≠ "" → p.generateText = none →
      generateObject f p =
        (.error "generateText function is required", 0, [])) := by
  refine ⟨fun h1 => ?_, fun h1 h2 => ?_, fun h1 h2 h3 => ?_⟩
  · simp [generateObject, h1]
  · simp [generateObject, h1, h2]
  · simp [generateObject, h1, h2, h3]

/-- Witness for C8 at three concrete parameter records (schema `null`;
schema present but empty object name; both present but no function). -/
theorem C8_preconditions_witness :
    generateObject 5 ⟨none, JVal.jnull, "user", [], none, none, false⟩ =
      (.error "Schema is required for object generation", 0, []) ∧
    generateObject 5 ⟨none, JVal.jobj [("type", JVal.jstr "object")], "", [],
        none, none, false⟩ =
      (.error "Object name is required for object generation", 0, []) ∧
    generateObject 5 ⟨none, JVal.jobj [("type", JVal.jstr "object")], "user", [],
        none, none, false⟩ =
      (.error "generateText function is required", 0, []) :=
  ⟨(C8_preconditions 5 _).1 rfl,
   (C8_preconditions 5 _).2.1 rfl rfl,
   (C8_preconditions 5 _).2.2 rfl (by decide) rfl⟩

/-- C9: end-to-end packaging on the claim's concrete run — the schema
`{ type: "object", properties: { name: { type: "string" }, age: { type:
"number" } }, required: ["name", "age"] }`, a generation function returning
the text `'{"name": "John", "age": 30}'` with `finishReason` and `usage`
omitted, and `maxTokens` unset — yields exactly the parsed object,
`finishReason = "stop"` and zero-filled usage, after one generation call
and no warnings. -/
theorem C9_packaging :
    generateObject 10
      ⟨some (fun _ _ => ⟨"\x7b\"name\": \"John\", \"age\": 30\x7d", none, none, none⟩),
       JVal.jobj [("type", JVal.jstr "object"),
         ("properties", JVal.jobj
           [("name", JVal.jobj [("type", JVal.jstr "string")]),
            ("age", JVal.jobj [("type", JVal.jstr "number")])]),
         ("required", JVal.jarr [JVal.jstr "name", JVal.jstr "age"])],
       "user", [], none, none, false⟩ =
      (.ok ⟨JVal.jobj [("name", JVal.jstr "John"), ("age", JVal.jnum 30)],
            "stop", (0, 0), none⟩, 1, []) :=
  rfl

/-- C10: whenever the trimmed response text has a balanced first-brace span
(`extractFirstJsonObject` returns one), `extractAndParse` hands exactly that
span to `parseWithFallback` and never consults the fenced-code-block
fallback — even when the span is not valid JSON and a fenced block with
valid JSON appears later in the text. -/
theorem C10_direct_span (s : String) (j : String)
    (h : extractFirstJsonObject (jsTrim s) = some j) :
    extractAndParse s = parseWithFallback j := by
  simp only [extractAndParse, h]

/-- Witness for C10: the text `{bad}` followed by a fenced block holding
valid JSON; the unparsable first span wins and the result is the parse
error, not the fenced block's object. -/
theorem C10_direct_span_witness :
    extractAndParse "\x7bbad\x7d ```json\n\x7b\"a\": 1\x7d\n``` end" =
      parseWithFallback "\x7bbad\x7d" :=
  C10_direct_span _ _ rfl

end CortexSpec
